import Mathlib

set_option maxRecDepth 100000

/-
  Verification development for the flatritrie repository
  (multi-bit trie "Tritrie", its set-accumulating variant "MultiTritrie",
  and the arena-flattened "Flatritrie").

  The C++ templates are embedded shallowly:
  * machine integers of width `W` become `Nat` with explicit `% 2 ^ W`
    at every left shift (the key type `K` guarantees `ip < 2 ^ W`);
  * the `child[CHILDREN]` pointer array of a node becomes a total function
    `Nat → Option Node`; every index the C++ code ever reads or writes is
    `< 2 ^ BITS`, so the function is only observed on that range;
  * the in-place mutation of `add_ip` / `build_node` becomes explicit
    state passing, and exceptions become `Except Err`;
  * the C++ `while (mask_left >= BITS)` loop recurses on `mask_left`,
    which decreases by `BITS ≥ 1` each round; it is embedded with a
    structural fuel argument initialised to `mask_left`, which always
    dominates the number of rounds, so the fuel branch is never the one
    that stops the recursion.
-/

namespace Flatritrie

/-- Error taxonomy of the build/query API (spec section 7). -/
inductive Err where
  | parseError
  | missingMask
  | maskOutOfRange
  | invalidOrder
  | invalidQuery
  deriving DecidableEq, Repr

/-- Tritrie node: a value and one optional child per `BITS`-wide digit
(`Tritrie::Node` in tritrie.hpp). -/
inductive Node where
  | mk (value : Int) (child : Nat → Option Node)

/-- Value stored at a node. -/
def Node.value : Node → Int
  | .mk v _ => v

/-- Child array of a node, as a total function on digit indices. -/
def Node.child : Node → Nat → Option Node
  | .mk _ c => c

/-- Freshly constructed node: `value = def`, all children null. -/
def Node.leaf (d : Int) : Node := .mk d (fun _ => none)

/-- Functional update of one child slot. -/
def setChild (n : Node) (t : Nat) (c : Option Node) : Node :=
  .mk n.value (fun i => if i = t then c else n.child i)

variable (B W : Nat) (d : Int)

/-- One query/insertion step on the address: `ip <<= BITS` on a `W`-bit
unsigned integer. -/
def stepIp (ip : Nat) : Nat := (ip <<< B) % 2 ^ W

/-- Top `BITS` bits of the address: `ip >> (BITS_TOTAL - BITS)`. -/
def topBits (ip : Nat) : Nat := ip >>> (W - B)

/-- The in-level mask of a misaligned tail,
`(MASK_MAX >> (BITS_TOTAL - mask_left)) << (BITS - mask_left)`. -/
def lmask (m : Nat) : Nat := ((2 ^ W - 1) >>> (W - m)) <<< (B - m)

/-- The `for (tri = 0; tri < CHILDREN; tri++)` loop of the misaligned case
of `Tritrie::add_ip`: every index matching the partial key gets (created
and) assigned the inserted value.  The second component counts the nodes
created by `get_or_create`. -/
def misGo (value : Int) (key mask : Nat) : Node × Nat → List Nat → Node × Nat
  | acc, [] => acc
  | (cur, cnt), t :: ts =>
    if t &&& mask = key then
      match cur.child t with
      | some c => misGo value key mask (setChild cur t (some (.mk value c.child)), cnt) ts
      | none =>
          misGo value key mask
            (setChild cur t (some (.mk value (fun _ => none))), cnt + 1) ts
    else misGo value key mask (cur, cnt) ts

/-- Body of `Tritrie::add_ip` after the order check: descend `BITS` bits at
a time creating nodes, then either set the value at the aligned node or
spread it over the matching children of the misaligned last level.
Returns the new subtree and the number of nodes created.  The first
argument is structural fuel; `addIpGo` instantiates it with
`mask_left + 1`, which strictly dominates the number of rounds whenever
`0 < BITS`, so the fuel branch is never taken. -/
def addIpGoF (value : Int) : Nat → Node → Nat → Nat → Node × Nat
  | fuel + 1, cur, ip, mask_left =>
    if 0 < B ∧ B ≤ mask_left then
      let tri := topBits B W ip
      let c0 : Node × Nat :=
        match cur.child tri with
        | some c => (c, 0)
        | none => (Node.leaf d, 1)
      let r := addIpGoF value fuel c0.1 (stepIp B W ip) (mask_left - B)
      (setChild cur tri (some r.1), c0.2 + r.2)
    else if mask_left ≠ 0 then
      misGo value (topBits B W ip) (lmask B W mask_left) (cur, 0) (List.range (2 ^ B))
    else
      (.mk value cur.child, 0)
  | 0, cur, _, _ => (cur, 0)

/-- The mutation performed by `Tritrie::add_ip` on the root subtree. -/
def addIpGo (value : Int) (cur : Node) (ip : Nat) (mask_left : Nat) : Node × Nat :=
  addIpGoF B W d value (mask_left + 1) cur ip mask_left

/-- State of a `Tritrie<BITS, K, V, def>`: root node, node counter and the
last inserted mask. -/
structure Tri where
  root : Node
  nodes_cnt : Nat
  last_mask : Nat

/-- A fresh Tritrie. -/
def Tri.empty : Tri := ⟨Node.leaf d, 0, 0⟩

/-- The `Tritrie::add_ip` member: reject a mask smaller than the last
inserted one (`InvalidOrder`, thrown before any mutation), otherwise
insert and update `last_mask` and `nodes_cnt`. -/
def Tri.addIp (t : Tri) (ip : Nat) (mask : Nat) (value : Int) : Except Err Tri :=
  if mask < t.last_mask then .error .invalidOrder
  else
    let r := addIpGo B W d value t.root ip mask
    .ok ⟨r.1, t.nodes_cnt + r.2, mask⟩

/-- The `Tritrie::add` member after text decoding: `mask == -1` means the
text had no mask (`MissingMask`); masks outside `[1, W]` are rejected
(`MaskOutOfRange`); then `add_ip` runs. -/
def Tri.add (t : Tri) (ip : Nat) (mask : Int) (value : Int) : Except Err Tri :=
  if mask = -1 then .error .missingMask
  else if mask < 1 ∨ (W : Int) < mask then .error .maskOutOfRange
  else Tri.addIp B W d t ip mask.toNat value

/-- Loop of `Tritrie::query`: walk the children by the successive `BITS`
digit of the address, remembering the value of every visited node whose
value differs from the literal `-1` (the C++ source compares with `-1`,
not with the `def` template parameter).  The fuel is the loop counter
bound `BITS_TOTAL`. -/
def queryGo : Node → Nat → Int → Nat → Int
  | _, _, matched, 0 => matched
  | cur, ip, matched, fuel + 1 =>
    match cur.child (topBits B W ip) with
    | none => matched
    | some c => queryGo c (stepIp B W ip) (if c.value ≠ -1 then c.value else matched) fuel

/-- Number of executed iterations of the `Tritrie::query` loop (the
iteration that finds a missing child and breaks is counted). -/
def queryStepsGo : Node → Nat → Nat → Nat
  | _, _, 0 => 0
  | cur, ip, fuel + 1 =>
    match cur.child (topBits B W ip) with
    | none => 1
    | some c => 1 + queryStepsGo c (stepIp B W ip) fuel

/-- The `Tritrie::query` member. -/
def Tri.query (t : Tri) (ip : Nat) : Int := queryGo B W t.root ip d W

/-- Iteration count of `Tritrie::query` on a given address. -/
def Tri.querySteps (t : Tri) (ip : Nat) : Nat := queryStepsGo B W t.root ip W

/-- The `Tritrie::size` member (the `nodes_cnt` counter). -/
def Tri.size (t : Tri) : Nat := t.nodes_cnt

/-- One insertion request: numeric address, mask length, payload. -/
structure Ins where
  ip : Nat
  mask : Nat
  value : Int
  deriving DecidableEq, Repr

/-- Folding a list of insertions through `Tritrie::add` from the empty
trie; the first failure aborts. -/
def buildL (L : List Ins) : Except Err Tri :=
  L.foldlM (fun t e => Tri.add B W d t e.ip (e.mask : Int) e.value) (Tri.empty d)

/-- Total variant of `buildL` (identity of the fold when every `add`
succeeds, which `buildOk` certifies). -/
def buildT (L : List Ins) : Tri :=
  match buildL B W d L with
  | .ok t => t
  | .error _ => Tri.empty d

/-- Decidable success of the whole insertion sequence. -/
def buildOk (L : List Ins) : Bool :=
  match buildL B W d L with
  | .ok _ => true
  | .error _ => false

/-- Raw fold of the insertion bodies, ignoring the (always passing, for a
valid sequence) checks. -/
def rawRoot (L : List Ins) : Node :=
  L.foldl (fun n e => (addIpGo B W d e.value n e.ip e.mask).1) (Node.leaf d)

/-- Insertion sequence accepted by the `add` checks: masks within `[1, W]`
and non-decreasing, addresses of width `W`. -/
def okSeq (L : List Ins) : Prop :=
  L.Pairwise (fun e f => e.mask ≤ f.mask) ∧
    ∀ e ∈ L, 1 ≤ e.mask ∧ e.mask ≤ W ∧ e.ip < 2 ^ W

/-- Valid insertion sequence in the sense of the specification: accepted
by the checks, addresses in canonical CIDR form (no bits below the mask),
and no payload equal to the sentinel. -/
def validSeq (L : List Ins) : Prop :=
  okSeq W L ∧ ∀ e ∈ L, e.ip % 2 ^ (W - e.mask) = 0 ∧ e.value ≠ d

instance (L : List Ins) : Decidable (okSeq W L) := by
  unfold okSeq
  exact inferInstance

instance (L : List Ins) : Decidable (validSeq W d L) := by
  unfold validSeq
  exact inferInstance

/-- A prefix `(ip, mask)` covers address `a` iff the top `mask` bits
agree (spec section 3). -/
def covers (ip mask a : Nat) : Prop := a >>> (W - mask) = ip >>> (W - mask)

instance (ip mask a : Nat) : Decidable (covers W ip mask a) := by
  unfold covers
  exact inferInstance

/-- Number of trie levels an insertion of length `mask` occupies:
`⌈mask / BITS⌉`. -/
def levels (m : Nat) : Nat := (m + B - 1) / B

/-- Successive `BITS`-wide digits of an address, highest first. -/
def chunks (ip : Nat) : Nat → List Nat
  | 0 => []
  | k + 1 => topBits B W ip :: chunks (stepIp B W ip) k

/-- Node reached from `n` by following a digit path. -/
def lookupPath : Node → List Nat → Option Node
  | n, [] => some n
  | n, t :: p =>
    match n.child t with
    | none => none
    | some c => lookupPath c p

/-- Value of the node at a digit path, if the node exists. -/
def valueAt (n : Node) (p : List Nat) : Option Int := (lookupPath n p).map Node.value

/-- The maximal chain of nodes visited when walking a digit list from
`n` (the walk stops at the first missing child). -/
def pathNodes : Node → List Nat → List Node
  | _, [] => []
  | n, t :: p =>
    match n.child t with
    | none => []
    | some c => c :: pathNodes c p

/-- Digit paths on which `add_ip (ip, mask)` writes the inserted value:
the aligned terminal node, or every misaligned last-level child matching
the partial key. -/
def termB (ip m : Nat) : List Nat → Bool
  | [] => decide (m = 0)
  | t :: q =>
    if 0 < B ∧ B ≤ m then decide (t = topBits B W ip) && termB (stepIp B W ip) (m - B) q
    else if m ≠ 0 then decide (q = []) && decide (t < 2 ^ B) && decide (t &&& lmask B W m = topBits B W ip)
    else false

/-- Digit paths that `add_ip (ip, mask)` traverses strictly above its
terminal level (the nodes `get_or_create` may create with default
value). -/
def descB (ip m : Nat) : List Nat → Bool
  | [] => decide (m ≠ 0)
  | t :: q =>
    decide (0 < B ∧ B ≤ m) && decide (t = topBits B W ip) && descB (stepIp B W ip) (m - B) q

/-- Payload of the last insertion in the list that writes the given digit
path, if any. -/
def lastW (L : List Ins) (p : List Nat) : Option Int :=
  L.foldl (fun acc e => if termB B W e.ip e.mask p then some e.value else acc) none

/-- Whether some insertion of the list creates or writes the given path. -/
def touchedB (L : List Ins) (p : List Nat) : Bool :=
  L.any (fun e => termB B W e.ip e.mask p || descB B W e.ip e.mask p)

/-- The section-8 scenario set, in spec order (masks non-decreasing). -/
def scenario : List Ins :=
  [⟨255 * 2 ^ 24, 8, 0⟩,
   ⟨255 * 2 ^ 24 + 255 * 2 ^ 16, 16, 1⟩,
   ⟨10 * 2 ^ 24 + 255 * 2 ^ 16, 16, 2⟩,
   ⟨95 * 2 ^ 24 + 175 * 2 ^ 16 + 112 * 2 ^ 8, 21, 4⟩,
   ⟨95 * 2 ^ 24 + 175 * 2 ^ 16 + 144 * 2 ^ 8, 21, 5⟩,
   ⟨170 * 2 ^ 24 + 85 * 2 ^ 16 + 200 * 2 ^ 8, 22, 6⟩,
   ⟨170 * 2 ^ 24 + 85 * 2 ^ 16 + 202 * 2 ^ 8, 24, 7⟩,
   ⟨10 * 2 ^ 24 + 255 * 2 ^ 16 + 3, 32, 3⟩]

/-- The Tritrie built from the scenario set with the default sentinel. -/
def scenarioT : Tri := buildT 8 32 (-1) scenario

/-- MultiTritrie node (`MultiTritrie::Node`): LPM value, accumulated set
of covering values, children.  The C++ `std::set<V>` becomes `Finset Int`. -/
inductive MNode where
  | mk (lpm : Int) (values : Finset Int) (child : Nat → Option MNode)

/-- LPM value of a MultiTritrie node. -/
def MNode.lpm : MNode → Int
  | .mk v _ _ => v

/-- Accumulated value set of a MultiTritrie node. -/
def MNode.values : MNode → Finset Int
  | .mk _ s _ => s

/-- Children of a MultiTritrie node. -/
def MNode.child : MNode → Nat → Option MNode
  | .mk _ _ c => c

/-- Fresh MultiTritrie node. -/
def MNode.leaf : MNode := .mk d ∅ (fun _ => none)

/-- Functional update of one child slot of a MultiTritrie node. -/
def msetChild (n : MNode) (t : Nat) (c : Option MNode) : MNode :=
  .mk n.lpm n.values (fun i => if i = t then c else n.child i)

/-- Misaligned last level of `MultiTritrie::add_ip`: every index matching
the partial key gets the LPM value and the aggregated set (which already
contains the new value) unioned into its set. -/
def mMisGo (value : Int) (key mask : Nat) (agg : Finset Int) :
    MNode × Nat → List Nat → MNode × Nat
  | acc, [] => acc
  | (cur, cnt), t :: ts =>
    if t &&& mask = key then
      match cur.child t with
      | some c =>
          mMisGo value key mask agg
            (msetChild cur t (some (.mk value (c.values ∪ agg) c.child)), cnt) ts
      | none =>
          mMisGo value key mask agg
            (msetChild cur t (some (.mk value agg (fun _ => none))), cnt + 1) ts
    else mMisGo value key mask agg (cur, cnt) ts

/-- Body of `MultiTritrie::add_ip` after the order check.  During the
descent the running `aggregated` set picks up the sets of pre-existing
nodes and is copied into freshly created (empty-set) nodes; the new value
is added to it just before the terminal level.  Fuel as in `addIpGoF`. -/
def maddGoF (value : Int) : Nat → MNode → Nat → Nat → Finset Int → MNode × Nat
  | fuel + 1, cur, ip, mask_left, agg =>
    if 0 < B ∧ B ≤ mask_left then
      let tri := topBits B W ip
      match cur.child tri with
      | some c =>
          if c.values = ∅ then
            let c1 : MNode := .mk c.lpm (c.values ∪ agg) c.child
            let r := maddGoF value fuel c1 (stepIp B W ip) (mask_left - B) agg
            (msetChild cur tri (some r.1), r.2)
          else
            let r := maddGoF value fuel c (stepIp B W ip) (mask_left - B) (agg ∪ c.values)
            (msetChild cur tri (some r.1), r.2)
      | none =>
          let c1 : MNode := .mk d agg (fun _ => none)
          let r := maddGoF value fuel c1 (stepIp B W ip) (mask_left - B) agg
          (msetChild cur tri (some r.1), 1 + r.2)
    else
      let agg1 := insert value agg
      if mask_left ≠ 0 then
        mMisGo value (topBits B W ip) (lmask B W mask_left) agg1 (cur, 0) (List.range (2 ^ B))
      else
        (.mk value (cur.values ∪ agg1) cur.child, 0)
  | 0, cur, _, _, _ => (cur, 0)

/-- State of a `MultiTritrie<BITS, K, V, def>`. -/
structure MTri where
  root : MNode
  nodes_cnt : Nat
  last_mask : Nat

/-- A fresh MultiTritrie. -/
def MTri.empty : MTri := ⟨MNode.leaf d, 0, 0⟩

/-- The `MultiTritrie::add_ip` member: order check, then the descent with
the aggregated set seeded from the root node. -/
def MTri.addIp (t : MTri) (ip : Nat) (mask : Nat) (value : Int) : Except Err MTri :=
  if mask < t.last_mask then .error .invalidOrder
  else
    let r := maddGoF B W d value (mask + 1) t.root ip mask t.root.values
    .ok ⟨r.1, t.nodes_cnt + r.2, mask⟩

/-- The `MultiTritrie::add` member after text decoding.  Note the range
check is `mask < 0 || mask > W`, unlike Tritrie which rejects `mask < 1`. -/
def MTri.add (t : MTri) (ip : Nat) (mask : Int) (value : Int) : Except Err MTri :=
  if mask = -1 then .error .missingMask
  else if mask < 0 ∨ (W : Int) < mask then .error .maskOutOfRange
  else MTri.addIp B W d t ip mask.toNat value

/-- Loop of `MultiTritrie::query` (compares `lpm_value` with `def`). -/
def mQueryGo : MNode → Nat → Int → Nat → Int
  | _, _, matched, 0 => matched
  | cur, ip, matched, fuel + 1 =>
    match cur.child (topBits B W ip) with
    | none => matched
    | some c => mQueryGo c (stepIp B W ip) (if c.lpm ≠ d then c.lpm else matched) fuel

/-- The `MultiTritrie::query` member; `matched` starts from the root LPM
value. -/
def MTri.query (t : MTri) (ip : Nat) : Int := mQueryGo B W d t.root ip t.root.lpm W

/-- Loop of `MultiTritrie::query_all`: the set of the deepest reachable
node on the digit path. -/
def mQueryAllGo : MNode → Nat → Nat → Finset Int
  | cur, _, 0 => cur.values
  | cur, ip, fuel + 1 =>
    match cur.child (topBits B W ip) with
    | none => cur.values
    | some c => mQueryAllGo c (stepIp B W ip) fuel

/-- The `MultiTritrie::query_all` member. -/
def MTri.queryAll (t : MTri) (ip : Nat) : Finset Int := mQueryAllGo B W t.root ip W

/-- Folding a list of insertions through `MultiTritrie::add`. -/
def mBuildL (L : List Ins) : Except Err MTri :=
  L.foldlM (fun t e => MTri.add B W d t e.ip (e.mask : Int) e.value) (MTri.empty d)

/-- Total variant of `mBuildL`. -/
def mBuildT (L : List Ins) : MTri :=
  match mBuildL B W d L with
  | .ok t => t
  | .error _ => MTri.empty d

/-- Node reached in a MultiTritrie subtree by a digit path. -/
def mLookupPath : MNode → List Nat → Option MNode
  | n, [] => some n
  | n, t :: p =>
    match n.child t with
    | none => none
    | some c => mLookupPath c p

/-- The values of the insertions of `L` whose terminal path is a prefix of
`p` — the set specification of a MultiTritrie node at path `p`. -/
def covL (L : List Ins) (p : List Nat) : Finset Int :=
  ((L.filter (fun e => levels B e.mask ≤ p.length &&
      termB B W e.ip e.mask (p.take (levels B e.mask)))).map Ins.value).toFinset

/-- Raw fold of the MultiTritrie insertion bodies. -/
def mRawRoot (L : List Ins) : MNode :=
  L.foldl (fun n e => (maddGoF B W d e.value (e.mask + 1) n e.ip e.mask n.values).1)
    (MNode.leaf d)

/-- Pure form of one accepted `MultiTritrie::add` step. -/
def mAddPure (t : MTri) (e : Ins) : MTri :=
  ⟨(maddGoF B W d e.value (e.mask + 1) t.root e.ip e.mask t.root.values).1,
   t.nodes_cnt + (maddGoF B W d e.value (e.mask + 1) t.root e.ip e.mask t.root.values).2,
   e.mask⟩

/-- Value set of the MultiTritrie node at a digit path. -/
def mvalueAt (n : MNode) (p : List Nat) : Option (Finset Int) :=
  (mLookupPath n p).map MNode.values

/-- LPM value of the MultiTritrie node at a digit path. -/
def mlpmAt (n : MNode) (p : List Nat) : Option Int :=
  (mLookupPath n p).map MNode.lpm

/-- The aggregated set carried by the descent of `MultiTritrie::add_ip`
along a digit path: starting from `agg`, nodes with a non-empty set are
aggregated in; empty or missing nodes contribute nothing. -/
def aggPath (agg : Finset Int) : MNode → List Nat → Finset Int
  | _, [] => agg
  | n, t :: q =>
    match n.child t with
    | none => agg
    | some c => aggPath (if c.values = ∅ then agg else agg ∪ c.values) c q

/-- The chain of MultiTritrie nodes visited when walking a digit list. -/
def mPathNodes : MNode → List Nat → List MNode
  | _, [] => []
  | n, t :: p =>
    match n.child t with
    | none => []
    | some c => c :: mPathNodes c p

/-- The set the specification assigns to `query_all`: values of the
inserted prefixes covering the address. -/
def coversSet (L : List Ins) (a : Nat) : Finset Int :=
  ((L.filter (fun e => decide (covers W e.ip e.mask a))).map Ins.value).toFinset

/-- Child pointer of a Flatritrie arena entry.  The C++ `Entry` leaves its
pointer array uninitialized (`build_node` assigns every slot); `uninit`
models an unassigned slot, `null` the null pointer, `ref i` a pointer to
the entry with allocation index `i`. -/
inductive Ptr where
  | uninit
  | null
  | ref (i : Nat)
  deriving DecidableEq, Repr

/-- Flatritrie arena entry (`Flat::Entry`): value plus one pointer per
digit. -/
structure Entry where
  value : Int
  child : Nat → Ptr

/-- Flatritrie state (`Flat`): the entries in allocation order (an
allocation index is the stable address of the C++ entry), the page
counter (`pages.size()`; `page_current == NULL` iff it is `0`), and the
two usage counters. -/
structure FlatS where
  entries : List Entry
  pages : Nat
  used_in_page : Nat
  used_total : Nat

/-- In-place update of one element of a list. -/
def listUpd {α : Type} : List α → Nat → (α → α) → List α
  | [], _, _ => []
  | a :: l, 0, g => g a :: l
  | a :: l, i + 1, g => a :: listUpd l i g

variable (PS : Nat)

/-- The `Flat::alloc_entry` member: open a new page when the current one
is full or absent, then hand out the next slot (a default-initialized
entry: `value = def`, pointers unassigned).  Returns the allocation
index. -/
def allocEntry (f : FlatS) : FlatS × Nat :=
  let f1 := if f.used_in_page = PS ∨ f.pages = 0 then
      { f with pages := f.pages + 1, used_in_page := 0 } else f
  ({ f1 with
       entries := f1.entries ++ [⟨d, fun _ => Ptr.uninit⟩],
       used_in_page := f1.used_in_page + 1,
       used_total := f1.used_total + 1 },
   f1.entries.length)

/-- Assignment `entry->value = v` for the entry at allocation index `i`. -/
def setEVal (f : FlatS) (i : Nat) (v : Int) : FlatS :=
  { f with entries := listUpd f.entries i (fun e => ⟨v, e.child⟩) }

/-- Assignment `entry->child[slot] = p` for the entry at allocation index
`i`. -/
def setEChild (f : FlatS) (i slot : Nat) (p : Ptr) : FlatS :=
  { f with entries := listUpd f.entries i (fun e => ⟨e.value, fun j => if j = slot then p else e.child j⟩) }

/-- The recursive `Flat::build_node`: null source maps to a null pointer;
otherwise allocate an entry, copy the value, and assign every child slot
from the recursively built subtrees (children are processed in index
order, so a child entry always has a larger allocation index than its
parent).  The structural fuel bounds the recursion depth; `FlatS.build`
passes `W + 1`, which exceeds the depth of any tree a valid insertion
sequence can produce. -/
def buildNodeF : Nat → Option Node → FlatS → FlatS × Ptr
  | _, none, f => (f, Ptr.null)
  | 0, some _, f => (f, Ptr.null)
  | fuel + 1, some n, f =>
    let a := allocEntry d PS f
    let f2 := setEVal a.1 a.2 n.value
    let f3 := (List.range (2 ^ B)).foldl
      (fun g i =>
        let r := buildNodeF fuel (n.child i) g
        setEChild r.1 a.2 i r.2) f2
    (f3, Ptr.ref a.2)

/-- The cleared state `Flat::cleanup` leaves behind. -/
def FlatS.empty : FlatS := ⟨[], 0, 0, 0⟩

/-- The `Flat::build` member: release the previous state, then mirror the
source tree from its root (the root entry is the first allocation). -/
def FlatS.build (t : Tri) : FlatS :=
  (buildNodeF B d PS (W + 1) (some t.root) FlatS.empty).1

/-- Loop of `Flat::query`: unbounded `for (;;)` walk over arena entries.
The fuel only serves totality: under the build invariant every child
reference points to a strictly larger allocation index, so
`entries.length + 1` rounds (supplied by `FlatS.query`) are never
exhausted.  A lookup of a missing index models the unreachable case of a
dangling reference and stops the walk. -/
def flatQueryGo (f : FlatS) : Nat → Nat → Int → Nat → Int
  | _, _, matched, 0 => matched
  | idx, ip, matched, fuel + 1 =>
    match f.entries.get? idx with
    | none => matched
    | some e =>
      match e.child (topBits B W ip) with
      | Ptr.ref j =>
        match f.entries.get? j with
        | none => matched
        | some ej =>
            flatQueryGo f j (stepIp B W ip) (if ej.value ≠ d then ej.value else matched) fuel
      | _ => matched

/-- Number of executed iterations of the `Flat::query` loop. -/
def flatStepsGo (f : FlatS) : Nat → Nat → Nat → Nat
  | _, _, 0 => 0
  | idx, ip, fuel + 1 =>
    match f.entries.get? idx with
    | none => 0
    | some e =>
      match e.child (topBits B W ip) with
      | Ptr.ref j =>
        match f.entries.get? j with
        | none => 1
        | some _ => 1 + flatStepsGo f j (stepIp B W ip) fuel
      | _ => 1

/-- The `Flat::query` member: walk from the root entry `pages[0][0]`,
i.e. allocation index 0. -/
def FlatS.query (f : FlatS) (ip : Nat) : Int :=
  flatQueryGo B W d f 0 ip d (f.entries.length + 1)

/-- Iteration count of `Flat::query` on a given address. -/
def FlatS.querySteps (f : FlatS) (ip : Nat) : Nat :=
  flatStepsGo B W f 0 ip (f.entries.length + 1)

/-- Modelled from the spec: `Flat::size` in the source returns the member
`this->used`, which does not exist (`flatritrie.hpp` line 144 and
`flat4.hpp` line 181 are ill-formed once instantiated); section 9 of the
spec mandates returning the total number of used entries. -/
def FlatS.sizeSpec (f : FlatS) : Nat := f.used_total

/-- The tuple printed by `Flat::debug`: page count, page size, entries
total, entries used on the last page. -/
def FlatS.debugTuple (f : FlatS) : Nat × Nat × Nat × Nat :=
  (f.pages, PS, f.used_total, f.used_in_page)

/-- Allocation index reached from entry `i` by a digit path. -/
def flatLookup (f : FlatS) : Nat → List Nat → Option Nat
  | i, [] => some i
  | i, t :: p =>
    match f.entries.get? i with
    | none => none
    | some e =>
      match e.child t with
      | Ptr.ref j => flatLookup f j p
      | _ => none

/-- Value of the entry at a digit path from entry `i`. -/
def fvalueAt (f : FlatS) (i : Nat) (p : List Nat) : Option Int :=
  (flatLookup f i p).bind (fun j => (f.entries.get? j).map Entry.value)

/-- The chain of allocation indices visited by the `Flat::query` walk. -/
def flatPathIdx (f : FlatS) : Nat → List Nat → List Nat
  | _, [] => []
  | i, t :: p =>
    match f.entries.get? i with
    | none => []
    | some e =>
      match e.child t with
      | Ptr.ref j =>
        match f.entries.get? j with
        | none => []
        | some _ => j :: flatPathIdx f j p
      | _ => []

/-- Well-shaped tree of depth below `k`: every child chain is shorter
than `k` and only digits below `2 ^ BITS` are populated (as produced by
the insertion code on `W`-bit addresses). -/
def Shaped : Nat → Node → Prop
  | 0, _ => False
  | k + 1, n => ∀ t c, n.child t = some c → t < 2 ^ B ∧ Shaped k c

/-- Every child slot of every arena entry in `[lo, hi)` was assigned by
the build: null, or a reference to a later entry of the same region. -/
def slotsOk (f : FlatS) (lo hi : Nat) : Prop :=
  ∀ j, lo ≤ j → j < hi → ∀ e, f.entries.get? j = some e → ∀ i, i < 2 ^ B →
    e.child i = Ptr.null ∨ ∃ k, e.child i = Ptr.ref k ∧ j < k ∧ k < hi

/-- The query walk of `Flat::query` expressed over source nodes (the flat
loop compares values against `def`, unlike `Tritrie::query`). -/
def queryGoD : Node → Nat → Int → Nat → Int
  | _, _, matched, 0 => matched
  | cur, ip, matched, fuel + 1 =>
    match cur.child (topBits B W ip) with
    | none => matched
    | some c => queryGoD c (stepIp B W ip) (if c.value ≠ d then c.value else matched) fuel

/-- Number of nodes of a tree, up to depth fuel `k` (exact whenever
`DepthLt k n`). -/
def countNodesF : Nat → Node → Nat
  | 0, _ => 0
  | k + 1, n =>
    1 + ((List.range (2 ^ B)).map
      (fun i => match n.child i with
        | none => 0
        | some c => countNodesF k c)).sum

/-- Decimal digit test. -/
def isDig (c : Char) : Bool := decide ('0' ≤ c) && decide (c ≤ '9')

/-- Modelled from the spec: value of a non-empty all-digit string.  Both
`inet_pton(AF_INET)` and `inet_aton` (libc, external to the repository)
read the dotted-quad components this way per the section-6 text format. -/
def digitsVal (cs : List Char) : Option Nat :=
  if cs ≠ [] ∧ cs.all isDig then
    some (cs.foldl (fun a c => a * 10 + (c.toNat - 48)) 0)
  else none

/-- Modelled from the spec: IPv4 dotted-quad text to a host-order 32-bit
integer, as produced by `inet_pton(AF_INET)` / `inet_aton` plus `ntohl`
on the standard `a.b.c.d` decimal form.  Any other form (including a
`/mask` suffix, which is not part of the dotted-quad grammar) fails. -/
def dottedQuad (cs : List Char) : Option Nat :=
  match (cs.splitOn '.').map digitsVal with
  | [some a, some b, some c, some e] =>
    if a ≤ 255 ∧ b ≤ 255 ∧ c ≤ 255 ∧ e ≤ 255 then
      some (a * 2 ^ 24 + b * 2 ^ 16 + c * 2 ^ 8 + e)
    else none
  | _ => none

/-- Leading decimal run of a string, as read by `std::stoi` (trailing
non-digits are ignored; no digits at all is an error). -/
def leadDigits (cs : List Char) : Option Nat :=
  digitsVal (cs.takeWhile isDig)

/-- Modelled from the spec: `std::stoi` on the mask part (optional sign,
then at least one digit). -/
def stoiM (cs : List Char) : Option Int :=
  match cs with
  | '-' :: rest => (leadDigits rest).map (fun n => -(n : Int))
  | _ => (leadDigits cs).map (fun n => (n : Int))

/-- Split at the first `/`, as `addr_mask.find("/")` plus the two
`substr` calls do. -/
def splitSlash : List Char → List Char × Option (List Char)
  | [] => ([], none)
  | c :: rest =>
    if c = '/' then ([], some rest)
    else
      let r := splitSlash rest
      (c :: r.1, r.2)

/-- The `ip_from_string` helper of Tritrie/MultiTritrie at `W = 32`:
mask is `-1` when absent, else `stoi` of the text after the slash; the
address part goes through `inet_pton(AF_INET)`. -/
def ipFromStr (cs : List Char) : Except Err (Nat × Int) :=
  match splitSlash cs with
  | (addr, none) =>
    match dottedQuad addr with
    | some ip => .ok (ip, -1)
    | none => .error .parseError
  | (addr, some ms) =>
    match stoiM ms with
    | none => .error .parseError
    | some m =>
      match dottedQuad addr with
      | some ip => .ok (ip, m)
      | none => .error .parseError

/-- The `Tritrie::query_string` member at `W = 32`: parse, reject a
partial mask (`mask != -1 && mask != BITS_TOTAL`), forward to `query`. -/
def Tri.queryStr (t : Tri) (cs : List Char) : Except Err Int :=
  match ipFromStr cs with
  | .error e => .error e
  | .ok (ip, mask) =>
    if mask ≠ -1 ∧ mask ≠ 32 then .error .invalidQuery
    else .ok (Tri.query B 32 d t ip)

/-- The `Flat::query_string` member: the address goes through `inet_aton`
directly (always IPv4, no mask handling at all), then `query`. -/
def FlatS.queryStr (f : FlatS) (cs : List Char) : Except Err Int :=
  match dottedQuad cs with
  | none => .error .parseError
  | some ip => .ok (FlatS.query B 32 d f ip)

/-- Pure form of one accepted `Tritrie::add` step (what `add` produces
when all its checks pass). -/
def addPure (t : Tri) (e : Ins) : Tri :=
  ⟨(addIpGo B W d e.value t.root e.ip e.mask).1,
   t.nodes_cnt + (addIpGo B W d e.value t.root e.ip e.mask).2, e.mask⟩

/-- Specification of the value found at a digit path after an insertion
sequence: the payload of the last insertion writing the path if any, the
default on the root and on paths some insertion merely traverses, nothing
elsewhere. -/
def invVal (L : List Ins) (p : List Nat) : Option Int :=
  match lastW B W L p with
  | some v => some v
  | none => if p = [] ∨ touchedB B W L p then some d else none

/-- Simulation of a source subtree by the arena region `[lo, hi)` rooted
at entry `i`: every digit path resolves in the arena exactly when it
resolves in the tree, lands inside the region, and finds the same
value. -/
def simAt (f : FlatS) (lo hi i : Nat) (n : Node) : Prop :=
  ∀ p : List Nat,
    match flatLookup f i p, lookupPath n p with
    | some j, some nd => lo ≤ j ∧ j < hi ∧ (f.entries.get? j).map Entry.value = some nd.value
    | none, none => True
    | _, _ => False

/-- Count of source nodes hanging below the listed child slots. -/
def kidsCount (fuel : Nat) (n : Node) (ts : List Nat) : Nat :=
  (ts.map (fun i =>
    match n.child i with
    | none => 0
    | some c => countNodesF B fuel c)).sum

/-- Induction bundle for `build_node` on a present source node: the
returned pointer is the pre-allocation index, the entry and usage growth
is the subtree node count, entries below the start are untouched, and the
new region is slot-assigned and simulates the source subtree. -/
def buildSpec (fuel : Nat) (n : Node) (f : FlatS) : Prop :=
  (buildNodeF B d PS fuel (some n) f).2 = Ptr.ref f.entries.length ∧
  (buildNodeF B d PS fuel (some n) f).1.entries.length =
    f.entries.length + countNodesF B fuel n ∧
  (buildNodeF B d PS fuel (some n) f).1.used_total =
    f.used_total + countNodesF B fuel n ∧
  (∀ j, j < f.entries.length →
    (buildNodeF B d PS fuel (some n) f).1.entries.get? j = f.entries.get? j) ∧
  slotsOk B (buildNodeF B d PS fuel (some n) f).1 f.entries.length
    (buildNodeF B d PS fuel (some n) f).1.entries.length ∧
  simAt (buildNodeF B d PS fuel (some n) f).1 f.entries.length
    (buildNodeF B d PS fuel (some n) f).1.entries.length f.entries.length n

/-- Induction bundle for the child loop of `build_node`: effect of the
fold that builds the subtrees of the listed slots of the parent entry at
allocation index `P`. -/
def kidsSpec (fuel : Nat) (n : Node) (P : Nat) (g0 gE : FlatS) (ts : List Nat) : Prop :=
  gE.entries.length = g0.entries.length + kidsCount B fuel n ts ∧
  gE.used_total = g0.used_total + kidsCount B fuel n ts ∧
  (∀ j, j < g0.entries.length → j ≠ P → gE.entries.get? j = g0.entries.get? j) ∧
  slotsOk B gE g0.entries.length gE.entries.length ∧
  ∀ e0, g0.entries.get? P = some e0 → ∃ eE, gE.entries.get? P = some eE ∧
    eE.value = e0.value ∧
    (∀ i, i ∉ ts → eE.child i = e0.child i) ∧
    ∀ i ∈ ts,
      (n.child i = none ∧ eE.child i = Ptr.null) ∨
      ∃ c k, n.child i = some c ∧ eE.child i = Ptr.ref k ∧
        g0.entries.length ≤ k ∧ k < gE.entries.length ∧
        simAt gE k gE.entries.length k c

/- ------------------------------------------------------------------ -/
/- Theorems.                                                          -/
/- ------------------------------------------------------------------ -/

/-- Children of a constructed node. -/
theorem node_child_mk (v : Int) (ch : Nat → Option Node) : (Node.mk v ch).child = ch := rfl

/-- Value of a constructed node. -/
theorem node_value_mk (v : Int) (ch : Nat → Option Node) : (Node.mk v ch).value = v := rfl

/-- Children of an updated node. -/
theorem setChild_child (n : Node) (t : Nat) (c : Option Node) (i : Nat) :
    (setChild n t c).child i = if i = t then c else n.child i := rfl

/-- Value of an updated node. -/
theorem setChild_value (n : Node) (t : Nat) (c : Option Node) :
    (setChild n t c).value = n.value := rfl

/-- Path lookup on a cons path goes through the child. -/
theorem lookupPath_cons (n : Node) (t : Nat) (p : List Nat) :
    lookupPath n (t :: p) =
      match n.child t with
      | none => none
      | some c => lookupPath c p := rfl

/-- Levels of a zero mask. -/
theorem levels_zero (hB : 0 < B) : levels B 0 = 0 := by
  unfold levels
  exact Nat.div_eq_of_lt (by omega)

/-- A positive mask occupies at least one level. -/
theorem levels_pos (hB : 0 < B) {m : Nat} (hm : 0 < m) : 0 < levels B m := by
  unfold levels
  exact (Nat.one_le_div_iff hB).mpr (by omega)

/-- A positive mask below `BITS` occupies exactly one level. -/
theorem levels_of_lt (hB : 0 < B) {m : Nat} (h1 : 0 < m) (h2 : m < B) :
    levels B m = 1 := by
  refine le_antisymm ?_ (levels_pos B hB h1)
  have h := (Nat.div_lt_iff_lt_mul hB).mpr (show m + B - 1 < 2 * B by omega)
  unfold levels
  omega

/-- Recurrence of `levels` over one descent round. -/
theorem levels_rec (hB : 0 < B) {m : Nat} (h : B ≤ m) :
    levels B m = levels B (m - B) + 1 := by
  unfold levels
  have h1 : m + B - 1 = (m - B + B - 1) + B := by omega
  rw [h1, Nat.add_div_right _ hB]

/-- Monotonicity of `levels`. -/
theorem levels_mono {m m' : Nat} (h : m ≤ m') : levels B m ≤ levels B m' :=
  Nat.div_le_div_right (by omega)

/-- At least one bit is consumed per level. -/
theorem levels_le_self (hB : 0 < B) (m : Nat) : levels B m ≤ m := by
  rcases Nat.eq_zero_or_pos m with h | h
  · subst h
    exact (levels_zero B hB).le
  · have hmB : m ≤ m * B := Nat.le_mul_of_pos_right m hB
    have hx : (m + 1) * B = m * B + B := by ring
    have h2 := (Nat.div_lt_iff_lt_mul hB).mpr (show m + B - 1 < (m + 1) * B by omega)
    unfold levels
    omega

/-- A terminal path of `(ip, mask)` has length `levels mask`. -/
theorem termB_length (hB : 0 < B) :
    ∀ (p : List Nat) (ip m : Nat), termB B W ip m p = true → p.length = levels B m := by
  intro p
  induction p with
  | nil =>
    intro ip m h
    simp only [termB, decide_eq_true_eq] at h
    subst h
    simp [levels_zero B hB]
  | cons t q ih =>
    intro ip m h
    simp only [termB] at h
    by_cases hg : 0 < B ∧ B ≤ m
    · rw [if_pos hg] at h
      simp only [Bool.and_eq_true, decide_eq_true_eq] at h
      have := ih (stepIp B W ip) (m - B) h.2
      simp only [List.length_cons, this, levels_rec B hB hg.2]
    · rw [if_neg hg] at h
      by_cases hm : m ≠ 0
      · rw [if_pos hm] at h
        simp only [Bool.and_eq_true, decide_eq_true_eq] at h
        obtain ⟨⟨hq, ht⟩, hk⟩ := h
        subst hq
        have hmB : m < B := by
          rcases Nat.lt_or_ge m B with hx | hx
          · exact hx
          · exact absurd ⟨hB, hx⟩ hg
        simp [levels_of_lt B hB (by omega) hmB]
      · simp [hm] at h

/-- A strict descent path of `(ip, mask)` is shorter than `levels mask`. -/
theorem descB_length_lt (hB : 0 < B) :
    ∀ (p : List Nat) (ip m : Nat), descB B W ip m p = true → p.length < levels B m := by
  intro p
  induction p with
  | nil =>
    intro ip m h
    simp only [descB, decide_eq_true_eq] at h
    exact levels_pos B hB (by omega)
  | cons t q ih =>
    intro ip m h
    simp only [descB, Bool.and_eq_true, decide_eq_true_eq] at h
    obtain ⟨⟨hg, _⟩, hq⟩ := h
    have := ih (stepIp B W ip) (m - B) hq
    simp only [List.length_cons, levels_rec B hB hg.2]
    omega

/-- Length of the digit list. -/
theorem chunks_length : ∀ (k ip : Nat), (chunks B W ip k).length = k := by
  intro k
  induction k with
  | zero => intro ip; rfl
  | succ k ih =>
    intro ip
    simp [chunks, ih]

/-- A prefix of the digit list is the digit list of the prefix length. -/
theorem chunks_take : ∀ (j k ip : Nat), j ≤ k →
    (chunks B W ip k).take j = chunks B W ip j := by
  intro j
  induction j with
  | zero => intro k ip _; rfl
  | succ j ih =>
    intro k ip hk
    match k, hk with
    | k + 1, hk =>
      simp only [chunks, List.take_succ_cons]
      rw [ih k (stepIp B W ip) (by omega)]

/-- Element `k` of the visited chain is the node at the length-`(k+1)`
prefix of the digit list. -/
theorem pathNodes_get :
    ∀ (cs : List Nat) (cur : Node) (k : Nat), k < cs.length →
      (pathNodes cur cs).get? k = lookupPath cur (cs.take (k + 1)) := by
  intro cs
  induction cs with
  | nil => intro cur k h; simp at h
  | cons c cs ih =>
    intro cur k hk
    simp only [pathNodes, List.take_succ_cons, lookupPath_cons]
    cases hc : cur.child c with
    | none =>
      cases k <;> simp
    | some ch =>
      cases k with
      | zero => simp [lookupPath]
      | succ k =>
        simp only [List.get?_cons_succ]
        exact ih ch k (by simpa using hk)

/-- The `Tritrie::query` loop folds the match update over the chain of
visited nodes. -/
theorem queryGo_eq_fold :
    ∀ (fuel : Nat) (cur : Node) (ip : Nat) (m0 : Int),
      queryGo B W cur ip m0 fuel =
        (pathNodes cur (chunks B W ip fuel)).foldl
          (fun acc n => if n.value ≠ -1 then n.value else acc) m0 := by
  intro fuel
  induction fuel with
  | zero => intro cur ip m0; rfl
  | succ fuel ih =>
    intro cur ip m0
    simp only [queryGo, chunks, pathNodes]
    cases hc : cur.child (topBits B W ip) with
    | none => rfl
    | some c => simp [ih]

/-- The `Tritrie::query` iteration count is the chain length plus the
final null check, clipped by the loop bound. -/
theorem queryStepsGo_eq :
    ∀ (fuel : Nat) (cur : Node) (ip : Nat),
      queryStepsGo B W cur ip fuel =
        min fuel ((pathNodes cur (chunks B W ip fuel)).length + 1) := by
  intro fuel
  induction fuel with
  | zero => intro cur ip; rfl
  | succ fuel ih =>
    intro cur ip
    simp only [queryStepsGo, chunks, pathNodes]
    cases hc : cur.child (topBits B W ip) with
    | none => simp
    | some c =>
      simp only [List.length_cons, ih]
      omega

/-- Folding the match update over nodes all carrying `-1` returns the
accumulator. -/
theorem foldl_upd_default :
    ∀ (nodes : List Node) (m0 : Int), (∀ n ∈ nodes, n.value = -1) →
      nodes.foldl (fun acc n => if n.value ≠ -1 then n.value else acc) m0 = m0 := by
  intro nodes
  induction nodes with
  | nil => intro m0 _; rfl
  | cons n rest ih =>
    intro m0 h
    have hn := h n (by simp)
    simp only [List.foldl_cons, hn]
    simpa using ih m0 (fun x hx => h x (by simp [hx]))

/-- Folding the match update returns the value of the deepest visited node
carrying a value, provided every strictly deeper visited node carries
`-1`. -/
theorem foldl_upd_spec :
    ∀ (nodes : List Node) (m0 : Int) (D : Nat) (v : Int), 1 ≤ D →
      (∃ n, nodes.get? (D - 1) = some n ∧ n.value = v) → v ≠ -1 →
      (∀ k n, D ≤ k → nodes.get? k = some n → n.value = -1) →
      nodes.foldl (fun acc n => if n.value ≠ -1 then n.value else acc) m0 = v := by
  intro nodes
  induction nodes with
  | nil =>
    intro m0 D v _ h _ _
    obtain ⟨n, hn, _⟩ := h
    simp at hn
  | cons n0 rest ih =>
    intro m0 D v hD h hv hdeep
    match D, hD with
    | 1, _ =>
      obtain ⟨n, hn, hnv⟩ := h
      simp only [Nat.sub_self, List.get?_cons_zero, Option.some.injEq] at hn
      subst hn
      simp only [List.foldl_cons, hnv, if_pos hv]
      refine foldl_upd_default rest v ?_
      intro x hx
      obtain ⟨k, hk⟩ := List.mem_iff_get?.mp hx
      exact hdeep (k + 1) x (by omega) (by simpa using hk)
    | (D' + 2), _ =>
      obtain ⟨n, hn, hnv⟩ := h
      simp only [List.foldl_cons]
      refine ih _ (D' + 1) v (by omega) ⟨n, ?_, hnv⟩ hv ?_
      · simpa using hn
      · intro k x hk hx
        exact hdeep (k + 1) x (by omega) (by simpa using hx)

/-- Path lookup from a rebuilt node only consults the children. -/
theorem lookupPath_mk_cons (v : Int) (ch : Nat → Option Node) (t : Nat) (p : List Nat) :
    lookupPath (Node.mk v ch) (t :: p) =
      match ch t with
      | none => none
      | some c => lookupPath c p := rfl

/-- Value at the empty path. -/
theorem valueAt_nil (n : Node) : valueAt n [] = some n.value := rfl

/-- A fresh leaf stores the default along any path it has. -/
theorem valueAt_leaf_getD (q : List Nat) : (valueAt (Node.leaf d) q).getD d = d := by
  cases q with
  | nil => rfl
  | cons t q => rfl

/-- A fresh leaf has no nodes below itself. -/
theorem valueAt_leaf_ne_nil (q : List Nat) (h : q ≠ []) : valueAt (Node.leaf d) q = none := by
  cases q with
  | nil => exact absurd rfl h
  | cons t q => rfl

/-- The misaligned loop never changes the value of the node it expands. -/
theorem misGo_fst_value (v : Int) (key m : Nat) :
    ∀ (ts : List Nat) (cur : Node) (cnt : Nat),
      ((misGo v key m (cur, cnt) ts).1).value = cur.value := by
  intro ts
  induction ts with
  | nil => intro cur cnt; rfl
  | cons t ts ih =>
    intro cur cnt
    simp only [misGo]
    by_cases htm : t &&& m = key
    · rw [if_pos htm]
      cases hc : cur.child t with
      | some c => rw [ih]; rfl
      | none => rw [ih]; rfl
    · rw [if_neg htm]
      exact ih cur cnt

/-- Children after the misaligned loop: every processed index matching the
partial key now holds the inserted value above its previous children (a
fresh childless node if it was absent); all other indices are
untouched. -/
theorem misGo_child (v : Int) (key m : Nat) :
    ∀ (ts : List Nat), ts.Nodup → ∀ (cur : Node) (cnt i : Nat),
      ((misGo v key m (cur, cnt) ts).1).child i =
        if i ∈ ts ∧ i &&& m = key then
          some (Node.mk v (match cur.child i with
            | some c => c.child
            | none => fun _ => none))
        else cur.child i := by
  intro ts
  induction ts with
  | nil =>
    intro _ cur cnt i
    simp [misGo]
  | cons t ts ih =>
    intro hnd cur cnt i
    have hnt : t ∉ ts := (List.nodup_cons.mp hnd).1
    have hts : ts.Nodup := (List.nodup_cons.mp hnd).2
    simp only [misGo]
    by_cases htm : t &&& m = key
    · rw [if_pos htm]
      cases hc : cur.child t with
      | some c =>
        rw [ih hts]
        by_cases hit : i = t
        · subst hit
          have : i ∉ ts := hnt
          simp only [this, false_and, if_neg (by simp [this] : ¬(i ∈ ts ∧ i &&& m = key))]
          simp [setChild_child, hc, htm]
        · by_cases him : i ∈ ts ∧ i &&& m = key
          · simp only [if_pos him, setChild_child, if_neg hit]
            simp [List.mem_cons, him.1, him.2]
          · simp only [if_neg him, setChild_child, if_neg hit]
            have : ¬(i ∈ t :: ts ∧ i &&& m = key) := by
              intro hcon
              rcases List.mem_cons.mp hcon.1 with h1 | h1
              · exact hit h1
              · exact him ⟨h1, hcon.2⟩
            rw [if_neg this]
      | none =>
        rw [ih hts]
        by_cases hit : i = t
        · subst hit
          have hmem : i ∉ ts := hnt
          simp only [hmem, false_and, if_neg (by simp [hmem] : ¬(i ∈ ts ∧ i &&& m = key))]
          simp [setChild_child, hc, htm]
        · by_cases him : i ∈ ts ∧ i &&& m = key
          · simp only [if_pos him, setChild_child, if_neg hit]
            simp [List.mem_cons, him.1, him.2]
          · simp only [if_neg him, setChild_child, if_neg hit]
            have : ¬(i ∈ t :: ts ∧ i &&& m = key) := by
              intro hcon
              rcases List.mem_cons.mp hcon.1 with h1 | h1
              · exact hit h1
              · exact him ⟨h1, hcon.2⟩
            rw [if_neg this]
    · rw [if_neg htm]
      rw [ih hts]
      by_cases him : i ∈ ts ∧ i &&& m = key
      · simp [him, List.mem_cons, him.1, him.2]
      · rw [if_neg him]
        have : ¬(i ∈ t :: ts ∧ i &&& m = key) := by
          intro hcon
          rcases List.mem_cons.mp hcon.1 with h1 | h1
          · subst h1
            exact htm hcon.2
          · exact him ⟨h1, hcon.2⟩
        rw [if_neg this]

/-- Effect of one `add_ip` body on the value found at every digit path:
the inserted value on its terminal paths, a default-or-existing value on
the strictly traversed paths, and no change anywhere else. -/
theorem addIpGoF_valueAt (hB : 0 < B) (v : Int) :
    ∀ (fuel m : Nat), m < fuel → ∀ (cur : Node) (ip : Nat) (p : List Nat),
      valueAt (addIpGoF B W d v fuel cur ip m).1 p =
        if termB B W ip m p then some v
        else if descB B W ip m p then some ((valueAt cur p).getD d)
        else valueAt cur p := by
  intro fuel
  induction fuel with
  | zero => intro m h; omega
  | succ fuel ih =>
    intro m hm cur ip p
    by_cases hg : 0 < B ∧ B ≤ m
    · -- descent round
      have hrec : m - B < fuel := by omega
      cases p with
      | nil =>
        have ht : termB B W ip m [] = false := by
          simp [termB]
          omega
        have hd : descB B W ip m [] = true := by
          simp [descB]
          omega
        simp only [addIpGoF, if_pos hg, ht, hd]
        cases hc : cur.child (topBits B W ip) with
        | some c => simp [valueAt, lookupPath, setChild_value]
        | none => simp [valueAt, lookupPath, setChild_value]
      | cons t q =>
        have hterm : termB B W ip m (t :: q) =
            (decide (t = topBits B W ip) && termB B W (stepIp B W ip) (m - B) q) := by
          simp only [termB, if_pos hg]
        have hdesc : descB B W ip m (t :: q) =
            (decide (0 < B ∧ B ≤ m) && decide (t = topBits B W ip) &&
              descB B W (stepIp B W ip) (m - B) q) := rfl
        by_cases hit : t = topBits B W ip
        · cases hc : cur.child (topBits B W ip) with
          | some c =>
            have hlhs : valueAt (addIpGoF B W d v (fuel + 1) cur ip m).1 (t :: q) =
                valueAt (addIpGoF B W d v fuel c (stepIp B W ip) (m - B)).1 q := by
              simp only [addIpGoF, if_pos hg, hc]
              simp [valueAt, lookupPath_cons, setChild_child, hit]
            rw [hlhs, ih (m - B) hrec c (stepIp B W ip) q]
            have hcv : valueAt cur (t :: q) = valueAt c q := by
              simp [valueAt, lookupPath_cons, hit, hc]
            rw [hterm, hdesc, hcv]
            simp [hg, hit]
          | none =>
            have hlhs : valueAt (addIpGoF B W d v (fuel + 1) cur ip m).1 (t :: q) =
                valueAt (addIpGoF B W d v fuel (Node.leaf d) (stepIp B W ip) (m - B)).1 q := by
              simp only [addIpGoF, if_pos hg, hc]
              simp [valueAt, lookupPath_cons, setChild_child, hit]
            rw [hlhs, ih (m - B) hrec (Node.leaf d) (stepIp B W ip) q]
            have hcv : valueAt cur (t :: q) = none := by
              simp [valueAt, lookupPath_cons, hit, hc]
            rw [hterm, hdesc, hcv]
            by_cases h1 : termB B W (stepIp B W ip) (m - B) q = true
            · simp [h1, hg, hit]
            · by_cases h2 : descB B W (stepIp B W ip) (m - B) q = true
              · simp [h1, h2, hg, hit, valueAt_leaf_getD]
              · have hq : q ≠ [] := by
                  intro hqe
                  subst hqe
                  simp [termB, descB] at h1 h2
                  omega
                simp [h1, h2, hg, hit, valueAt_leaf_ne_nil d q hq]
        · -- wrong digit: untouched child
          have hlhs : valueAt (addIpGoF B W d v (fuel + 1) cur ip m).1 (t :: q) =
              valueAt cur (t :: q) := by
            cases hc : cur.child (topBits B W ip) with
            | some c =>
              simp only [addIpGoF, if_pos hg, hc]
              simp [valueAt, lookupPath_cons, setChild_child, hit]
            | none =>
              simp only [addIpGoF, if_pos hg, hc]
              simp [valueAt, lookupPath_cons, setChild_child, hit]
          rw [hlhs, hterm, hdesc]
          simp [hit]
    · by_cases hm0 : m ≠ 0
      · -- misaligned last level
        have hnod : (List.range (2 ^ B)).Nodup := List.nodup_range (2 ^ B)
        cases p with
        | nil =>
          have ht : termB B W ip m [] = false := by
            simp only [termB, decide_eq_false_iff_not]
            omega
          have hd : descB B W ip m [] = true := by
            simp only [descB, decide_eq_true_eq]
            omega
          simp only [addIpGoF, if_neg hg, if_pos hm0, ht, hd]
          simp [valueAt, lookupPath, misGo_fst_value]
        | cons t q =>
          cases q with
          | nil =>
            have hlhs : valueAt (addIpGoF B W d v (fuel + 1) cur ip m).1 [t] =
                if t ∈ List.range (2 ^ B) ∧ t &&& lmask B W m = topBits B W ip then
                  some v
                else valueAt cur [t] := by
              simp only [addIpGoF, if_neg hg, if_pos hm0, valueAt, lookupPath_cons]
              rw [misGo_child v (topBits B W ip) (lmask B W m) _ hnod]
              by_cases hmem : t ∈ List.range (2 ^ B) ∧ t &&& lmask B W m = topBits B W ip
              · rw [if_pos hmem, if_pos hmem]
                cases cur.child t <;> rfl
              · rw [if_neg hmem, if_neg hmem]
            rw [hlhs]
            have hterm : termB B W ip m [t] =
                (decide (t < 2 ^ B) && decide (t &&& lmask B W m = topBits B W ip)) := by
              simp only [termB, if_neg hg, if_pos hm0]
              simp
            have hdesc : descB B W ip m [t] = false := by
              simp only [descB]
              simp [hg]
            rw [hterm, hdesc]
            by_cases hmem : t ∈ List.range (2 ^ B) ∧ t &&& lmask B W m = topBits B W ip
            · have h1 : t < 2 ^ B := List.mem_range.mp hmem.1
              simp [hmem, h1, hmem.2]
            · rw [if_neg hmem]
              have : ¬(t < 2 ^ B ∧ t &&& lmask B W m = topBits B W ip) := by
                intro hcon
                exact hmem ⟨List.mem_range.mpr hcon.1, hcon.2⟩
              simp only [Bool.and_eq_true, decide_eq_true_eq]
              rw [if_neg this]
              simp
          | cons t1 q1 =>
            have hterm : termB B W ip m (t :: t1 :: q1) = false := by
              simp only [termB, if_neg hg, if_pos hm0]
              simp
            have hdesc : descB B W ip m (t :: t1 :: q1) = false := by
              simp only [descB]
              simp [hg]
            rw [hterm, hdesc]
            simp only [addIpGoF, if_neg hg, if_pos hm0, valueAt, lookupPath_cons]
            rw [misGo_child v (topBits B W ip) (lmask B W m) _ hnod]
            by_cases hmem : t ∈ List.range (2 ^ B) ∧ t &&& lmask B W m = topBits B W ip
            · rw [if_pos hmem]
              cases hc : cur.child t with
              | some c => simp [hc, lookupPath_mk_cons, lookupPath_cons, node_child_mk]
              | none => simp [hc, lookupPath_mk_cons, lookupPath_cons, node_child_mk]
            · rw [if_neg hmem]
              simp [lookupPath_cons]
      · -- aligned write at the reached node
        have hm0' : m = 0 := by omega
        subst hm0'
        have hgf : ¬(0 < B ∧ B ≤ (0 : Nat)) := by omega
        cases p with
        | nil =>
          simp only [addIpGoF, if_neg hg, if_neg (by simp : ¬((0 : Nat) ≠ 0))]
          simp [termB, valueAt, lookupPath, node_value_mk]
        | cons t q =>
          have hterm : termB B W ip 0 (t :: q) = false := by
            simp only [termB, if_neg hgf, if_neg (by simp : ¬((0 : Nat) ≠ 0))]
          have hdesc : descB B W ip 0 (t :: q) = false := by
            have hgd : (decide (0 < B ∧ B ≤ (0 : Nat))) = false := decide_eq_false hgf
            simp only [descB, hgd, Bool.false_and]
          rw [hterm, hdesc]
          simp only [addIpGoF, if_neg hg, if_neg (by simp : ¬((0 : Nat) ≠ 0))]
          simp [valueAt, lookupPath_mk_cons, lookupPath_cons, node_child_mk]

/-- Last writer over an extended insertion list. -/
theorem lastW_append (L : List Ins) (e : Ins) (p : List Nat) :
    lastW B W (L ++ [e]) p =
      if termB B W e.ip e.mask p then some e.value else lastW B W L p := by
  simp [lastW, List.foldl_append]

/-- Touched paths of an extended insertion list. -/
theorem touchedB_append (L : List Ins) (e : Ins) (p : List Nat) :
    touchedB B W (L ++ [e]) p =
      (touchedB B W L p || (termB B W e.ip e.mask p || descB B W e.ip e.mask p)) := by
  simp [touchedB]

/-- A last writer is a member of the list that writes the path. -/
theorem lastW_mem :
    ∀ (L : List Ins) (p : List Nat) (v : Int), lastW B W L p = some v →
      ∃ f ∈ L, termB B W f.ip f.mask p = true ∧ f.value = v := by
  intro L
  induction L using List.reverseRecOn with
  | nil => intro p v h; simp [lastW] at h
  | append_singleton L e ih =>
    intro p v h
    rw [lastW_append] at h
    by_cases ht : termB B W e.ip e.mask p = true
    · rw [if_pos ht] at h
      exact ⟨e, by simp, ht, by simpa using h⟩
    · rw [if_neg ht] at h
      obtain ⟨f, hf, hft, hfv⟩ := ih p v h
      exact ⟨f, by simp [hf], hft, hfv⟩

/-- With non-decreasing masks, the last writer of a path has a mask at
least as large as that of any writer of the path. -/
theorem lastW_mask_ge :
    ∀ (L : List Ins), L.Pairwise (fun a b => a.mask ≤ b.mask) →
      ∀ (p : List Nat) (v : Int), lastW B W L p = some v →
      ∀ e ∈ L, termB B W e.ip e.mask p = true →
      ∃ f ∈ L, termB B W f.ip f.mask p = true ∧ f.value = v ∧ e.mask ≤ f.mask := by
  intro L
  induction L using List.reverseRecOn with
  | nil => intro _ p v h; simp [lastW] at h
  | append_singleton L g ih =>
    intro hpw p v h e he het
    have hpwL : L.Pairwise (fun a b => a.mask ≤ b.mask) :=
      (List.pairwise_append.mp hpw).1
    rw [lastW_append] at h
    by_cases htg : termB B W g.ip g.mask p = true
    · rw [if_pos htg] at h
      refine ⟨g, by simp, htg, by simpa using h, ?_⟩
      rcases List.mem_append.mp he with hL | hg
      · exact (List.pairwise_append.mp hpw).2.2 e hL g (by simp)
      · simp only [List.mem_singleton] at hg
        subst hg
        exact le_refl _
    · rw [if_neg htg] at h
      rcases List.mem_append.mp he with hL | hg
      · obtain ⟨f, hf, h1, h2, h3⟩ := ih hpwL p v h e hL het
        exact ⟨f, by simp [hf], h1, h2, h3⟩
      · simp only [List.mem_singleton] at hg
        subst hg
        exact absurd het htg

/-- Raw fold over an extended insertion list. -/
theorem rawRoot_append (L : List Ins) (e : Ins) :
    rawRoot B W d (L ++ [e]) =
      (addIpGo B W d e.value (rawRoot B W d L) e.ip e.mask).1 := by
  simp [rawRoot, List.foldl_append]

/-- Invariant of the insertion fold: the value at every digit path of the
raw tree is given by `invVal` (last writer, else default on created
paths, else absent). -/
theorem rawRoot_valueAt (hB : 0 < B) :
    ∀ (L : List Ins) (p : List Nat),
      valueAt (rawRoot B W d L) p = invVal B W d L p := by
  intro L
  induction L using List.reverseRecOn with
  | nil =>
    intro p
    cases p with
    | nil => simp [rawRoot, invVal, lastW, touchedB, valueAt, lookupPath, Node.leaf, node_value_mk]
    | cons t q => simp [rawRoot, invVal, lastW, touchedB, valueAt, lookupPath_cons, Node.leaf, node_child_mk]
  | append_singleton L e ih =>
    intro p
    rw [rawRoot_append, addIpGo, addIpGoF_valueAt B W d hB e.value (e.mask + 1) e.mask
      (by omega) (rawRoot B W d L) e.ip p]
    by_cases ht : termB B W e.ip e.mask p = true
    · rw [if_pos ht]
      simp [invVal, lastW_append, ht]
    · rw [if_neg ht]
      by_cases hd : descB B W e.ip e.mask p = true
      · rw [if_pos hd, ih]
        simp only [invVal, lastW_append, touchedB_append, if_neg ht]
        cases hl : lastW B W L p with
        | some v => simp
        | none =>
          simp only [Option.getD]
          by_cases hp : p = [] ∨ touchedB B W L p = true
          · have : p = [] ∨ (touchedB B W L p || (termB B W e.ip e.mask p ||
                descB B W e.ip e.mask p)) = true := by
              rcases hp with h | h
              · exact Or.inl h
              · exact Or.inr (by simp [h])
            simp only [if_pos hp, if_pos this]
          · have : p = [] ∨ (touchedB B W L p || (termB B W e.ip e.mask p ||
                descB B W e.ip e.mask p)) = true := by
              right
              simp [hd]
            simp only [if_neg hp, if_pos this]
      · rw [if_neg hd, ih]
        simp only [invVal, lastW_append, touchedB_append, if_neg ht]
        cases hl : lastW B W L p with
        | some v => simp
        | none =>
          have hb1 : termB B W e.ip e.mask p = false := by
            simpa using ht
          have hb2 : descB B W e.ip e.mask p = false := by
            simpa using hd
          simp [hb1, hb2]

/-- With in-range masks presented in non-decreasing order every `add`
check passes, and the `Except` fold equals the pure fold. -/
theorem foldAdd_eq :
    ∀ (L : List Ins) (t : Tri), (∀ e ∈ L, 1 ≤ e.mask ∧ e.mask ≤ W) →
      List.Chain (fun a b => a ≤ b) t.last_mask (L.map Ins.mask) →
      L.foldlM (fun s e => Tri.add B W d s e.ip (e.mask : Int) e.value) t =
        Except.ok (L.foldl (addPure B W d) t) := by
  intro L
  induction L with
  | nil => intro t _ _; rfl
  | cons e L ih =>
    intro t hr hc
    have hre := hr e (by simp)
    have hc1 : t.last_mask ≤ e.mask ∧
        List.Chain (fun a b => a ≤ b) e.mask (L.map Ins.mask) := by
      rw [List.map_cons, List.chain_cons] at hc
      exact hc
    have hadd : Tri.add B W d t e.ip (e.mask : Int) e.value =
        Except.ok (addPure B W d t e) := by
      have hm1 : ¬((e.mask : Int) = -1) := by omega
      have hrr : ¬((e.mask : Int) < 1 ∨ (W : Int) < (e.mask : Int)) := by omega
      have ho : ¬((e.mask : Int).toNat < t.last_mask) := by omega
      rw [Tri.add, if_neg hm1, if_neg hrr, Tri.addIp, if_neg ho]
      simp [addPure]
    simp only [List.foldlM_cons, hadd]
    have : (L.foldlM (fun s e => Tri.add B W d s e.ip (e.mask : Int) e.value)
        (addPure B W d t e)) = Except.ok (L.foldl (addPure B W d) (addPure B W d t e)) := by
      refine ih (addPure B W d t e) (fun f hf => hr f (by simp [hf])) ?_
      simpa [addPure] using hc1.2
    simpa using this

/-- Non-decreasing mask lists form a chain below any lower bound. -/
theorem chain_of_pairwise_mask :
    ∀ (L : List Ins) (m0 : Nat), (∀ e ∈ L, m0 ≤ e.mask) →
      L.Pairwise (fun a b => a.mask ≤ b.mask) →
      List.Chain (fun a b => a ≤ b) m0 (L.map Ins.mask) := by
  intro L
  induction L with
  | nil => intro m0 _ _; exact List.Chain.nil
  | cons e L ih =>
    intro m0 h0 hpw
    rw [List.map_cons]
    refine List.Chain.cons (h0 e (by simp)) ?_
    exact ih e.mask (fun f hf => (List.pairwise_cons.mp hpw).1 f hf)
      (List.pairwise_cons.mp hpw).2

/-- The root of the pure fold is the raw node fold. -/
theorem foldlPure_root :
    ∀ (L : List Ins) (t : Tri),
      (L.foldl (addPure B W d) t).root =
        L.foldl (fun n e => (addIpGo B W d e.value n e.ip e.mask).1) t.root := by
  intro L
  induction L with
  | nil => intro t; rfl
  | cons e L ih =>
    intro t
    simp only [List.foldl_cons, ih]
    rfl

/-- For an accepted insertion sequence, `buildL` succeeds with the pure
fold as its state. -/
theorem buildL_eq (L : List Ins) (h : okSeq W L) :
    buildL B W d L = Except.ok (L.foldl (addPure B W d) (Tri.empty d)) := by
  refine foldAdd_eq B W d L (Tri.empty d) (fun e he => ⟨(h.2 e he).1, (h.2 e he).2.1⟩) ?_
  exact chain_of_pairwise_mask L 0 (fun f _ => Nat.zero_le _) h.1

/-- The root of the built Tritrie is the raw insertion fold. -/
theorem buildT_root (L : List Ins) (h : okSeq W L) :
    (buildT B W d L).root = rawRoot B W d L := by
  unfold buildT
  rw [buildL_eq B W d L h]
  rw [foldlPure_root]
  rfl

/-- Shift to the right is division. -/
theorem topBits_eq_div (ip : Nat) : topBits B W ip = ip / 2 ^ (W - B) :=
  Nat.shiftRight_eq_div_pow ip (W - B)

/-- The shifted address drops the top `BITS` bits and aligns the rest. -/
theorem stepIp_eq (hBW : B ≤ W) (ip : Nat) :
    stepIp B W ip = ip % 2 ^ (W - B) * 2 ^ B := by
  unfold stepIp
  rw [Nat.shiftLeft_eq]
  have hsplit : 2 ^ W = 2 ^ (W - B) * 2 ^ B := by
    rw [← pow_add]
    congr 1
    omega
  rw [hsplit, Nat.mul_mod_mul_right]

/-- The shifted address stays in range. -/
theorem stepIp_lt (ip : Nat) : stepIp B W ip < 2 ^ W :=
  Nat.mod_lt _ (Nat.pos_pow_of_pos W (by omega))

/-- The top digit of a `W`-bit address is a valid child index. -/
theorem topBits_lt (hBW : B ≤ W) {ip : Nat} (hip : ip < 2 ^ W) :
    topBits B W ip < 2 ^ B := by
  rw [topBits_eq_div]
  rw [Nat.div_lt_iff_lt_mul (Nat.pos_pow_of_pos _ (by omega))]
  calc ip < 2 ^ W := hip
    _ = 2 ^ B * 2 ^ (W - B) := by rw [← pow_add]; congr 1; omega

/-- Cleanliness is preserved by one descent round. -/
theorem stepIp_clean (hBW : B ≤ W) {m ip : Nat} (hm : B ≤ m) (hmW : m ≤ W)
    (hcl : ip % 2 ^ (W - m) = 0) : stepIp B W ip % 2 ^ (W - (m - B)) = 0 := by
  rw [stepIp_eq B W hBW]
  have h1 : 2 ^ (W - (m - B)) = 2 ^ (W - m) * 2 ^ B := by
    rw [← pow_add]
    congr 1
    omega
  rw [h1, Nat.mul_mod_mul_right]
  have h2 : ip % 2 ^ (W - B) % 2 ^ (W - m) = ip % 2 ^ (W - m) :=
    Nat.mod_mod_of_dvd ip (pow_dvd_pow 2 (by omega))
  rw [h2, hcl, Nat.zero_mul]

/-- Agreement on the top `m` bits splits into agreement on the top `BITS`
bits and agreement of the shifted addresses on the next `m - BITS`. -/
theorem covers_split (hB : 0 < B) (hBW : B ≤ W) {m ip a : Nat} (hm : B ≤ m)
    (hmW : m ≤ W) (hip : ip < 2 ^ W) (ha : a < 2 ^ W) :
    (covers W ip m a ↔
      (topBits B W a = topBits B W ip ∧
        covers W (stepIp B W ip) (m - B) (stepIp B W a))) := by
  have hposB : 0 < (2 : Nat) ^ B := Nat.pos_pow_of_pos B (by omega)
  have hck : (2 : Nat) ^ (W - B) = 2 ^ (W - m) * 2 ^ (m - B) := by
    rw [← pow_add]
    congr 1
    omega
  have hK1 : ∀ x : Nat, x / 2 ^ (W - m) / 2 ^ (m - B) = x / 2 ^ (W - B) := by
    intro x
    rw [Nat.div_div_eq_div_mul, ← hck]
  have hK2 : ∀ x : Nat, stepIp B W x / 2 ^ (W - (m - B)) = x / 2 ^ (W - m) % 2 ^ (m - B) := by
    intro x
    rw [stepIp_eq B W hBW]
    have h1 : (2 : Nat) ^ (W - (m - B)) = 2 ^ (W - m) * 2 ^ B := by
      rw [← pow_add]
      congr 1
      omega
    rw [h1, Nat.mul_div_mul_right _ _ hposB, hck, Nat.mod_mul_right_div_self]
  simp only [covers, topBits, Nat.shiftRight_eq_div_pow]
  constructor
  · intro h
    refine ⟨?_, ?_⟩
    · rw [← hK1 a, ← hK1 ip, h]
    · rw [hK2 a, hK2 ip, h]
  · rintro ⟨h1, h2⟩
    have e1 : a / 2 ^ (W - m) / 2 ^ (m - B) = ip / 2 ^ (W - m) / 2 ^ (m - B) := by
      rw [hK1 a, hK1 ip]
      exact h1
    have e2 : a / 2 ^ (W - m) % 2 ^ (m - B) = ip / 2 ^ (W - m) % 2 ^ (m - B) := by
      rw [← hK2 a, ← hK2 ip]
      exact h2
    have ha2 := Nat.div_add_mod (a / 2 ^ (W - m)) (2 ^ (m - B))
    have hi2 := Nat.div_add_mod (ip / 2 ^ (W - m)) (2 ^ (m - B))
    have hprod : 2 ^ (m - B) * (a / 2 ^ (W - m) / 2 ^ (m - B)) =
        2 ^ (m - B) * (ip / 2 ^ (W - m) / 2 ^ (m - B)) := by rw [e1]
    omega

/-- Conjunction with a shifted block of ones extracts a bit field. -/
theorem and_ones_shift (x m s : Nat) :
    x &&& ((2 ^ m - 1) <<< s) = ((x >>> s) % 2 ^ m) <<< s := by
  apply Nat.eq_of_testBit_eq
  intro i
  simp only [Nat.testBit_land, Nat.testBit_shiftLeft, Nat.testBit_two_pow_sub_one,
    Nat.testBit_mod_two_pow, Nat.testBit_shiftRight, ge_iff_le]
  by_cases hsi : s ≤ i
  · have hi : s + (i - s) = i := by omega
    rw [hi]
    cases hx : x.testBit i <;> cases hm2 : decide (i - s < m) <;> simp [hsi]
  · simp [hsi]

/-- The level mask is a block of `mask_left` ones at the top of a
`BITS`-wide index. -/
theorem lmask_eq (hmW : m ≤ W) (hmB : m ≤ B) :
    lmask B W m = (2 ^ m - 1) <<< (B - m) := by
  unfold lmask
  congr 1
  rw [Nat.shiftRight_eq_div_pow]
  have hp : (2 : Nat) ^ W = 2 ^ m * 2 ^ (W - m) := by
    rw [← pow_add]
    congr 1
    omega
  have p1 : 0 < (2 : Nat) ^ m := Nat.pos_pow_of_pos m (by omega)
  have p2 : 0 < (2 : Nat) ^ (W - m) := Nat.pos_pow_of_pos (W - m) (by omega)
  have key : ((2 : Nat) ^ m - 1) * 2 ^ (W - m) + 2 ^ (W - m) = 2 ^ W := by
    rw [hp, Nat.sub_mul, one_mul]
    have hy : (2 : Nat) ^ (W - m) ≤ 2 ^ m * 2 ^ (W - m) := Nat.le_mul_of_pos_left _ p1
    omega
  have h1 : (2 : Nat) ^ W - 1 = 2 ^ (W - m) - 1 + (2 ^ m - 1) * 2 ^ (W - m) := by
    omega
  rw [h1, Nat.add_mul_div_right _ _ p2, Nat.div_eq_of_lt (by omega)]
  omega

/-- The misaligned terminal test coincides with coverage of the address by
the `m`-bit prefix, for a clean prefix address. -/
theorem covers_mis (hB : 0 < B) (hBW : B ≤ W) {m ip a : Nat} (hm0 : 0 < m)
    (hmB : m < B) (hip : ip < 2 ^ W) (ha : a < 2 ^ W)
    (hcl : ip % 2 ^ (W - m) = 0) :
    ((topBits B W a &&& lmask B W m) = topBits B W ip) ↔ covers W ip m a := by
  have p1 : 0 < (2 : Nat) ^ m := Nat.pos_pow_of_pos m (by omega)
  have p2 : 0 < (2 : Nat) ^ (W - m) := Nat.pos_pow_of_pos (W - m) (by omega)
  have p3 : 0 < (2 : Nat) ^ (B - m) := Nat.pos_pow_of_pos (B - m) (by omega)
  rw [lmask_eq B W (by omega) (by omega), and_ones_shift]
  have h3 : topBits B W a >>> (B - m) = a / 2 ^ (W - m) := by
    rw [topBits_eq_div, Nat.shiftRight_eq_div_pow, Nat.div_div_eq_div_mul, ← pow_add]
    congr 2
    omega
  have h4 : a / 2 ^ (W - m) % 2 ^ m = a / 2 ^ (W - m) := by
    apply Nat.mod_eq_of_lt
    rw [Nat.div_lt_iff_lt_mul p2]
    calc a < 2 ^ W := ha
      _ = 2 ^ m * 2 ^ (W - m) := by rw [← pow_add]; congr 1; omega
  have h5 : topBits B W ip = ip / 2 ^ (W - m) * 2 ^ (B - m) := by
    rw [topBits_eq_div]
    have hipc : ip = 2 ^ (W - m) * (ip / 2 ^ (W - m)) := by
      have := Nat.div_add_mod ip (2 ^ (W - m))
      omega
    have hsplit : (2 : Nat) ^ (W - m) = 2 ^ (W - B) * 2 ^ (B - m) := by
      rw [← pow_add]
      congr 1
      omega
    calc ip / 2 ^ (W - B)
        = 2 ^ (W - m) * (ip / 2 ^ (W - m)) / 2 ^ (W - B) := by rw [← hipc]
      _ = 2 ^ (W - B) * (2 ^ (B - m) * (ip / 2 ^ (W - m))) / 2 ^ (W - B) := by
          rw [hsplit, Nat.mul_assoc]
      _ = 2 ^ (B - m) * (ip / 2 ^ (W - m)) :=
          Nat.mul_div_cancel_left _ (Nat.pos_pow_of_pos (W - B) (by omega))
      _ = ip / 2 ^ (W - m) * 2 ^ (B - m) := Nat.mul_comm _ _
  rw [Nat.shiftLeft_eq, h3, h4, h5]
  simp only [covers, Nat.shiftRight_eq_div_pow]
  constructor
  · intro h
    exact Nat.eq_of_mul_eq_mul_right p3 h
  · intro h
    rw [h]

/-- Coverage of an address by a clean prefix is exactly the terminal-path
test along the digit list of the address. -/
theorem covers_iff_termB (hB : 0 < B) (hBW : B ≤ W) :
    ∀ (m ip a : Nat), m ≤ W → ip < 2 ^ W → a < 2 ^ W → ip % 2 ^ (W - m) = 0 →
      (termB B W ip m (chunks B W a (levels B m)) = true ↔ covers W ip m a) := by
  intro m
  induction m using Nat.strong_induction_on with
  | _ m ih =>
    intro ip a hmW hip ha hcl
    by_cases hg : B ≤ m
    · have hgd : 0 < B ∧ B ≤ m := ⟨hB, hg⟩
      rw [levels_rec B hB hg]
      simp only [chunks, termB, if_pos hgd, Bool.and_eq_true, decide_eq_true_eq]
      rw [covers_split B W hB hBW hg hmW hip ha]
      have hrec := ih (m - B) (by omega) (stepIp B W ip) (stepIp B W a) (by omega)
        (stepIp_lt B W ip) (stepIp_lt B W a)
        (stepIp_clean B W hBW hg hmW hcl)
      rw [hrec]
    · by_cases hm0 : m = 0
      · subst hm0
        simp only [levels_zero B hB, chunks, termB, decide_eq_true_eq]
        simp only [covers, Nat.shiftRight_eq_div_pow, Nat.sub_zero]
        rw [Nat.div_eq_of_lt hip, Nat.div_eq_of_lt ha]
        simp
      · have hmB : m < B := by omega
        rw [levels_of_lt B hB (by omega) hmB]
        have hgd : ¬(0 < B ∧ B ≤ m) := by omega
        simp only [chunks, termB, if_neg hgd, if_pos hm0, Bool.and_eq_true,
          decide_eq_true_eq]
        rw [covers_mis B W hB hBW (by omega) hmB hip ha hcl]
        have htop : topBits B W a < 2 ^ B := topBits_lt B W hBW ha
        constructor
        · intro h
          exact h.2
        · intro h
          exact ⟨⟨trivial, htop⟩, h⟩

/-- If no insertion writes a path, `lastW` is `none` and conversely. -/
theorem lastW_none :
    ∀ (L : List Ins) (p : List Nat), lastW B W L p = none →
      ∀ f ∈ L, termB B W f.ip f.mask p = false := by
  intro L
  induction L using List.reverseRecOn with
  | nil => intro p _ f hf; simp at hf
  | append_singleton L g ih =>
    intro p h f hf
    rw [lastW_append] at h
    by_cases htg : termB B W g.ip g.mask p = true
    · rw [if_pos htg] at h
      exact absurd h (by simp)
    · rw [if_neg htg] at h
      rcases List.mem_append.mp hf with hL | hg
      · exact ih p h f hL
      · simp only [List.mem_singleton] at hg
        subst hg
        simpa using htg

/-- The visited chain is no longer than the digit list. -/
theorem pathNodes_length_le :
    ∀ (cs : List Nat) (cur : Node), (pathNodes cur cs).length ≤ cs.length := by
  intro cs
  induction cs with
  | nil => intro cur; simp [pathNodes]
  | cons c cs ih =>
    intro cur
    simp only [pathNodes]
    cases cur.child c with
    | none => simp
    | some ch => simpa using ih ch

/-- Claim C1, general part, packaged as a standalone lemma used by the
claim theorem: longest-prefix-match correctness of `Tritrie::add` /
`Tritrie::query` for every valid insertion sequence. -/
theorem lpm_general (B W : Nat) (L : List Ins) (e : Ins) (a : Nat)
    (hB : 0 < B) (hBW : B ≤ W) (hval : validSeq W (-1) L) (he : e ∈ L)
    (ha : a < 2 ^ W) (hcov : covers W e.ip e.mask a)
    (hmax : ∀ f ∈ L, covers W f.ip f.mask a → f.mask ≤ e.mask)
    (huniq : ∀ f ∈ L, f.mask = e.mask → covers W f.ip f.mask a → f.value = e.value) :
    Tri.query B W (-1) (buildT B W (-1) L) a = e.value := by
  have hok : okSeq W L := hval.1
  have hem := hok.2 e he
  have hDpos : 0 < levels B e.mask := levels_pos B hB (by omega)
  have hDW : levels B e.mask ≤ W :=
    le_trans (levels_mono B hem.2.1) (levels_le_self B hB W)
  have hchW : (chunks B W a W).length = W := chunks_length B W W a
  have hroot : (buildT B W (-1) L).root = rawRoot B W (-1) L := buildT_root B W (-1) L hok
  rw [Tri.query, hroot, queryGo_eq_fold]
  have hterm_e : termB B W e.ip e.mask (chunks B W a (levels B e.mask)) = true :=
    (covers_iff_termB B W hB hBW e.mask e.ip a hem.2.1 hem.2.2 ha
      (hval.2 e he).1).mpr hcov
  refine foldl_upd_spec _ (-1) (levels B e.mask) e.value (by omega) ?_ ((hval.2 e he).2) ?_
  · -- the terminal node of `e` sits at depth `levels e.mask` with value `e.value`
    have hget := pathNodes_get (chunks B W a W) (rawRoot B W (-1) L)
      (levels B e.mask - 1) (by omega)
    have hDm : levels B e.mask - 1 + 1 = levels B e.mask := by omega
    rw [hDm, chunks_take B W (levels B e.mask) W a hDW] at hget
    have hvalAt : valueAt (rawRoot B W (-1) L) (chunks B W a (levels B e.mask)) =
        some e.value := by
      rw [rawRoot_valueAt B W (-1) hB]
      cases hl : lastW B W L (chunks B W a (levels B e.mask)) with
      | none =>
        have := lastW_none B W L _ hl e he
        rw [hterm_e] at this
        exact absurd this (by simp)
      | some v' =>
        obtain ⟨f, hfL, hft, hfv, hmge⟩ :=
          lastW_mask_ge B W L hok.1 _ v' hl e he hterm_e
        have hflen := termB_length B W hB _ _ _ hft
        have hlenD : (chunks B W a (levels B e.mask)).length = levels B e.mask :=
          chunks_length B W _ a
        have hlev : levels B f.mask = levels B e.mask := by
          rw [← hflen, hlenD]
        have hfm := hok.2 f hfL
        have hcovf : covers W f.ip f.mask a := by
          refine (covers_iff_termB B W hB hBW f.mask f.ip a hfm.2.1 hfm.2.2 ha
            (hval.2 f hfL).1).mp ?_
          rw [hlev]
          exact hft
        have hfe : f.mask = e.mask := le_antisymm (hmax f hfL hcovf) hmge
        have hfev : v' = e.value := by
          rw [← hfv]
          exact huniq f hfL hfe hcovf
        simp [invVal, hl, hfev]
    obtain ⟨n, hlook, hnv⟩ := Option.map_eq_some'.mp hvalAt
    refine ⟨n, ?_, hnv⟩
    rw [hget]
    exact hlook
  · -- every deeper node on the walked path carries the default
    intro k n hk hget2
    have hklen : k < (pathNodes (rawRoot B W (-1) L) (chunks B W a W)).length :=
      (List.get?_eq_some.mp hget2).1
    have hkW : k < W := by
      have h1 := pathNodes_length_le (chunks B W a W) (rawRoot B W (-1) L)
      omega
    have hget3 := pathNodes_get (chunks B W a W) (rawRoot B W (-1) L)
      k (by omega)
    rw [chunks_take B W (k + 1) W a (by omega)] at hget3
    have hvalAt2 : valueAt (rawRoot B W (-1) L) (chunks B W a (k + 1)) =
        some n.value := by
      unfold valueAt
      rw [← hget3] at *
      rw [hget2]
      rfl
    rw [rawRoot_valueAt B W (-1) hB] at hvalAt2
    cases hl : lastW B W L (chunks B W a (k + 1)) with
    | some v'' =>
      obtain ⟨f, hfL, hft, hfv⟩ := lastW_mem B W L _ v'' hl
      have hflen := termB_length B W hB _ _ _ hft
      have hlenD : (chunks B W a (k + 1)).length = k + 1 := chunks_length B W _ a
      have hlev : levels B f.mask = k + 1 := by rw [← hflen, hlenD]
      have hfm := hok.2 f hfL
      have hcovf : covers W f.ip f.mask a := by
        refine (covers_iff_termB B W hB hBW f.mask f.ip a hfm.2.1 hfm.2.2 ha
          (hval.2 f hfL).1).mp ?_
        rw [hlev]
        exact hft
      have hle : levels B f.mask ≤ levels B e.mask := levels_mono B (hmax f hfL hcovf)
      omega
    | none =>
      simp only [invVal, hl] at hvalAt2
      by_cases hp : chunks B W a (k + 1) = [] ∨ touchedB B W L (chunks B W a (k + 1)) = true
      · rw [if_pos hp] at hvalAt2
        simpa using hvalAt2.symm
      · rw [if_neg hp] at hvalAt2
        exact absurd hvalAt2 (by simp)

/-- Claim C1: longest-prefix-match correctness.  For every insertion
sequence accepted by `Tritrie::add` in non-decreasing mask order (with
canonical CIDR addresses, no payload equal to the sentinel, and a single
binding per prefix), for every inserted prefix `(P, v)` and every address
`a` covered by `P` but by no strictly longer inserted prefix, the query
returns `v`.  In particular the verbatim section-8 scenario set yields the
ten listed answers. -/
theorem claim_C1_lpm_correctness :
    (∀ (B W : Nat) (L : List Ins) (e : Ins) (a : Nat),
        0 < B → B ≤ W → validSeq W (-1) L → e ∈ L → a < 2 ^ W →
        covers W e.ip e.mask a →
        (∀ f ∈ L, covers W f.ip f.mask a → f.mask ≤ e.mask) →
        (∀ f ∈ L, f.mask = e.mask → covers W f.ip f.mask a → f.value = e.value) →
        Tri.query B W (-1) (buildT B W (-1) L) a = e.value) ∧
    (buildOk 8 32 (-1) scenario = true ∧
      Tri.query 8 32 (-1) scenarioT (10 * 2 ^ 24 + 255 * 2 ^ 16) = 2 ∧
      Tri.query 8 32 (-1) scenarioT (10 * 2 ^ 24 + 255 * 2 ^ 16 + 3) = 3 ∧
      Tri.query 8 32 (-1) scenarioT (10 * 2 ^ 24 + 255 * 2 ^ 16 + 255 * 2 ^ 8 + 255) = 2 ∧
      Tri.query 8 32 (-1) scenarioT (255 * 2 ^ 24 + 255 * 2 ^ 16 + 123 * 2 ^ 8 + 42) = 1 ∧
      Tri.query 8 32 (-1) scenarioT (254 * 2 ^ 24) = -1 ∧
      Tri.query 8 32 (-1) scenarioT (170 * 2 ^ 24 + 85 * 2 ^ 16 + 200 * 2 ^ 8 + 1) = 6 ∧
      Tri.query 8 32 (-1) scenarioT (170 * 2 ^ 24 + 85 * 2 ^ 16 + 202 * 2 ^ 8 + 255) = 7 ∧
      Tri.query 8 32 (-1) scenarioT (95 * 2 ^ 24 + 175 * 2 ^ 16 + 111 * 2 ^ 8 + 255) = -1 ∧
      Tri.query 8 32 (-1) scenarioT (95 * 2 ^ 24 + 175 * 2 ^ 16 + 119 * 2 ^ 8 + 255) = 4 ∧
      Tri.query 8 32 (-1) scenarioT (95 * 2 ^ 24 + 175 * 2 ^ 16 + 120 * 2 ^ 8) = -1) := by
  constructor
  · intro B W L e a hB hBW hval he ha hcov hmax huniq
    exact lpm_general B W L e a hB hBW hval he ha hcov hmax huniq
  · exact ⟨by decide, by decide, by decide, by decide, by decide, by decide, by decide,
      by decide, by decide, by decide, by decide⟩

/-- Witness for C1: the general statement applied to the scenario set at
the host route `10.255.0.3/32 → 3` and the address `10.255.0.3`, with
every hypothesis discharged by computation. -/
theorem claim_C1_witness :
    Tri.query 8 32 (-1) (buildT 8 32 (-1) scenario) (10 * 2 ^ 24 + 255 * 2 ^ 16 + 3) = 3 :=
  claim_C1_lpm_correctness.1 8 32 scenario
    ⟨10 * 2 ^ 24 + 255 * 2 ^ 16 + 3, 32, 3⟩ (10 * 2 ^ 24 + 255 * 2 ^ 16 + 3)
    (by decide) (by decide) (by decide) (by decide) (by decide) (by decide)
    (by decide) (by decide)

/-- Claim C4: the spec demands that `Tritrie::query` update its running
match exactly when the visited value differs from the construction-chosen
sentinel `def`, so that with a sentinel other than `-1` a stored payload
equal to `-1` is still reported.  The source compares against the literal
`-1` instead of `def` (tritrie.hpp line 241), so the claim fails on the
code: with sentinel `def = 0`, after inserting `10.0.0.0/8 → -1`, querying
the covered address `10.0.0.1` returns the sentinel `0` instead of the
stored payload `-1`.  This theorem evaluates the embedded source at that
failing input. -/
theorem claim_C4_sentinel_literal :
    Tri.query 8 32 0 (buildT 8 32 0 [⟨10 * 2 ^ 24, 8, -1⟩]) (10 * 2 ^ 24 + 1) = 0 ∧
    (0 : Int) ≠ -1 := by
  constructor
  · decide
  · decide

/-- Claim C5: an insertion whose mask is strictly smaller than the last
inserted mask is rejected by `add_ip` with `InvalidOrder` in both Tritrie
and MultiTritrie — the check precedes every mutation, which the embedding
reflects by returning the error before any state is built — and an
insertion with mask equal to the last mask (and within range) is
accepted. -/
theorem claim_C5_insertion_order (B W : Nat) (d : Int) :
    (∀ (t : Tri) (ip mask : Nat) (v : Int), mask < t.last_mask →
        Tri.addIp B W d t ip mask v = Except.error Err.invalidOrder) ∧
    (∀ (t : MTri) (ip mask : Nat) (v : Int), mask < t.last_mask →
        MTri.addIp B W d t ip mask v = Except.error Err.invalidOrder) ∧
    (∀ (t : Tri) (ip mask : Nat) (v : Int), mask = t.last_mask → 1 ≤ mask → mask ≤ W →
        ∃ u, Tri.add B W d t ip (mask : Int) v = Except.ok u) ∧
    (∀ (t : MTri) (ip mask : Nat) (v : Int), mask = t.last_mask → 1 ≤ mask → mask ≤ W →
        ∃ u, MTri.add B W d t ip (mask : Int) v = Except.ok u) := by
  refine ⟨?_, ?_, ?_, ?_⟩
  · intro t ip mask v h
    rw [Tri.addIp, if_pos h]
  · intro t ip mask v h
    rw [MTri.addIp, if_pos h]
  · intro t ip mask v heq h1 hW
    have hm1 : ¬((mask : Int) = -1) := by omega
    have hr : ¬((mask : Int) < 1 ∨ (W : Int) < (mask : Int)) := by omega
    have ho : ¬((mask : Int).toNat < t.last_mask) := by omega
    rw [Tri.add, if_neg hm1, if_neg hr, Tri.addIp, if_neg ho]
    exact ⟨_, rfl⟩
  · intro t ip mask v heq h1 hW
    have hm1 : ¬((mask : Int) = -1) := by omega
    have hr : ¬((mask : Int) < 0 ∨ (W : Int) < (mask : Int)) := by omega
    have ho : ¬((mask : Int).toNat < t.last_mask) := by omega
    rw [MTri.add, if_neg hm1, if_neg hr, MTri.addIp, if_neg ho]
    exact ⟨_, rfl⟩

/-- Witness for C5 at concrete inputs: a Tritrie state with
`last_mask = 16` rejects a `/8` insertion with `InvalidOrder` and accepts
a second `/16` insertion. -/
theorem claim_C5_witness :
    Tri.addIp 8 32 (-1) ⟨Node.leaf (-1), 0, 16⟩ 0 8 7 = Except.error Err.invalidOrder ∧
    MTri.addIp 8 32 (-1) ⟨MNode.leaf (-1), 0, 16⟩ 0 8 7 = Except.error Err.invalidOrder ∧
    (∃ u, Tri.add 8 32 (-1) ⟨Node.leaf (-1), 0, 16⟩ 0 (16 : Int) 7 = Except.ok u) ∧
    (∃ u, MTri.add 8 32 (-1) ⟨MNode.leaf (-1), 0, 16⟩ 0 (16 : Int) 7 = Except.ok u) := by
  refine ⟨?_, ?_, ?_, ?_⟩
  · exact (claim_C5_insertion_order 8 32 (-1)).1 ⟨Node.leaf (-1), 0, 16⟩ 0 8 7 (by decide)
  · exact (claim_C5_insertion_order 8 32 (-1)).2.1 ⟨MNode.leaf (-1), 0, 16⟩ 0 8 7 (by decide)
  · exact (claim_C5_insertion_order 8 32 (-1)).2.2.1 ⟨Node.leaf (-1), 0, 16⟩ 0 16 7 rfl
      (by decide) (by decide)
  · exact (claim_C5_insertion_order 8 32 (-1)).2.2.2 ⟨MNode.leaf (-1), 0, 16⟩ 0 16 7 rfl
      (by decide) (by decide)

/-- Claim C6: the claim states that both `Tritrie::add` and
`MultiTritrie::add` reject every mask `< 1` (in particular mask `0`) with
`MaskOutOfRange`.  The Tritrie source checks `mask < 1`, but the
MultiTritrie source checks `mask < 0` (multitritrie.hpp line 216), so a
mask of `0` passes the MultiTritrie range check and the insertion runs —
where its own `assert(ip == 0)` (line 141) is violated for any non-zero
address.  This theorem evaluates both embedded `add` members at mask `0`:
MultiTritrie accepts, Tritrie rejects. -/
theorem claim_C6_mask_zero_divergence :
    (∃ u, MTri.add 8 32 (-1) (MTri.empty (-1)) (10 * 2 ^ 24) 0 5 = Except.ok u) ∧
    Tri.add 8 32 (-1) (Tri.empty (-1)) (10 * 2 ^ 24) 0 5 = Except.error Err.maskOutOfRange := by
  exact ⟨⟨_, rfl⟩, rfl⟩

/-- `listUpd` preserves the length. -/
theorem listUpd_length {α : Type} (l : List α) (i : Nat) (g : α → α) :
    (listUpd l i g).length = l.length := by
  induction l generalizing i with
  | nil => rfl
  | cons a l ih =>
    cases i with
    | zero => simp [listUpd]
    | succ i => simp [listUpd, ih i]

/-- Element access after `listUpd`. -/
theorem listUpd_get {α : Type} (l : List α) (i : Nat) (g : α → α) (j : Nat) :
    (listUpd l i g).get? j = if j = i then (l.get? j).map g else l.get? j := by
  induction l generalizing i j with
  | nil => simp [listUpd]
  | cons a l ih =>
    cases i with
    | zero =>
      cases j with
      | zero => simp [listUpd]
      | succ j => simp [listUpd]
    | succ i =>
      cases j with
      | zero => simp [listUpd]
      | succ j => simpa [listUpd] using ih i j

/-- Entries after `alloc_entry`: one default entry appended. -/
theorem allocEntry_entries (f : FlatS) :
    (allocEntry d PS f).1.entries = f.entries ++ [⟨d, fun _ => Ptr.uninit⟩] := by
  unfold allocEntry
  by_cases h : f.used_in_page = PS ∨ f.pages = 0 <;> simp [h]

/-- The allocation index returned by `alloc_entry`. -/
theorem allocEntry_idx (f : FlatS) : (allocEntry d PS f).2 = f.entries.length := by
  unfold allocEntry
  by_cases h : f.used_in_page = PS ∨ f.pages = 0 <;> simp [h]

/-- `alloc_entry` increments the total usage counter. -/
theorem allocEntry_used (f : FlatS) :
    (allocEntry d PS f).1.used_total = f.used_total + 1 := by
  unfold allocEntry
  by_cases h : f.used_in_page = PS ∨ f.pages = 0 <;> simp [h]

/-- Entry access after a value assignment. -/
theorem setEVal_get (f : FlatS) (i : Nat) (v : Int) (j : Nat) :
    (setEVal f i v).entries.get? j =
      if j = i then (f.entries.get? j).map (fun e => ⟨v, e.child⟩)
      else f.entries.get? j :=
  listUpd_get f.entries i _ j

/-- A value assignment preserves the number of entries. -/
theorem setEVal_length (f : FlatS) (i : Nat) (v : Int) :
    (setEVal f i v).entries.length = f.entries.length :=
  listUpd_length f.entries i _

/-- A value assignment preserves the usage counter. -/
theorem setEVal_used (f : FlatS) (i : Nat) (v : Int) :
    (setEVal f i v).used_total = f.used_total := rfl

/-- Entry access after a child-slot assignment. -/
theorem setEChild_get (f : FlatS) (i slot : Nat) (p : Ptr) (j : Nat) :
    (setEChild f i slot p).entries.get? j =
      if j = i then
        (f.entries.get? j).map
          (fun e => ⟨e.value, fun k => if k = slot then p else e.child k⟩)
      else f.entries.get? j :=
  listUpd_get f.entries i _ j

/-- A child-slot assignment preserves the number of entries. -/
theorem setEChild_length (f : FlatS) (i slot : Nat) (p : Ptr) :
    (setEChild f i slot p).entries.length = f.entries.length :=
  listUpd_length f.entries i _

/-- A child-slot assignment preserves the usage counter. -/
theorem setEChild_used (f : FlatS) (i slot : Nat) (p : Ptr) :
    (setEChild f i slot p).used_total = f.used_total := rfl

/-- A simulated entry exists, lies in the region, and carries the node
value. -/
theorem simAt_self {f : FlatS} {lo hi i : Nat} {n : Node} (h : simAt f lo hi i n) :
    lo ≤ i ∧ i < hi ∧ (f.entries.get? i).map Entry.value = some n.value := by
  have h1 := h []
  simpa [flatLookup, lookupPath] using h1

/-- The arena entry behind a simulated node. -/
theorem simAt_entry {f : FlatS} {lo hi i : Nat} {n : Node} (h : simAt f lo hi i n) :
    ∃ e, f.entries.get? i = some e ∧ e.value = n.value := by
  obtain ⟨-, -, h3⟩ := simAt_self h
  cases hfi : f.entries.get? i with
  | none => rw [hfi] at h3; simp at h3
  | some e =>
    rw [hfi] at h3
    exact ⟨e, rfl, by simpa using h3⟩

/-- Descending one digit preserves the simulation. -/
theorem simAt_child {f : FlatS} {lo hi i : Nat} {n : Node} (h : simAt f lo hi i n)
    {t : Nat} {c : Node} {e : Entry} {j : Nat}
    (he : f.entries.get? i = some e) (hc : n.child t = some c)
    (hj : e.child t = Ptr.ref j) :
    simAt f lo hi j c := by
  intro p
  have h1 := h (t :: p)
  simp only [flatLookup, lookupPath_cons, he, hc, hj] at h1
  exact h1

/-- Correspondence of one child slot under simulation. -/
theorem simAt_slot {f : FlatS} {lo hi i : Nat} {n : Node} (h : simAt f lo hi i n)
    {e : Entry} (he : f.entries.get? i = some e) (t : Nat) :
    match e.child t, n.child t with
    | Ptr.ref j, some c =>
        lo ≤ j ∧ j < hi ∧ (f.entries.get? j).map Entry.value = some c.value
    | Ptr.null, none => True
    | Ptr.uninit, none => True
    | _, _ => False := by
  have h1 := h [t]
  simp only [flatLookup, lookupPath_cons, lookupPath, he] at h1
  cases hec : e.child t <;> cases hnc : n.child t <;>
    simp only [hec, hnc] at h1 ⊢ <;> first | exact h1 | exact trivial

/-- The simulation only depends on the entries of the region. -/
theorem simAt_stable {f g : FlatS} {lo hi : Nat}
    (hagree : ∀ j, lo ≤ j → j < hi → g.entries.get? j = f.entries.get? j) :
    ∀ {i : Nat} {n : Node}, simAt f lo hi i n → simAt g lo hi i n := by
  intro i n h p
  induction p generalizing i n with
  | nil =>
    obtain ⟨h1, h2, h3⟩ := simAt_self h
    have he : g.entries.get? i = f.entries.get? i := hagree i h1 h2
    simp only [flatLookup, lookupPath]
    exact ⟨h1, h2, by rw [he]; exact h3⟩
  | cons t q ih =>
    obtain ⟨h1, h2, -⟩ := simAt_self h
    obtain ⟨e, he, -⟩ := simAt_entry h
    have he' : g.entries.get? i = some e := by rw [hagree i h1 h2, he]
    have hslot := simAt_slot h he t
    cases hec : e.child t with
    | ref j =>
      cases hnc : n.child t with
      | none => simp [hec, hnc] at hslot
      | some c =>
        have hsub : simAt f lo hi j c := simAt_child h he hnc hec
        simp only [flatLookup, he', hec, lookupPath_cons, hnc]
        exact ih hsub
    | null =>
      cases hnc : n.child t with
      | some c => simp [hec, hnc] at hslot
      | none => simp only [flatLookup, he', hec, lookupPath_cons, hnc]
    | uninit =>
      cases hnc : n.child t with
      | some c => simp [hec, hnc] at hslot
      | none => simp only [flatLookup, he', hec, lookupPath_cons, hnc]

/-- The simulation region can be enlarged. -/
theorem simAt_weaken {f : FlatS} {lo hi lo' hi' i : Nat} {n : Node}
    (hlo : lo' ≤ lo) (hhi : hi ≤ hi') (h : simAt f lo hi i n) :
    simAt f lo' hi' i n := by
  intro p
  have h1 := h p
  cases hfl : flatLookup f i p with
  | none =>
    cases hlk : lookupPath n p with
    | none => simp [hfl, hlk]
    | some nd => simp [hfl, hlk] at h1
  | some j =>
    cases hlk : lookupPath n p with
    | none => simp [hfl, hlk] at h1
    | some nd =>
      simp only [hfl, hlk] at h1 ⊢
      exact ⟨le_trans hlo h1.1, lt_of_lt_of_le h1.2.1 hhi, h1.2.2⟩

/-- Under simulation the flat query walk equals the node query walk at
the same fuel. -/
theorem flatQueryGo_sim {f : FlatS} {lo hi : Nat} :
    ∀ (fuel : Nat) {i : Nat} {n : Node}, simAt f lo hi i n →
      ∀ (ip : Nat) (m0 : Int),
        flatQueryGo B W d f i ip m0 fuel = queryGoD B W d n ip m0 fuel := by
  intro fuel
  induction fuel with
  | zero => intro i n h ip m0; rfl
  | succ fuel ih =>
    intro i n h ip m0
    obtain ⟨e, he, -⟩ := simAt_entry h
    have hslot := simAt_slot h he (topBits B W ip)
    cases hec : e.child (topBits B W ip) with
    | ref j =>
      cases hnc : n.child (topBits B W ip) with
      | none => simp [hec, hnc] at hslot
      | some c =>
        simp only [hec, hnc] at hslot
        obtain ⟨-, -, hj3⟩ := hslot
        cases hej : f.entries.get? j with
        | none => rw [hej] at hj3; simp at hj3
        | some ej =>
          rw [hej] at hj3
          have hval : ej.value = c.value := by simpa using hj3
          have hsub : simAt f lo hi j c := simAt_child h he hnc hec
          simp only [flatQueryGo, he, hec, hej, queryGoD, hnc, hval]
          exact ih hsub (stepIp B W ip) _
    | null =>
      cases hnc : n.child (topBits B W ip) with
      | some c => simp [hec, hnc] at hslot
      | none => simp only [flatQueryGo, queryGoD, he, hec, hnc]
    | uninit =>
      cases hnc : n.child (topBits B W ip) with
      | some c => simp [hec, hnc] at hslot
      | none => simp only [flatQueryGo, queryGoD, he, hec, hnc]

/-- Under simulation the flat iteration count equals the node iteration
count at the same fuel. -/
theorem flatStepsGo_sim {f : FlatS} {lo hi : Nat} :
    ∀ (fuel : Nat) {i : Nat} {n : Node}, simAt f lo hi i n →
      ∀ (ip : Nat),
        flatStepsGo B W f i ip fuel = queryStepsGo B W n ip fuel := by
  intro fuel
  induction fuel with
  | zero => intro i n h ip; rfl
  | succ fuel ih =>
    intro i n h ip
    obtain ⟨e, he, -⟩ := simAt_entry h
    have hslot := simAt_slot h he (topBits B W ip)
    cases hec : e.child (topBits B W ip) with
    | ref j =>
      cases hnc : n.child (topBits B W ip) with
      | none => simp [hec, hnc] at hslot
      | some c =>
        simp only [hec, hnc] at hslot
        obtain ⟨-, -, hj3⟩ := hslot
        cases hej : f.entries.get? j with
        | none => rw [hej] at hj3; simp at hj3
        | some ej =>
          have hsub : simAt f lo hi j c := simAt_child h he hnc hec
          simp only [flatStepsGo, he, hec, hej, queryStepsGo, hnc]
          rw [ih hsub (stepIp B W ip)]
    | null =>
      cases hnc : n.child (topBits B W ip) with
      | some c => simp [hec, hnc] at hslot
      | none => simp only [flatStepsGo, queryStepsGo, he, hec, hnc]
    | uninit =>
      cases hnc : n.child (topBits B W ip) with
      | some c => simp [hec, hnc] at hslot
      | none => simp only [flatStepsGo, queryStepsGo, he, hec, hnc]

/-- With the default sentinel `-1` the flat walk law and the Tritrie walk
law coincide (the Tritrie source hard-codes `-1` in its comparison). -/
theorem queryGoD_neg_one :
    ∀ (fuel : Nat) (n : Node) (ip : Nat) (m0 : Int),
      queryGoD B W (-1) n ip m0 fuel = queryGo B W n ip m0 fuel := by
  intro fuel
  induction fuel with
  | zero => intro n ip m0; rfl
  | succ fuel ih =>
    intro n ip m0
    simp only [queryGoD, queryGo]
    cases n.child (topBits B W ip) with
    | none => rfl
    | some c => exact ih c (stepIp B W ip) _

/-- The slot invariant only depends on the entries of the region. -/
theorem slotsOk_stable {f g : FlatS} {lo hi : Nat}
    (hagree : ∀ j, lo ≤ j → j < hi → g.entries.get? j = f.entries.get? j)
    (h : slotsOk B f lo hi) : slotsOk B g lo hi := by
  intro j hj1 hj2 e he i hi2
  exact h j hj1 hj2 e (by rw [← hagree j hj1 hj2]; exact he) i hi2


/-- Shaped trees have a positive node count. -/
theorem countNodesF_pos {K : Nat} {n : Node} (h : Shaped B K n) :
    0 < countNodesF B K n := by
  cases K with
  | zero => exact absurd h (by simp [Shaped])
  | succ K => simp only [countNodesF]; omega

/-- Node count is stable once the fuel covers the shape depth. -/
theorem countNodesF_stable :
    ∀ (K : Nat) {n : Node}, Shaped B K n →
      ∀ {K' : Nat}, K ≤ K' → countNodesF B K' n = countNodesF B K n := by
  intro K
  induction K with
  | zero => intro n h; exact absurd h (by simp [Shaped])
  | succ K ih =>
    intro n h K' hK'
    obtain ⟨K2, rfl⟩ : ∃ K2, K' = K2 + 1 := ⟨K' - 1, by omega⟩
    simp only [countNodesF]
    congr 1
    apply congrArg
    apply List.map_congr_left
    intro i _
    cases hc : n.child i with
    | none => rfl
    | some c => exact ih (h i c hc).2 (by omega)

/-- Walk chains of a shaped node are strictly shorter than the shape
depth. -/
theorem pathNodes_lt_of_shaped :
    ∀ (cs : List Nat) {K : Nat} {n : Node}, Shaped B K n →
      (pathNodes n cs).length < K := by
  intro cs
  induction cs with
  | nil =>
    intro K n h
    cases K with
    | zero => exact absurd h (by simp [Shaped])
    | succ K => simp [pathNodes]
  | cons t q ih =>
    intro K n h
    cases K with
    | zero => exact absurd h (by simp [Shaped])
    | succ K =>
      cases hc : n.child t with
      | none => simp only [pathNodes, hc, List.length_nil]; omega
      | some c =>
        have h2 := ih (h t c hc).2
        simp only [pathNodes, hc, List.length_cons]
        omega

/-- A walk chain is strictly shorter than the node count, at any fuel
dominating the chain: each visited node is a distinct position of the
unfolded tree. -/
theorem pathNodes_lt_countNodesF :
    ∀ (cs : List Nat) {K : Nat} {n : Node}, (∀ x ∈ cs, x < 2 ^ B) →
      (pathNodes n cs).length < K →
      (pathNodes n cs).length < countNodesF B K n := by
  intro cs
  induction cs with
  | nil =>
    intro K n _ hK
    simp only [pathNodes, List.length_nil] at hK ⊢
    cases K with
    | zero => omega
    | succ K => simp only [countNodesF]; omega
  | cons t q ih =>
    intro K n hcs hK
    cases hc : n.child t with
    | none =>
      simp only [pathNodes, hc, List.length_nil] at hK ⊢
      cases K with
      | zero => omega
      | succ K => simp only [countNodesF]; omega
    | some c =>
      simp only [pathNodes, hc, List.length_cons] at hK ⊢
      cases K with
      | zero => omega
      | succ K =>
        have ht : t < 2 ^ B := hcs t (by simp)
        have hsub : (pathNodes c q).length < countNodesF B K c :=
          ih (fun x hx => hcs x (by simp [hx])) (by omega)
        have hmem := List.mem_map_of_mem
          (fun i => match n.child i with | none => 0 | some c => countNodesF B K c)
          (List.mem_range.mpr ht)
        simp only [hc] at hmem
        have hle := List.single_le_sum (fun x _ => Nat.zero_le x) _ hmem
        simp only [countNodesF]
        omega

/-- All `BITS`-digits of an in-range address are valid child indices. -/
theorem chunks_lt (hBW : B ≤ W) :
    ∀ (k ip : Nat), ip < 2 ^ W → ∀ x ∈ chunks B W ip k, x < 2 ^ B := by
  intro k
  induction k with
  | zero => intro ip _ x hx; simp [chunks] at hx
  | succ k ih =>
    intro ip hip x hx
    simp only [chunks, List.mem_cons] at hx
    rcases hx with rfl | hx
    · exact topBits_lt B W hBW hip
    · exact ih (stepIp B W ip) (stepIp_lt B W ip) x hx

/-- `Tritrie::query` is fuel-insensitive beyond any bound dominating all
its walk chains. -/
theorem queryGo_fuel :
    ∀ (Db : Nat) (cur : Node) (ip : Nat),
      (∀ k, (pathNodes cur (chunks B W ip k)).length ≤ Db) →
      ∀ (k k' : Nat), Db ≤ k → Db ≤ k' → ∀ (m0 : Int),
        queryGo B W cur ip m0 k = queryGo B W cur ip m0 k' := by
  intro Db
  induction Db with
  | zero =>
    intro cur ip hD k k' _ _ m0
    have hnil : cur.child (topBits B W ip) = none := by
      have h1 := hD 1
      cases hc : cur.child (topBits B W ip) with
      | none => rfl
      | some c => simp [chunks, pathNodes, hc] at h1
    cases k <;> cases k' <;> simp [queryGo, hnil]
  | succ Db ih =>
    intro cur ip hD k k' hk hk' m0
    obtain ⟨a, rfl⟩ : ∃ a, k = a + 1 := ⟨k - 1, by omega⟩
    obtain ⟨b, rfl⟩ : ∃ b, k' = b + 1 := ⟨k' - 1, by omega⟩
    simp only [queryGo]
    cases hc : cur.child (topBits B W ip) with
    | none => rfl
    | some c =>
      exact ih c (stepIp B W ip)
        (fun j => by
          have h2 := hD (j + 1)
          simp only [chunks, pathNodes, hc, List.length_cons] at h2
          omega)
        a b (by omega) (by omega) _

/-- Shape bounds are monotone in the depth. -/
theorem shaped_mono : ∀ (K : Nat) {n : Node}, Shaped B K n →
    ∀ {K' : Nat}, K ≤ K' → Shaped B K' n := by
  intro K
  induction K with
  | zero => intro n h; exact absurd h (by simp [Shaped])
  | succ K ih =>
    intro n h K' hK'
    obtain ⟨K2, rfl⟩ : ∃ K2, K' = K2 + 1 := ⟨K' - 1, by omega⟩
    intro t c hc
    exact ⟨(h t c hc).1, ih (h t c hc).2 (by omega)⟩

/-- The shape bound only depends on the child table. -/
theorem shaped_congr {n m : Node} (hch : m.child = n.child) {K : Nat}
    (h : Shaped B K n) : Shaped B K m := by
  cases K with
  | zero => exact absurd h (by simp [Shaped])
  | succ K => intro t c hc; exact h t c (by rw [← hch]; exact hc)

/-- Leaves satisfy every positive shape bound. -/
theorem shaped_leaf {K : Nat} (hK : 0 < K) (v : Int) :
    Shaped B K (Node.leaf v) := by
  obtain ⟨K2, rfl⟩ : ∃ K2, K = K2 + 1 := ⟨K - 1, by omega⟩
  intro t c hc
  exact absurd hc (by simp [Node.leaf, node_child_mk])

/-- Updating a child slot in range with a shaped subtree keeps the node
shaped. -/
theorem shaped_setChild {K t : Nat} {n c : Node} (ht : t < 2 ^ B)
    (hc : Shaped B K c) (hn : Shaped B (K + 1) n) :
    Shaped B (K + 1) (setChild n t (some c)) := by
  intro i ci hci
  rw [setChild_child] at hci
  by_cases hit : i = t
  · subst hit
    rw [if_pos rfl] at hci
    cases hci
    exact ⟨ht, hc⟩
  · rw [if_neg hit] at hci
    exact hn i ci hci

/-- The misaligned replication loop keeps the node shaped (depth at least
two: the parent and its last-level children). -/
theorem shaped_misGo (v : Int) (key m : Nat) {K : Nat} :
    ∀ (ts : List Nat), (∀ x ∈ ts, x < 2 ^ B) → ∀ (cur : Node) (cnt : Nat),
      Shaped B (K + 2) cur →
      Shaped B (K + 2) (misGo v key m (cur, cnt) ts).1 := by
  intro ts
  induction ts with
  | nil => intro _ cur cnt h; exact h
  | cons t ts ih =>
    intro hts cur cnt h
    have ht : t < 2 ^ B := hts t (by simp)
    have hts2 : ∀ x ∈ ts, x < 2 ^ B := fun x hx => hts x (by simp [hx])
    by_cases hkey : t &&& m = key
    · cases hc : cur.child t with
      | some c =>
        simp only [misGo, if_pos hkey, hc]
        apply ih hts2
        apply shaped_setChild B ht ?_ h
        exact shaped_congr B (by rw [node_child_mk]) (h t c hc).2
      | none =>
        simp only [misGo, if_pos hkey, hc]
        apply ih hts2
        apply shaped_setChild B ht ?_ h
        have hlv : Shaped B (K + 1) (Node.leaf v) := shaped_leaf B (by omega) v
        exact shaped_congr B (by simp [Node.leaf, node_child_mk]) hlv
    · simp only [misGo, if_neg hkey]
      exact ih hts2 cur cnt h

/-- One `add_ip` body keeps the tree shaped at depth `levels W + 1`:
the insertion never reaches deeper than its own level count, which the
mask bound keeps below the worst case. -/
theorem shaped_addIpGoF (hB : 0 < B) (hBW : B ≤ W) (v : Int) :
    ∀ (fuel m : Nat), m < fuel → ∀ (cur : Node) (ip : Nat) (K : Nat),
      ip < 2 ^ W → levels B m < K → Shaped B K cur →
      Shaped B K (addIpGoF B W d v fuel cur ip m).1 := by
  intro fuel
  induction fuel with
  | zero => intro m h; omega
  | succ fuel ih =>
    intro m hm cur ip K hip hlev hcur
    by_cases hg : 0 < B ∧ B ≤ m
    · have hlm : 0 < levels B m := levels_pos B hB (by omega)
      obtain ⟨K2, rfl⟩ : ∃ K2, K = K2 + 1 := ⟨K - 1, by omega⟩
      have hK2 : levels B (m - B) < K2 := by
        have := levels_rec B hB hg.2
        omega
      have htop : topBits B W ip < 2 ^ B := topBits_lt B W hBW hip
      simp only [addIpGoF, if_pos hg]
      cases hc : cur.child (topBits B W ip) with
      | some c =>
        apply shaped_setChild B htop ?_ hcur
        exact ih (m - B) (by omega) c (stepIp B W ip) K2 (stepIp_lt B W ip)
          hK2 (hcur (topBits B W ip) c hc).2
      | none =>
        apply shaped_setChild B htop ?_ hcur
        apply ih (m - B) (by omega) (Node.leaf d) (stepIp B W ip) K2
          (stepIp_lt B W ip) hK2
        exact shaped_leaf B (by omega) d
    · by_cases hm0 : m ≠ 0
      · have hlev1 : levels B m = 1 := levels_of_lt B hB (by omega) (by omega)
        obtain ⟨K2, rfl⟩ : ∃ K2, K = K2 + 2 := ⟨K - 2, by omega⟩
        simp only [addIpGoF, if_neg hg, if_pos hm0]
        exact shaped_misGo B v (topBits B W ip) (lmask B W m)
          (List.range (2 ^ B)) (fun x hx => List.mem_range.mp hx) cur 0 hcur
      · have hm0' : m = 0 := by omega
        subst hm0'
        simp only [addIpGoF, if_neg hg, if_neg (by omega : ¬((0 : Nat) ≠ 0))]
        exact shaped_congr B (by rw [node_child_mk]) hcur

/-- The tree built by a valid insertion sequence is shaped: depth at most
`levels W` plus the root, children only below `2 ^ BITS`. -/
theorem rawRoot_shaped (hB : 0 < B) (hBW : B ≤ W) :
    ∀ {L : List Ins}, okSeq W L → Shaped B (levels B W + 1) (rawRoot B W d L) := by
  intro L
  induction L using List.reverseRecOn with
  | nil => intro _; exact shaped_leaf B (by omega) d
  | append_singleton L e ih =>
    intro hok
    have hokL : okSeq W L :=
      ⟨(List.pairwise_append.mp hok.1).1, fun x hx => hok.2 x (by simp [hx])⟩
    have he := hok.2 e (by simp)
    rw [rawRoot_append]
    unfold addIpGo
    exact shaped_addIpGoF B W d hB hBW e.value (e.mask + 1) e.mask (by omega)
      (rawRoot B W d L) e.ip (levels B W + 1) he.2.2
      (by have := levels_mono B he.2.1; omega) (ih hokL)

/-- Assembling a simulation from a parent entry whose slots are resolved
against the node children. -/
theorem simAt_build {f : FlatS} {lo hi P : Nat} {n : Node} {e : Entry}
    (hP : f.entries.get? P = some e) (hlo : lo ≤ P) (hPhi : P < hi)
    (hval : e.value = n.value)
    (hch : ∀ t,
      (∀ c, n.child t = some c → ∃ k, e.child t = Ptr.ref k ∧ simAt f lo hi k c) ∧
      (n.child t = none → e.child t = Ptr.null ∨ e.child t = Ptr.uninit)) :
    simAt f lo hi P n := by
  intro p
  cases p with
  | nil =>
    simp only [flatLookup, lookupPath]
    exact ⟨hlo, hPhi, by rw [hP]; simp [hval]⟩
  | cons t q =>
    cases hnc : n.child t with
    | none =>
      rcases (hch t).2 hnc with h2 | h2 <;>
        simp only [flatLookup, lookupPath_cons, hP, h2, hnc]
    | some c =>
      obtain ⟨k, hk, hsim⟩ := (hch t).1 c hnc
      have h1 := hsim q
      simp only [flatLookup, lookupPath_cons, hP, hk, hnc]
      exact h1

/-- Effect of the child loop of `build_node`, given the behaviour of the
recursive calls at the next depth. -/
theorem buildKids (fuel : Nat) (n : Node) (P : Nat)
    (ihb : ∀ (c : Node) (g : FlatS), Shaped B fuel c → buildSpec B d PS fuel c g) :
    ∀ (ts : List Nat), ts.Nodup → (∀ i ∈ ts, i < 2 ^ B) →
      (∀ i ∈ ts, ∀ c, n.child i = some c → Shaped B fuel c) →
      ∀ (g0 : FlatS), P < g0.entries.length →
      kidsSpec B fuel n P g0
        (ts.foldl (fun g i =>
          setEChild (buildNodeF B d PS fuel (n.child i) g).1 P i
            (buildNodeF B d PS fuel (n.child i) g).2) g0) ts := by
  intro ts
  induction ts with
  | nil =>
    intro _ _ _ g0 hP
    simp only [List.foldl_nil]
    refine ⟨by simp [kidsCount], by simp [kidsCount], fun j _ _ => rfl, ?_, ?_⟩
    · intro j hj1 hj2 e he i hi2
      omega
    · intro e0 he0
      exact ⟨e0, he0, rfl, fun i _ => rfl, fun i hi => absurd hi (List.not_mem_nil i)⟩
  | cons i ts ih =>
    intro hnod hlt hsh g0 hP
    have hnod2 : ts.Nodup := (List.nodup_cons.mp hnod).2
    have hint : i ∉ ts := (List.nodup_cons.mp hnod).1
    have hlt2 : ∀ x ∈ ts, x < 2 ^ B := fun x hx => hlt x (by simp [hx])
    have hsh2 : ∀ x ∈ ts, ∀ c, n.child x = some c → Shaped B fuel c :=
      fun x hx => hsh x (by simp [hx])
    simp only [List.foldl_cons]
    cases hc : n.child i with
    | none =>
      simp only [buildNodeF]
      have hlen1 : (setEChild g0 P i Ptr.null).entries.length = g0.entries.length :=
        setEChild_length g0 P i Ptr.null
      have hkid := ih hnod2 hlt2 hsh2 (setEChild g0 P i Ptr.null) (by omega)
      obtain ⟨k1, k2, k3, k4, k5⟩ := hkid
      refine ⟨?_, ?_, ?_, ?_, ?_⟩
      · rw [k1, hlen1]
        simp only [kidsCount, List.map_cons, List.sum_cons, hc]
        omega
      · rw [k2, setEChild_used]
        simp only [kidsCount, List.map_cons, List.sum_cons, hc]
        omega
      · intro j hj hjP
        rw [k3 j (by omega) hjP, setEChild_get, if_neg hjP]
      · intro j hj1 hj2 e he i2 hi2
        exact k4 j (by omega) (by rw [k1, hlen1] at hj2 ⊢; omega) e he i2 hi2
      · intro e0 he0
        have he1 : (setEChild g0 P i Ptr.null).entries.get? P =
            some ⟨e0.value, fun k => if k = i then Ptr.null else e0.child k⟩ := by
          rw [setEChild_get, if_pos rfl, he0]
          rfl
        obtain ⟨eE, hE1, hE2, hE3, hE4⟩ := k5 _ he1
        refine ⟨eE, hE1, by rw [hE2], ?_, ?_⟩
        · intro j hj
          have hjts : j ∉ ts := fun h => hj (by simp [h])
          have hji : j ≠ i := fun h => hj (by simp [h])
          rw [hE3 j hjts]
          simp [hji]
        · intro j hj
          rcases List.mem_cons.mp hj with hji | hjts
          · rw [hji]
            exact Or.inl ⟨hc, by rw [hE3 i hint]; simp⟩
          · rcases hE4 j hjts with ⟨h1, h2⟩ | ⟨c', k', h1, h2, h3, h4, h5⟩
            · exact Or.inl ⟨h1, h2⟩
            · exact Or.inr ⟨c', k', h1, h2, by rw [hlen1] at h3; exact h3, h4, h5⟩
    | some c =>
      have hb := ihb c g0 (hsh i (by simp) c hc)
      obtain ⟨hb1, hb2, hb3, hb4, hb5, hb6⟩ := hb
      rw [hb1]
      have hcpos : 0 < countNodesF B fuel c :=
        countNodesF_pos B (hsh i (by simp) c hc)
      have hlen1 : (setEChild (buildNodeF B d PS fuel (some c) g0).1 P i
          (Ptr.ref g0.entries.length)).entries.length =
          g0.entries.length + countNodesF B fuel c := by
        rw [setEChild_length, hb2]
      have hkid := ih hnod2 hlt2 hsh2
        (setEChild (buildNodeF B d PS fuel (some c) g0).1 P i
          (Ptr.ref g0.entries.length)) (by omega)
      obtain ⟨k1, k2, k3, k4, k5⟩ := hkid
      refine ⟨?_, ?_, ?_, ?_, ?_⟩
      · rw [k1, hlen1]
        simp only [kidsCount, List.map_cons, List.sum_cons, hc]
        omega
      · rw [k2, setEChild_used, hb3]
        simp only [kidsCount, List.map_cons, List.sum_cons, hc]
        omega
      · intro j hj hjP
        rw [k3 j (by omega) hjP, setEChild_get, if_neg hjP, hb4 j hj]
      · intro j hj1 hj2 e he i2 hi2
        rw [k1, hlen1] at hj2
        by_cases hjr : j < (buildNodeF B d PS fuel (some c) g0).1.entries.length
        · have hjP2 : j ≠ P := by omega
          have hA := k3 j (by rw [hlen1, ← hb2]; exact hjr) hjP2
          have hB2 : (setEChild (buildNodeF B d PS fuel (some c) g0).1 P i
              (Ptr.ref g0.entries.length)).entries.get? j =
              (buildNodeF B d PS fuel (some c) g0).1.entries.get? j := by
            rw [setEChild_get, if_neg hjP2]
          rcases hb5 j hj1 hjr e (by rw [← hB2, ← hA]; exact he) i2 hi2 with
            h | ⟨k', hk1, hk2, hk3⟩
          · exact Or.inl h
          · refine Or.inr ⟨k', hk1, hk2, ?_⟩
            rw [k1, hlen1]
            rw [hb2] at hk3
            omega
        · rw [hb2] at hjr
          exact k4 j (by rw [hlen1]; omega) (by rw [k1, hlen1]; omega) e he i2 hi2
      · intro e0 he0
        have hr0 : (buildNodeF B d PS fuel (some c) g0).1.entries.get? P = some e0 := by
          rw [hb4 P hP]
          exact he0
        have he1 : (setEChild (buildNodeF B d PS fuel (some c) g0).1 P i
            (Ptr.ref g0.entries.length)).entries.get? P =
            some ⟨e0.value, fun k => if k = i then Ptr.ref g0.entries.length
              else e0.child k⟩ := by
          rw [setEChild_get, if_pos rfl, hr0]
          rfl
        obtain ⟨eE, hE1, hE2, hE3, hE4⟩ := k5 _ he1
        refine ⟨eE, hE1, by rw [hE2], ?_, ?_⟩
        · intro j hj
          have hjts : j ∉ ts := fun h => hj (by simp [h])
          have hji : j ≠ i := fun h => hj (by simp [h])
          rw [hE3 j hjts]
          simp [hji]
        · intro j hj
          rcases List.mem_cons.mp hj with hji | hjts
          · rw [hji]
            refine Or.inr ⟨c, g0.entries.length, hc, by rw [hE3 i hint]; simp, le_refl _,
              by rw [k1, hlen1]; omega, ?_⟩
            have s2 : simAt (setEChild (buildNodeF B d PS fuel (some c) g0).1 P i
                (Ptr.ref g0.entries.length)) g0.entries.length
                (buildNodeF B d PS fuel (some c) g0).1.entries.length
                g0.entries.length c := by
              apply simAt_stable ?_ hb6
              intro j2 hj2a hj2b
              rw [setEChild_get, if_neg (by omega)]
            have s3 : simAt (ts.foldl (fun g i =>
                setEChild (buildNodeF B d PS fuel (n.child i) g).1 P i
                  (buildNodeF B d PS fuel (n.child i) g).2)
                (setEChild (buildNodeF B d PS fuel (some c) g0).1 P i
                  (Ptr.ref g0.entries.length))) g0.entries.length
                (buildNodeF B d PS fuel (some c) g0).1.entries.length
                g0.entries.length c := by
              apply simAt_stable ?_ s2
              intro j2 hj2a hj2b
              exact k3 j2 (by rw [hlen1, ← hb2]; exact hj2b) (by omega)
            exact simAt_weaken (le_refl _) (by rw [k1, hlen1, ← hb2]; omega) s3
          · rcases hE4 j hjts with ⟨h1, h2⟩ | ⟨c', k', h1, h2, h3, h4, h5⟩
            · exact Or.inl ⟨h1, h2⟩
            · exact Or.inr ⟨c', k', h1, h2, by rw [hlen1] at h3; omega, h4, h5⟩

/-- `build_node` on a shaped source node: pointer, counts, preservation,
slot invariant and simulation, by induction on the shape depth. -/
theorem buildNodeF_spec :
    ∀ (fuel : Nat) (n : Node) (f : FlatS), Shaped B fuel n →
      buildSpec B d PS fuel n f := by
  intro fuel
  induction fuel with
  | zero => intro n f h; exact absurd h (by simp [Shaped])
  | succ fuel ih =>
    intro n f hsh
    have hch : ∀ i ∈ List.range (2 ^ B), ∀ c, n.child i = some c → Shaped B fuel c :=
      fun i _ c hc => (hsh i c hc).2
    have heq : buildNodeF B d PS (fuel + 1) (some n) f =
        ((List.range (2 ^ B)).foldl (fun g i =>
            setEChild (buildNodeF B d PS fuel (n.child i) g).1 f.entries.length i
              (buildNodeF B d PS fuel (n.child i) g).2)
          (setEVal (allocEntry d PS f).1 f.entries.length n.value),
         Ptr.ref f.entries.length) := by
      simp only [buildNodeF, allocEntry_idx]
    have hf2len : (setEVal (allocEntry d PS f).1 f.entries.length n.value).entries.length =
        f.entries.length + 1 := by
      rw [setEVal_length, allocEntry_entries]
      simp
    have hf2used : (setEVal (allocEntry d PS f).1 f.entries.length n.value).used_total =
        f.used_total + 1 := by
      rw [setEVal_used, allocEntry_used]
    have hf2get_lt : ∀ j, j < f.entries.length →
        (setEVal (allocEntry d PS f).1 f.entries.length n.value).entries.get? j =
          f.entries.get? j := by
      intro j hj
      rw [setEVal_get, if_neg (by omega), allocEntry_entries, List.get?_append hj]
    have hf2getP : (setEVal (allocEntry d PS f).1 f.entries.length n.value).entries.get?
        f.entries.length = some ⟨n.value, fun _ => Ptr.uninit⟩ := by
      rw [setEVal_get, if_pos rfl, allocEntry_entries, List.get?_concat_length]
      rfl
    have hkid := buildKids B d PS fuel n f.entries.length (fun c g hc => ih c g hc)
      (List.range (2 ^ B)) (List.nodup_range (2 ^ B)) (fun i hi => List.mem_range.mp hi)
      hch (setEVal (allocEntry d PS f).1 f.entries.length n.value) (by omega)
    obtain ⟨k1, k2, k3, k4, k5⟩ := hkid
    obtain ⟨eE, hE1, hE2, hE3, hE4⟩ := k5 _ hf2getP
    have hcount : countNodesF B (fuel + 1) n =
        1 + kidsCount B fuel n (List.range (2 ^ B)) := rfl
    refine ⟨?_, ?_, ?_, ?_, ?_, ?_⟩
    · rw [heq]
    · rw [heq]
      simp only
      rw [k1, hf2len, hcount]
      omega
    · rw [heq]
      simp only
      rw [k2, hf2used, hcount]
      omega
    · intro j hj
      rw [heq]
      simp only
      rw [k3 j (by omega) (by omega), hf2get_lt j hj]
    · rw [heq]
      simp only
      intro j hj1 hj2 e he i2 hi2
      by_cases hjP : j = f.entries.length
      · subst hjP
        rw [hE1] at he
        cases he
        rcases hE4 i2 (List.mem_range.mpr hi2) with ⟨-, h2⟩ | ⟨c', k', -, h2, h3, h4, -⟩
        · exact Or.inl h2
        · exact Or.inr ⟨k', h2, by rw [hf2len] at h3; omega, h4⟩
      · exact k4 j (by rw [hf2len]; omega) hj2 e he i2 hi2
    · rw [heq]
      simp only
      have hPhi : f.entries.length <
          ((List.range (2 ^ B)).foldl (fun g i =>
            setEChild (buildNodeF B d PS fuel (n.child i) g).1 f.entries.length i
              (buildNodeF B d PS fuel (n.child i) g).2)
          (setEVal (allocEntry d PS f).1 f.entries.length n.value)).entries.length := by
        rw [k1, hf2len]
        omega
      apply simAt_build hE1 (le_refl _) hPhi hE2
      intro t
      constructor
      · intro c hcs
        have ht : t < 2 ^ B := (hsh t c hcs).1
        rcases hE4 t (List.mem_range.mpr ht) with ⟨h1, -⟩ | ⟨c', k', h1, h2, h3, h4, h5⟩
        · rw [hcs] at h1
          cases h1
        · rw [hcs] at h1
          injection h1 with h1e
          subst h1e
          refine ⟨k', h2, ?_⟩
          apply simAt_weaken (show f.entries.length ≤ k' by rw [hf2len] at h3; omega)
            (le_refl _)
          exact h5
      · intro hcn
        by_cases ht : t < 2 ^ B
        · rcases hE4 t (List.mem_range.mpr ht) with ⟨-, h2⟩ | ⟨c', k', h1, -⟩
          · exact Or.inl h2
          · rw [hcn] at h1
            cases h1
        · right
          rw [hE3 t (by simpa using ht)]

/-- After `Flat::build` on a Tritrie from an accepted insertion sequence,
`Flat::query` equals `Tritrie::query` (default sentinel `-1`). -/
theorem flat_tri_query_eq (hB : 0 < B) (hBW : B ≤ W) {L : List Ins}
    (hok : okSeq W L) {a : Nat} (ha : a < 2 ^ W) :
    FlatS.query B W (-1) (FlatS.build B W (-1) PS (buildT B W (-1) L)) a =
      Tri.query B W (-1) (buildT B W (-1) L) a := by
  have hroot : (buildT B W (-1) L).root = rawRoot B W (-1) L :=
    buildT_root B W (-1) L hok
  have hshL : Shaped B (levels B W + 1) (buildT B W (-1) L).root := by
    rw [hroot]
    exact rawRoot_shaped B W (-1) hB hBW hok
  have hlev : levels B W ≤ W := levels_le_self B hB W
  have hs2 : Shaped B (W + 1) (buildT B W (-1) L).root :=
    shaped_mono B (levels B W + 1) hshL (by omega)
  obtain ⟨-, hb2, -, -, -, hb6⟩ :=
    buildNodeF_spec B (-1) PS (W + 1) (buildT B W (-1) L).root FlatS.empty hs2
  have hflen : (FlatS.build B W (-1) PS (buildT B W (-1) L)).entries.length =
      countNodesF B (W + 1) (buildT B W (-1) L).root := by
    show (buildNodeF B (-1) PS (W + 1) (some (buildT B W (-1) L).root)
        FlatS.empty).1.entries.length = _
    rw [hb2]
    simp [FlatS.empty]
  have h1 : FlatS.query B W (-1) (FlatS.build B W (-1) PS (buildT B W (-1) L)) a =
      queryGoD B W (-1) (buildT B W (-1) L).root a (-1)
        ((FlatS.build B W (-1) PS (buildT B W (-1) L)).entries.length + 1) := by
    unfold FlatS.query
    exact flatQueryGo_sim B W (-1) _ hb6 a (-1)
  rw [h1, queryGoD_neg_one, hflen]
  have hD : ∀ k, (pathNodes (buildT B W (-1) L).root (chunks B W a k)).length ≤
      min (levels B W) (countNodesF B (W + 1) (buildT B W (-1) L).root) := by
    intro k
    have hc1 := pathNodes_lt_of_shaped B (chunks B W a k) hshL
    have hc2 := pathNodes_lt_countNodesF B (chunks B W a k)
      (chunks_lt B W hBW k a ha) hc1
    have hc3 := countNodesF_stable B (levels B W + 1) hshL
      (show levels B W + 1 ≤ W + 1 by omega)
    exact le_min (by omega) (by omega)
  exact queryGo_fuel B W
    (min (levels B W) (countNodesF B (W + 1) (buildT B W (-1) L).root))
    (buildT B W (-1) L).root a hD
    (countNodesF B (W + 1) (buildT B W (-1) L).root + 1) W
    (by omega) (by omega) (-1)

/-- Claim C2: for every Tritrie built by a valid insertion sequence
(`BITS` dividing into a `W`-bit key, masks accepted by `add`) and every
`W`-bit address, querying the flattened copy produced by `Flat::build`
returns the same value as querying the Tritrie (with the default sentinel
`-1` of both templates). -/
theorem claim_C2_flat_equivalence :
    ∀ (B W PS : Nat) (L : List Ins) (a : Nat),
      0 < B → B ≤ W → validSeq W (-1) L → a < 2 ^ W →
      FlatS.query B W (-1) (FlatS.build B W (-1) PS (buildT B W (-1) L)) a =
        Tri.query B W (-1) (buildT B W (-1) L) a :=
  fun B W PS L a hB hBW hv ha => flat_tri_query_eq B W PS hB hBW hv.1 ha

/-- Witness for C2 at concrete inputs: the section-8 scenario at
`BITS = 8`, page size 10000, address 10.255.0.3. -/
theorem claim_C2_witness :
    FlatS.query 8 32 (-1) (FlatS.build 8 32 (-1) 10000 (buildT 8 32 (-1) scenario))
        (10 * 2 ^ 24 + 255 * 2 ^ 16 + 3) =
      Tri.query 8 32 (-1) (buildT 8 32 (-1) scenario)
        (10 * 2 ^ 24 + 255 * 2 ^ 16 + 3) :=
  claim_C2_flat_equivalence 8 32 10000 scenario (10 * 2 ^ 24 + 255 * 2 ^ 16 + 3)
    (by decide) (by decide) (by decide) (by decide)

/-- Claim C7 (amended): on structures built from a valid insertion
sequence, both query loops terminate after at most `⌈W / BITS⌉ + 1`
iterations (the last iteration is the one that finds a missing child and
breaks).  The spec bound `W / BITS` is too small by one: the loop counter
advances by `1`, not `BITS`, per iteration, so a walk that reaches a
deepest node still performs one further iteration before breaking. -/
theorem claim_C7_termination_bound :
    ∀ (B W PS : Nat) (L : List Ins) (a : Nat),
      0 < B → B ≤ W → validSeq W (-1) L → a < 2 ^ W →
      Tri.querySteps B W (buildT B W (-1) L) a ≤ (W + B - 1) / B + 1 ∧
      FlatS.querySteps B W (FlatS.build B W (-1) PS (buildT B W (-1) L)) a ≤
        (W + B - 1) / B + 1 := by
  intro B W PS L a hB hBW hv ha
  have hok : okSeq W L := hv.1
  have hroot : (buildT B W (-1) L).root = rawRoot B W (-1) L :=
    buildT_root B W (-1) L hok
  have hshL : Shaped B (levels B W + 1) (buildT B W (-1) L).root := by
    rw [hroot]
    exact rawRoot_shaped B W (-1) hB hBW hok
  have hlev : levels B W ≤ W := levels_le_self B hB W
  have hlevd : levels B W = (W + B - 1) / B := rfl
  constructor
  · show queryStepsGo B W (buildT B W (-1) L).root a W ≤ (W + B - 1) / B + 1
    rw [queryStepsGo_eq]
    have hc1 := pathNodes_lt_of_shaped B (chunks B W a W) hshL
    omega
  · have hs2 : Shaped B (W + 1) (buildT B W (-1) L).root :=
      shaped_mono B (levels B W + 1) hshL (by omega)
    obtain ⟨-, -, -, -, -, hb6⟩ :=
      buildNodeF_spec B (-1) PS (W + 1) (buildT B W (-1) L).root FlatS.empty hs2
    show flatStepsGo B W (FlatS.build B W (-1) PS (buildT B W (-1) L)) 0 a
        ((FlatS.build B W (-1) PS (buildT B W (-1) L)).entries.length + 1) ≤
        (W + B - 1) / B + 1
    have heq : flatStepsGo B W (FlatS.build B W (-1) PS (buildT B W (-1) L)) 0 a
        ((FlatS.build B W (-1) PS (buildT B W (-1) L)).entries.length + 1) =
        queryStepsGo B W (buildT B W (-1) L).root a
          ((FlatS.build B W (-1) PS (buildT B W (-1) L)).entries.length + 1) :=
      flatStepsGo_sim B W _ hb6 a
    rw [heq, queryStepsGo_eq]
    have hc1 := pathNodes_lt_of_shaped B
      (chunks B W a ((FlatS.build B W (-1) PS (buildT B W (-1) L)).entries.length + 1))
      hshL
    omega

/-- Witness for C7 at concrete inputs: the section-8 scenario at
`BITS = 8`, page size 10000, address 10.255.0.3, bound `⌈32/8⌉ + 1`. -/
theorem claim_C7_witness :
    Tri.querySteps 8 32 (buildT 8 32 (-1) scenario)
        (10 * 2 ^ 24 + 255 * 2 ^ 16 + 3) ≤ (32 + 8 - 1) / 8 + 1 ∧
    FlatS.querySteps 8 32 (FlatS.build 8 32 (-1) 10000 (buildT 8 32 (-1) scenario))
        (10 * 2 ^ 24 + 255 * 2 ^ 16 + 3) ≤ (32 + 8 - 1) / 8 + 1 :=
  claim_C7_termination_bound 8 32 10000 scenario (10 * 2 ^ 24 + 255 * 2 ^ 16 + 3)
    (by decide) (by decide) (by decide) (by decide)

/-- Counterexample to the literal C7 bound: after inserting the single
prefix 10.255.0.3/32 into a `Tritrie<8>`, querying 10.255.0.3 executes 5
loop iterations (4 descents plus the breaking one), exceeding
`W / BITS = 32 / 8 = 4`. -/
theorem claim_C7_counterexample :
    Tri.querySteps 8 32 (buildT 8 32 (-1) [⟨10 * 2 ^ 24 + 255 * 2 ^ 16 + 3, 32, 3⟩])
        (10 * 2 ^ 24 + 255 * 2 ^ 16 + 3) = 5 ∧ ¬(5 ≤ 32 / 8) :=
  ⟨by decide, by decide⟩

/-- After `Flat::build` the total usage counter equals the number of
allocated entries (what `debug` prints as `entries total`). -/
theorem flat_size_eq (hB : 0 < B) (hBW : B ≤ W) {L : List Ins}
    (hok : okSeq W L) :
    FlatS.sizeSpec (FlatS.build B W d PS (buildT B W d L)) =
      (FlatS.build B W d PS (buildT B W d L)).entries.length ∧
    FlatS.sizeSpec (FlatS.build B W d PS (buildT B W d L)) =
      (FlatS.debugTuple PS (FlatS.build B W d PS (buildT B W d L))).2.2.1 := by
  have hroot : (buildT B W d L).root = rawRoot B W d L := buildT_root B W d L hok
  have hshL : Shaped B (levels B W + 1) (buildT B W d L).root := by
    rw [hroot]
    exact rawRoot_shaped B W d hB hBW hok
  have hlev : levels B W ≤ W := levels_le_self B hB W
  have hs2 : Shaped B (W + 1) (buildT B W d L).root :=
    shaped_mono B (levels B W + 1) hshL (by omega)
  obtain ⟨-, hb2, hb3, -, -, -⟩ :=
    buildNodeF_spec B d PS (W + 1) (buildT B W d L).root FlatS.empty hs2
  constructor
  · show (buildNodeF B d PS (W + 1) (some (buildT B W d L).root)
        FlatS.empty).1.used_total =
      (buildNodeF B d PS (W + 1) (some (buildT B W d L).root)
        FlatS.empty).1.entries.length
    rw [hb2, hb3]
    simp [FlatS.empty]
  · rfl

/-- Claim C9: the claim states that `Flat::size()` returns the total
used-entry count, the same count `debug()` reports.  The source cannot do
that: `size()` returns `this->used` (flatritrie.hpp line 144, likewise
flat4.hpp line 181), a member that does not exist — the fields are
`used_in_page` and `used_total` — so the member is ill-formed as soon as
it is instantiated.  Section 9 of the spec mandates returning
`entries_used_total`; `FlatS.sizeSpec` embeds that mandated result, and
this theorem checks it is consistent: after the section-8 scenario build
it equals both the allocated entry count and the `entries total`
component of the `debug()` output. -/
theorem claim_C9_size_reporting :
    FlatS.sizeSpec (FlatS.build 8 32 (-1) 10000 (buildT 8 32 (-1) scenario)) =
      (FlatS.build 8 32 (-1) 10000 (buildT 8 32 (-1) scenario)).entries.length ∧
    FlatS.sizeSpec (FlatS.build 8 32 (-1) 10000 (buildT 8 32 (-1) scenario)) =
      (FlatS.debugTuple 10000
        (FlatS.build 8 32 (-1) 10000 (buildT 8 32 (-1) scenario))).2.2.1 :=
  flat_size_eq 8 32 (-1) 10000 (by decide) (by decide) (by decide)

/-- The node count only depends on the child table, plus one. -/
theorem countNodesF_congr {n m : Node} (hch : m.child = n.child) (K : Nat) :
    countNodesF B K m = countNodesF B K n := by
  cases K with
  | zero => rfl
  | succ K => simp only [countNodesF, hch]

/-- A childless node counts as one node. -/
theorem countNodesF_leaf (K : Nat) (v : Int) :
    countNodesF B (K + 1) (Node.mk v (fun _ => none)) = 1 := by
  simp [countNodesF, node_child_mk]

/-- Exchanging one term of a sum over distinct indices. -/
theorem sum_map_update (f g : Nat → Nat) :
    ∀ (ts : List Nat), ts.Nodup → ∀ t ∈ ts, (∀ i ∈ ts, i ≠ t → f i = g i) →
      (ts.map f).sum + g t = (ts.map g).sum + f t := by
  intro ts
  induction ts with
  | nil => intro _ t ht; exact absurd ht (List.not_mem_nil t)
  | cons x ts ih =>
    intro hnod t ht hagree
    have hx : x ∉ ts := (List.nodup_cons.mp hnod).1
    rcases List.mem_cons.mp ht with hxt | hts
    · subst hxt
      have hmap : ts.map f = ts.map g :=
        List.map_congr_left (fun i hi => hagree i (by simp [hi])
          (fun hit => hx (hit ▸ hi)))
      simp only [List.map_cons, List.sum_cons, hmap]
      omega
    · have hxf : f x = g x := hagree x (by simp) (fun hxeq => hx (hxeq ▸ hts))
      have h2 := ih (List.nodup_cons.mp hnod).2 t hts
        (fun i hi hit => hagree i (by simp [hi]) hit)
      simp only [List.map_cons, List.sum_cons, hxf]
      omega

/-- Count change of a single child replacement. -/
theorem countNodesF_setChild (K t : Nat) (ht : t < 2 ^ B) (n c : Node) :
    countNodesF B (K + 1) (setChild n t (some c)) +
      (match n.child t with | none => 0 | some c0 => countNodesF B K c0) =
    countNodesF B (K + 1) n + countNodesF B K c := by
  have h1 := sum_map_update
    (fun i => match (setChild n t (some c)).child i with
      | none => 0 | some cc => countNodesF B K cc)
    (fun i => match n.child i with
      | none => 0 | some cc => countNodesF B K cc)
    (List.range (2 ^ B)) (List.nodup_range (2 ^ B)) t (List.mem_range.mpr ht)
    (fun i _ hit => by simp [setChild_child, hit])
  have e1 : (fun i => match (setChild n t (some c)).child i with
      | none => 0 | some cc => countNodesF B K cc) t = countNodesF B K c := by
    simp [setChild_child]
  have e2 : (fun i => match n.child i with
      | none => 0 | some cc => countNodesF B K cc) t =
      (match n.child t with | none => 0 | some c0 => countNodesF B K c0) := rfl
  simp only [countNodesF]
  omega

/-- The misaligned replication loop creates exactly the counted nodes. -/
theorem misGo_count (v : Int) (key m : Nat) (K : Nat) :
    ∀ (ts : List Nat), ts.Nodup → (∀ x ∈ ts, x < 2 ^ B) →
      ∀ (cur : Node) (cnt : Nat),
      countNodesF B (K + 2) (misGo v key m (cur, cnt) ts).1 + cnt =
        countNodesF B (K + 2) cur + (misGo v key m (cur, cnt) ts).2 := by
  intro ts
  induction ts with
  | nil => intro _ _ cur cnt; simp [misGo]
  | cons t ts ih =>
    intro hnod hlt cur cnt
    have hnod2 : ts.Nodup := (List.nodup_cons.mp hnod).2
    have hlt2 : ∀ x ∈ ts, x < 2 ^ B := fun x hx => hlt x (by simp [hx])
    have ht : t < 2 ^ B := hlt t (by simp)
    by_cases hkey : t &&& m = key
    · cases hc : cur.child t with
      | some c =>
        simp only [misGo, if_pos hkey, hc]
        have hset := countNodesF_setChild B (K + 1) t ht cur (Node.mk v c.child)
        simp only [hc] at hset
        have hkk : K + 1 + 1 = K + 2 := rfl
        rw [hkk] at hset
        have hcong : countNodesF B (K + 1) (Node.mk v c.child) =
            countNodesF B (K + 1) c := countNodesF_congr B (by rw [node_child_mk]) _
        have h2 := ih hnod2 hlt2 (setChild cur t (some (Node.mk v c.child))) cnt
        omega
      | none =>
        simp only [misGo, if_pos hkey, hc]
        have hset := countNodesF_setChild B (K + 1) t ht cur
          (Node.mk v (fun _ => none))
        simp only [hc] at hset
        have hkk : K + 1 + 1 = K + 2 := rfl
        rw [hkk] at hset
        have hleaf := countNodesF_leaf B K v
        have h2 := ih hnod2 hlt2
          (setChild cur t (some (Node.mk v (fun _ => none)))) (cnt + 1)
        omega
    · simp only [misGo, if_neg hkey]
      exact ih hnod2 hlt2 cur cnt

/-- One `add_ip` body grows the node count by exactly the number of
`get_or_create` allocations it reports. -/
theorem addIpGoF_count (hB : 0 < B) (hBW : B ≤ W) (v : Int) :
    ∀ (fuel m : Nat), m < fuel → ∀ (cur : Node) (ip : Nat) (K : Nat),
      ip < 2 ^ W → levels B m < K → Shaped B K cur →
      countNodesF B K (addIpGoF B W d v fuel cur ip m).1 =
        countNodesF B K cur + (addIpGoF B W d v fuel cur ip m).2 := by
  intro fuel
  induction fuel with
  | zero => intro m h; omega
  | succ fuel ih =>
    intro m hm cur ip K hip hlev hcur
    by_cases hg : 0 < B ∧ B ≤ m
    · have hlm : 0 < levels B m := levels_pos B hB (by omega)
      obtain ⟨K2, rfl⟩ : ∃ K2, K = K2 + 1 := ⟨K - 1, by omega⟩
      have hK2 : levels B (m - B) < K2 := by
        have := levels_rec B hB hg.2
        omega
      have htop : topBits B W ip < 2 ^ B := topBits_lt B W hBW hip
      cases hc : cur.child (topBits B W ip) with
      | some c =>
        have h1 : (addIpGoF B W d v (fuel + 1) cur ip m).1 =
            setChild cur (topBits B W ip)
              (some (addIpGoF B W d v fuel c (stepIp B W ip) (m - B)).1) := by
          simp only [addIpGoF, if_pos hg, hc]
        have h2 : (addIpGoF B W d v (fuel + 1) cur ip m).2 =
            0 + (addIpGoF B W d v fuel c (stepIp B W ip) (m - B)).2 := by
          simp only [addIpGoF, if_pos hg, hc]
        have hrec := ih (m - B) (by omega) c (stepIp B W ip) K2 (stepIp_lt B W ip)
          hK2 (hcur (topBits B W ip) c hc).2
        have hset := countNodesF_setChild B K2 (topBits B W ip) htop cur
          (addIpGoF B W d v fuel c (stepIp B W ip) (m - B)).1
        simp only [hc] at hset
        rw [h1, h2]
        omega
      | none =>
        have hK2p : 0 < K2 := by
          have := levels_mono B (show 0 ≤ m - B by omega)
          have h0 : levels B 0 = 0 := levels_zero B hB
          omega
        have h1 : (addIpGoF B W d v (fuel + 1) cur ip m).1 =
            setChild cur (topBits B W ip)
              (some (addIpGoF B W d v fuel (Node.leaf d) (stepIp B W ip) (m - B)).1) := by
          simp only [addIpGoF, if_pos hg, hc]
        have h2 : (addIpGoF B W d v (fuel + 1) cur ip m).2 =
            1 + (addIpGoF B W d v fuel (Node.leaf d) (stepIp B W ip) (m - B)).2 := by
          simp only [addIpGoF, if_pos hg, hc]
        have hrec := ih (m - B) (by omega) (Node.leaf d) (stepIp B W ip) K2
          (stepIp_lt B W ip) hK2 (shaped_leaf B hK2p d)
        have hset := countNodesF_setChild B K2 (topBits B W ip) htop cur
          (addIpGoF B W d v fuel (Node.leaf d) (stepIp B W ip) (m - B)).1
        simp only [hc] at hset
        have hleaf : countNodesF B K2 (Node.leaf d) = 1 := by
          obtain ⟨K3, rfl⟩ : ∃ K3, K2 = K3 + 1 := ⟨K2 - 1, by omega⟩
          exact countNodesF_leaf B K3 d
        rw [h1, h2]
        omega
    · by_cases hm0 : m ≠ 0
      · have hlev1 : levels B m = 1 := levels_of_lt B hB (by omega) (by omega)
        obtain ⟨K2, rfl⟩ : ∃ K2, K = K2 + 2 := ⟨K - 2, by omega⟩
        simp only [addIpGoF, if_neg hg, if_pos hm0]
        have := misGo_count B v (topBits B W ip) (lmask B W m) K2
          (List.range (2 ^ B)) (List.nodup_range (2 ^ B))
          (fun x hx => List.mem_range.mp hx) cur 0
        omega
      · have hm0e : m = 0 := by omega
        subst hm0e
        simp only [addIpGoF, if_neg hg, if_neg (by omega : ¬((0 : Nat) ≠ 0))]
        exact countNodesF_congr B (by rw [node_child_mk]) _

/-- The built Tritrie as a pure fold. -/
theorem buildT_eq (L : List Ins) (h : okSeq W L) :
    buildT B W d L = L.foldl (addPure B W d) (Tri.empty d) := by
  unfold buildT
  rw [buildL_eq B W d L h]

/-- The node count of the insertion fold is the node counter plus the
root. -/
theorem rawRoot_count (hB : 0 < B) (hBW : B ≤ W) :
    ∀ {L : List Ins}, okSeq W L →
      countNodesF B (levels B W + 1) (rawRoot B W d L) =
        (L.foldl (addPure B W d) (Tri.empty d)).nodes_cnt + 1 := by
  intro L
  induction L using List.reverseRecOn with
  | nil =>
    intro _
    show countNodesF B (levels B W + 1) (Node.leaf d) = 0 + 1
    rw [show Node.leaf d = Node.mk d (fun _ => none) from rfl, countNodesF_leaf]
  | append_singleton L e ih =>
    intro hok
    have hokL : okSeq W L :=
      ⟨(List.pairwise_append.mp hok.1).1, fun x hx => hok.2 x (by simp [hx])⟩
    have he := hok.2 e (by simp)
    have hsh := rawRoot_shaped B W d hB hBW hokL
    have hc := addIpGoF_count B W d hB hBW e.value (e.mask + 1) e.mask (by omega)
      (rawRoot B W d L) e.ip (levels B W + 1) he.2.2
      (by have := levels_mono B he.2.1; omega) hsh
    rw [rawRoot_append]
    rw [List.foldl_append]
    simp only [List.foldl_cons, List.foldl_nil]
    show countNodesF B (levels B W + 1)
        (addIpGoF B W d e.value (e.mask + 1) (rawRoot B W d L) e.ip e.mask).1 = _
    rw [hc, ih hokL]
    show _ = (L.foldl (addPure B W d) (Tri.empty d)).nodes_cnt +
      (addIpGoF B W d e.value (e.mask + 1)
        (L.foldl (addPure B W d) (Tri.empty d)).root e.ip e.mask).2 + 1
    rw [foldlPure_root]
    show _ = (L.foldl (addPure B W d) (Tri.empty d)).nodes_cnt +
      (addIpGoF B W d e.value (e.mask + 1) (rawRoot B W d L) e.ip e.mask).2 + 1
    omega

/-- Claim C10: after `Flat::build` on a completed Tritrie from a valid
insertion sequence, the arena's total used-entry count is exactly
`Tritrie::size() + 1` (one entry per trie node, plus the root, which
`Tritrie::size` does not count); the first allocated entry is the root
(it carries the root's value at allocation index 0); every child slot of
every allocated entry is explicitly assigned — null or a reference to an
entry allocated later in the same build; and the number of allocated
entries equals the same `size() + 1`, so rebuilding from the same trie
always uses the same number of entries. -/
theorem claim_C10_build_invariant :
    ∀ (B W PS : Nat) (L : List Ins),
      0 < B → B ≤ W → validSeq W (-1) L →
      (FlatS.build B W (-1) PS (buildT B W (-1) L)).used_total =
          Tri.size (buildT B W (-1) L) + 1 ∧
      (∃ e, (FlatS.build B W (-1) PS (buildT B W (-1) L)).entries.get? 0 = some e ∧
          e.value = (buildT B W (-1) L).root.value) ∧
      slotsOk B (FlatS.build B W (-1) PS (buildT B W (-1) L)) 0
          (FlatS.build B W (-1) PS (buildT B W (-1) L)).entries.length ∧
      (FlatS.build B W (-1) PS (buildT B W (-1) L)).entries.length =
          Tri.size (buildT B W (-1) L) + 1 := by
  intro B W PS L hB hBW hv
  have hok : okSeq W L := hv.1
  have hroot : (buildT B W (-1) L).root = rawRoot B W (-1) L :=
    buildT_root B W (-1) L hok
  have hshL : Shaped B (levels B W + 1) (buildT B W (-1) L).root := by
    rw [hroot]
    exact rawRoot_shaped B W (-1) hB hBW hok
  have hlev : levels B W ≤ W := levels_le_self B hB W
  have hs2 : Shaped B (W + 1) (buildT B W (-1) L).root :=
    shaped_mono B (levels B W + 1) hshL (by omega)
  obtain ⟨hb1, hb2, hb3, hb4, hb5, hb6⟩ :=
    buildNodeF_spec B (-1) PS (W + 1) (buildT B W (-1) L).root FlatS.empty hs2
  have hstab : countNodesF B (W + 1) (buildT B W (-1) L).root =
      countNodesF B (levels B W + 1) (buildT B W (-1) L).root :=
    countNodesF_stable B (levels B W + 1) hshL (by omega)
  have hcnt : countNodesF B (levels B W + 1) (buildT B W (-1) L).root =
      Tri.size (buildT B W (-1) L) + 1 := by
    rw [hroot, rawRoot_count B W (-1) hB hBW hok]
    have hsize : Tri.size (buildT B W (-1) L) =
        (L.foldl (addPure B W (-1)) (Tri.empty (-1))).nodes_cnt := by
      rw [buildT_eq B W (-1) L hok]
      rfl
    omega
  have hemp0 : FlatS.empty.used_total = 0 := rfl
  have hempl : FlatS.empty.entries.length = 0 := rfl
  refine ⟨?_, ?_, ?_, ?_⟩
  · show (buildNodeF B (-1) PS (W + 1) (some (buildT B W (-1) L).root)
        FlatS.empty).1.used_total = _
    rw [hb3, hemp0]
    omega
  · obtain ⟨e, he, hv2⟩ := simAt_entry hb6
    exact ⟨e, he, hv2⟩
  · exact hb5
  · show (buildNodeF B (-1) PS (W + 1) (some (buildT B W (-1) L).root)
        FlatS.empty).1.entries.length = _
    rw [hb2, hempl]
    omega

/-- Witness for C10 at concrete inputs: the section-8 scenario at
`BITS = 8`, page size 10000. -/
theorem claim_C10_witness :
    (FlatS.build 8 32 (-1) 10000 (buildT 8 32 (-1) scenario)).used_total =
        Tri.size (buildT 8 32 (-1) scenario) + 1 ∧
    (∃ e, (FlatS.build 8 32 (-1) 10000 (buildT 8 32 (-1) scenario)).entries.get? 0 =
        some e ∧ e.value = (buildT 8 32 (-1) scenario).root.value) ∧
    slotsOk 8 (FlatS.build 8 32 (-1) 10000 (buildT 8 32 (-1) scenario)) 0
        (FlatS.build 8 32 (-1) 10000 (buildT 8 32 (-1) scenario)).entries.length ∧
    (FlatS.build 8 32 (-1) 10000 (buildT 8 32 (-1) scenario)).entries.length =
        Tri.size (buildT 8 32 (-1) scenario) + 1 :=
  claim_C10_build_invariant 8 32 10000 scenario (by decide) (by decide) (by decide)

/-- Children of a constructed MultiTritrie node. -/
theorem mnode_child_mk (v : Int) (s : Finset Int) (ch : Nat → Option MNode) :
    (MNode.mk v s ch).child = ch := rfl

/-- Value set of a constructed MultiTritrie node. -/
theorem mnode_values_mk (v : Int) (s : Finset Int) (ch : Nat → Option MNode) :
    (MNode.mk v s ch).values = s := rfl

/-- LPM value of a constructed MultiTritrie node. -/
theorem mnode_lpm_mk (v : Int) (s : Finset Int) (ch : Nat → Option MNode) :
    (MNode.mk v s ch).lpm = v := rfl

/-- Children of an updated MultiTritrie node. -/
theorem msetChild_child (n : MNode) (t : Nat) (c : Option MNode) (i : Nat) :
    (msetChild n t c).child i = if i = t then c else n.child i := by
  cases n
  rfl

/-- Value set of an updated MultiTritrie node. -/
theorem msetChild_values (n : MNode) (t : Nat) (c : Option MNode) :
    (msetChild n t c).values = n.values := by
  cases n
  rfl

/-- LPM value of an updated MultiTritrie node. -/
theorem msetChild_lpm (n : MNode) (t : Nat) (c : Option MNode) :
    (msetChild n t c).lpm = n.lpm := by
  cases n
  rfl

/-- MultiTritrie path lookup on a cons path goes through the child. -/
theorem mLookupPath_cons (n : MNode) (t : Nat) (p : List Nat) :
    mLookupPath n (t :: p) =
      match n.child t with
      | none => none
      | some c => mLookupPath c p := rfl

/-- The misaligned replication loop of MultiTritrie leaves the parent
value set unchanged. -/
theorem mMisGo_fst_values (v : Int) (key m : Nat) (agg : Finset Int) :
    ∀ (ts : List Nat) (cur : MNode) (cnt : Nat),
      ((mMisGo v key m agg (cur, cnt) ts).1).values = cur.values := by
  intro ts
  induction ts with
  | nil => intro cur cnt; rfl
  | cons t ts ih =>
    intro cur cnt
    simp only [mMisGo]
    by_cases htm : t &&& m = key
    · rw [if_pos htm]
      cases hc : cur.child t with
      | some c => rw [ih]; exact msetChild_values cur t _
      | none => rw [ih]; exact msetChild_values cur t _
    · rw [if_neg htm]
      exact ih cur cnt

/-- The misaligned replication loop of MultiTritrie leaves the parent
LPM value unchanged. -/
theorem mMisGo_fst_lpm (v : Int) (key m : Nat) (agg : Finset Int) :
    ∀ (ts : List Nat) (cur : MNode) (cnt : Nat),
      ((mMisGo v key m agg (cur, cnt) ts).1).lpm = cur.lpm := by
  intro ts
  induction ts with
  | nil => intro cur cnt; rfl
  | cons t ts ih =>
    intro cur cnt
    simp only [mMisGo]
    by_cases htm : t &&& m = key
    · rw [if_pos htm]
      cases hc : cur.child t with
      | some c => rw [ih]; exact msetChild_lpm cur t _
      | none => rw [ih]; exact msetChild_lpm cur t _
    · rw [if_neg htm]
      exact ih cur cnt

/-- Children after the misaligned replication loop of MultiTritrie:
matching slots get the inserted value, the aggregated set merged over the
previous set, and the previous children; other slots are unchanged. -/
theorem mMisGo_child (v : Int) (key m : Nat) (agg : Finset Int) :
    ∀ (ts : List Nat), ts.Nodup → ∀ (cur : MNode) (cnt i : Nat),
      ((mMisGo v key m agg (cur, cnt) ts).1).child i =
        if i ∈ ts ∧ i &&& m = key then
          some (match cur.child i with
            | some c => MNode.mk v (c.values ∪ agg) c.child
            | none => MNode.mk v agg (fun _ => none))
        else cur.child i := by
  intro ts
  induction ts with
  | nil =>
    intro _ cur cnt i
    simp [mMisGo]
  | cons t ts ih =>
    intro hnd cur cnt i
    have hnt : t ∉ ts := (List.nodup_cons.mp hnd).1
    have hts : ts.Nodup := (List.nodup_cons.mp hnd).2
    simp only [mMisGo]
    by_cases htm : t &&& m = key
    · rw [if_pos htm]
      cases hc : cur.child t with
      | some c =>
        rw [ih hts]
        by_cases hit : i = t
        · subst hit
          have hmem : i ∉ ts := hnt
          simp only [hmem, false_and, if_neg (by simp [hmem] : ¬(i ∈ ts ∧ i &&& m = key))]
          simp [msetChild_child, hc, htm]
        · by_cases him : i ∈ ts ∧ i &&& m = key
          · simp only [if_pos him, msetChild_child, if_neg hit]
            simp [List.mem_cons, him.1, him.2]
          · simp only [if_neg him, msetChild_child, if_neg hit]
            have hni : ¬(i ∈ t :: ts ∧ i &&& m = key) := by
              intro hcon
              rcases List.mem_cons.mp hcon.1 with h1 | h1
              · exact hit h1
              · exact him ⟨h1, hcon.2⟩
            rw [if_neg hni]
      | none =>
        rw [ih hts]
        by_cases hit : i = t
        · subst hit
          have hmem : i ∉ ts := hnt
          simp only [hmem, false_and, if_neg (by simp [hmem] : ¬(i ∈ ts ∧ i &&& m = key))]
          simp [msetChild_child, hc, htm]
        · by_cases him : i ∈ ts ∧ i &&& m = key
          · simp only [if_pos him, msetChild_child, if_neg hit]
            simp [List.mem_cons, him.1, him.2]
          · simp only [if_neg him, msetChild_child, if_neg hit]
            have hni : ¬(i ∈ t :: ts ∧ i &&& m = key) := by
              intro hcon
              rcases List.mem_cons.mp hcon.1 with h1 | h1
              · exact hit h1
              · exact him ⟨h1, hcon.2⟩
            rw [if_neg hni]
    · rw [if_neg htm]
      rw [ih hts]
      by_cases him : i ∈ ts ∧ i &&& m = key
      · simp [him, List.mem_cons, him.1, him.2]
      · rw [if_neg him]
        have hni : ¬(i ∈ t :: ts ∧ i &&& m = key) := by
          intro hcon
          rcases List.mem_cons.mp hcon.1 with h1 | h1
          · subst h1
            exact htm hcon.2
          · exact him ⟨h1, hcon.2⟩
        rw [if_neg hni]

/-- Skipping a constructed MultiTritrie node that keeps the child table:
LPM values deeper than the root are unchanged. -/
theorem mlpmAt_mk_cons (x : Int) (s : Finset Int) (c : MNode) (t : Nat) (q : List Nat) :
    mlpmAt (MNode.mk x s c.child) (t :: q) = mlpmAt c (t :: q) := by
  simp [mlpmAt, mLookupPath_cons, mnode_child_mk]

/-- Same for value sets. -/
theorem mvalueAt_mk_cons (x : Int) (s : Finset Int) (c : MNode) (t : Nat) (q : List Nat) :
    mvalueAt (MNode.mk x s c.child) (t :: q) = mvalueAt c (t :: q) := by
  simp [mvalueAt, mLookupPath_cons, mnode_child_mk]

/-- Effect of one `MultiTritrie::add_ip` body on the LPM value at every
digit path: the inserted value on terminal paths, default-or-existing on
traversed paths, unchanged elsewhere (the set aggregation never touches
`lpm_value`). -/
theorem maddGoF_lpmAt (hB : 0 < B) (v : Int) :
    ∀ (fuel m : Nat), m < fuel → ∀ (cur : MNode) (ip : Nat) (agg : Finset Int)
        (p : List Nat),
      mlpmAt (maddGoF B W d v fuel cur ip m agg).1 p =
        if termB B W ip m p then some v
        else if descB B W ip m p then some ((mlpmAt cur p).getD d)
        else mlpmAt cur p := by
  intro fuel
  induction fuel with
  | zero => intro m h; omega
  | succ fuel ih =>
    intro m hm cur ip agg p
    by_cases hg : 0 < B ∧ B ≤ m
    · have hrec : m - B < fuel := by omega
      cases p with
      | nil =>
        have ht : termB B W ip m [] = false := by
          simp only [termB, decide_eq_false_iff_not]
          omega
        have hd : descB B W ip m [] = true := by
          simp only [descB, decide_eq_true_eq]
          omega
        rw [ht, hd]
        cases hc : cur.child (topBits B W ip) with
        | some c =>
          by_cases hce : c.values = ∅
          · simp only [maddGoF, if_pos hg, hc, if_pos hce]
            simp [mlpmAt, mLookupPath, msetChild_lpm]
          · simp only [maddGoF, if_pos hg, hc, if_neg hce]
            simp [mlpmAt, mLookupPath, msetChild_lpm]
        | none =>
          simp only [maddGoF, if_pos hg, hc]
          simp [mlpmAt, mLookupPath, msetChild_lpm]
      | cons t q =>
        have hterm : termB B W ip m (t :: q) =
            (decide (t = topBits B W ip) && termB B W (stepIp B W ip) (m - B) q) := by
          simp only [termB, if_pos hg]
        have hdesc : descB B W ip m (t :: q) =
            (decide (0 < B ∧ B ≤ m) && decide (t = topBits B W ip) &&
              descB B W (stepIp B W ip) (m - B) q) := rfl
        by_cases hit : t = topBits B W ip
        · cases hc : cur.child (topBits B W ip) with
          | some c =>
            by_cases hce : c.values = ∅
            · have hlhs : mlpmAt (maddGoF B W d v (fuel + 1) cur ip m agg).1 (t :: q) =
                  mlpmAt (maddGoF B W d v fuel (MNode.mk c.lpm (c.values ∪ agg) c.child)
                    (stepIp B W ip) (m - B) agg).1 q := by
                simp only [maddGoF, if_pos hg, hc, if_pos hce]
                simp [mlpmAt, mLookupPath_cons, msetChild_child, hit]
              rw [hlhs, ih (m - B) hrec _ (stepIp B W ip) agg q]
              rw [hterm, hdesc]
              cases q with
              | nil =>
                by_cases hmB : m - B = 0
                · simp [termB, descB, hmB, hg, hit]
                · simp [termB, descB, hmB, hg, hit, mlpmAt, mLookupPath,
                    mLookupPath_cons, mnode_lpm_mk, hc]
              | cons t1 q1 =>
                have hcv : mlpmAt cur (t :: t1 :: q1) = mlpmAt c (t1 :: q1) := by
                  simp [mlpmAt, mLookupPath_cons, hit, hc]
                rw [mlpmAt_mk_cons, hcv]
                simp [hg, hit]
            · have hlhs : mlpmAt (maddGoF B W d v (fuel + 1) cur ip m agg).1 (t :: q) =
                  mlpmAt (maddGoF B W d v fuel c (stepIp B W ip) (m - B)
                    (agg ∪ c.values)).1 q := by
                simp only [maddGoF, if_pos hg, hc, if_neg hce]
                simp [mlpmAt, mLookupPath_cons, msetChild_child, hit]
              rw [hlhs, ih (m - B) hrec c (stepIp B W ip) (agg ∪ c.values) q]
              have hcv : mlpmAt cur (t :: q) = mlpmAt c q := by
                simp [mlpmAt, mLookupPath_cons, hit, hc]
              rw [hterm, hdesc, hcv]
              simp [hg, hit]
          | none =>
            have hlhs : mlpmAt (maddGoF B W d v (fuel + 1) cur ip m agg).1 (t :: q) =
                mlpmAt (maddGoF B W d v fuel (MNode.mk d agg (fun _ => none))
                  (stepIp B W ip) (m - B) agg).1 q := by
              simp only [maddGoF, if_pos hg, hc]
              simp [mlpmAt, mLookupPath_cons, msetChild_child, hit]
            rw [hlhs, ih (m - B) hrec _ (stepIp B W ip) agg q]
            have hcv : mlpmAt cur (t :: q) = none := by
              simp [mlpmAt, mLookupPath_cons, hit, hc]
            rw [hterm, hdesc, hcv]
            by_cases h1 : termB B W (stepIp B W ip) (m - B) q = true
            · simp [h1, hg, hit]
            · by_cases h2 : descB B W (stepIp B W ip) (m - B) q = true
              · cases q with
                | nil =>
                  simp [h1, h2, hg, hit, mlpmAt, mLookupPath, mnode_lpm_mk]
                | cons t1 q1 =>
                  have hnl : mlpmAt (MNode.mk d agg (fun _ => none)) (t1 :: q1) = none := by
                    simp [mlpmAt, mLookupPath_cons, mnode_child_mk]
                  simp [h1, h2, hg, hit, hnl]
              · have hq : q ≠ [] := by
                  intro hqe
                  subst hqe
                  simp only [termB, descB, decide_eq_true_eq] at h1 h2
                  omega
                obtain ⟨t1, q1, rfl⟩ : ∃ t1 q1, q = t1 :: q1 := by
                  cases q with
                  | nil => exact absurd rfl hq
                  | cons t1 q1 => exact ⟨t1, q1, rfl⟩
                have hnl : mlpmAt (MNode.mk d agg (fun _ => none)) (t1 :: q1) = none := by
                  simp [mlpmAt, mLookupPath_cons, mnode_child_mk]
                simp [h1, h2, hg, hit, hnl]
        · have hlhs : mlpmAt (maddGoF B W d v (fuel + 1) cur ip m agg).1 (t :: q) =
              mlpmAt cur (t :: q) := by
            cases hc : cur.child (topBits B W ip) with
            | some c =>
              by_cases hce : c.values = ∅
              · simp only [maddGoF, if_pos hg, hc, if_pos hce]
                simp [mlpmAt, mLookupPath_cons, msetChild_child, hit]
              · simp only [maddGoF, if_pos hg, hc, if_neg hce]
                simp [mlpmAt, mLookupPath_cons, msetChild_child, hit]
            | none =>
              simp only [maddGoF, if_pos hg, hc]
              simp [mlpmAt, mLookupPath_cons, msetChild_child, hit]
          rw [hlhs, hterm, hdesc]
          simp [hit]
    · by_cases hm0 : m ≠ 0
      · have hnod : (List.range (2 ^ B)).Nodup := List.nodup_range (2 ^ B)
        cases p with
        | nil =>
          have ht : termB B W ip m [] = false := by
            simp only [termB, decide_eq_false_iff_not]
            omega
          have hd : descB B W ip m [] = true := by
            simp only [descB, decide_eq_true_eq]
            omega
          simp only [maddGoF, if_neg hg, if_pos hm0, ht, hd]
          simp [mlpmAt, mLookupPath, mMisGo_fst_lpm]
        | cons t q =>
          cases q with
          | nil =>
            have hlhs : mlpmAt (maddGoF B W d v (fuel + 1) cur ip m agg).1 [t] =
                if t ∈ List.range (2 ^ B) ∧ t &&& lmask B W m = topBits B W ip then
                  some v
                else mlpmAt cur [t] := by
              simp only [maddGoF, if_neg hg, if_pos hm0, mlpmAt, mLookupPath_cons]
              rw [mMisGo_child v (topBits B W ip) (lmask B W m) _ _ hnod]
              by_cases hmem : t ∈ List.range (2 ^ B) ∧ t &&& lmask B W m = topBits B W ip
              · rw [if_pos hmem, if_pos hmem]
                cases cur.child t <;> rfl
              · rw [if_neg hmem, if_neg hmem]
            rw [hlhs]
            have hterm : termB B W ip m [t] =
                (decide (t < 2 ^ B) && decide (t &&& lmask B W m = topBits B W ip)) := by
              simp only [termB, if_neg hg, if_pos hm0]
              simp
            have hdesc : descB B W ip m [t] = false := by
              simp only [descB]
              simp [hg]
            rw [hterm, hdesc]
            by_cases hmem : t ∈ List.range (2 ^ B) ∧ t &&& lmask B W m = topBits B W ip
            · have h1 : t < 2 ^ B := List.mem_range.mp hmem.1
              simp [hmem, h1, hmem.2]
            · rw [if_neg hmem]
              have hni : ¬(t < 2 ^ B ∧ t &&& lmask B W m = topBits B W ip) := by
                intro hcon
                exact hmem ⟨List.mem_range.mpr hcon.1, hcon.2⟩
              simp only [Bool.and_eq_true, decide_eq_true_eq]
              rw [if_neg hni]
              simp
          | cons t1 q1 =>
            have hterm : termB B W ip m (t :: t1 :: q1) = false := by
              simp only [termB, if_neg hg, if_pos hm0]
              simp
            have hdesc : descB B W ip m (t :: t1 :: q1) = false := by
              simp only [descB]
              simp [hg]
            rw [hterm, hdesc]
            simp only [maddGoF, if_neg hg, if_pos hm0, mlpmAt, mLookupPath_cons]
            rw [mMisGo_child v (topBits B W ip) (lmask B W m) _ _ hnod]
            by_cases hmem : t ∈ List.range (2 ^ B) ∧ t &&& lmask B W m = topBits B W ip
            · rw [if_pos hmem]
              cases hc : cur.child t with
              | some c => simp [hc, mLookupPath_cons, mnode_child_mk]
              | none => simp [hc, mLookupPath_cons, mnode_child_mk]
            · rw [if_neg hmem]
              simp [mLookupPath_cons]
      · have hm0e : m = 0 := by omega
        subst hm0e
        have hgf : ¬(0 < B ∧ B ≤ (0 : Nat)) := by omega
        cases p with
        | nil =>
          simp only [maddGoF, if_neg hg, if_neg (by simp : ¬((0 : Nat) ≠ 0))]
          simp [termB, mlpmAt, mLookupPath, mnode_lpm_mk]
        | cons t q =>
          have hterm : termB B W ip 0 (t :: q) = false := by
            simp only [termB, if_neg hgf, if_neg (by simp : ¬((0 : Nat) ≠ 0))]
          have hdesc : descB B W ip 0 (t :: q) = false := by
            have hgd : (decide (0 < B ∧ B ≤ (0 : Nat))) = false := decide_eq_false hgf
            simp only [descB, hgd, Bool.false_and]
          rw [hterm, hdesc]
          simp only [maddGoF, if_neg hg, if_neg (by simp : ¬((0 : Nat) ≠ 0))]
          simp [mlpmAt, mLookupPath_cons, mnode_child_mk]

/-- The aggregation walk only depends on the child table of its start. -/
theorem aggPath_congr {n m : MNode} (hch : m.child = n.child) (agg : Finset Int)
    (p : List Nat) : aggPath agg m p = aggPath agg n p := by
  cases p with
  | nil => rfl
  | cons t q => simp only [aggPath, hch]

/-- Effect of one `MultiTritrie::add_ip` body on the value set at every
digit path: terminal paths receive the previous set, the inserted value
and the aggregate collected along the walk; traversed nodes with an empty
set receive the aggregate; other paths are unchanged. -/
theorem maddGoF_valuesAt (hB : 0 < B) (v : Int) :
    ∀ (fuel m : Nat), m < fuel → ∀ (cur : MNode) (ip : Nat) (agg : Finset Int)
        (p : List Nat),
      mvalueAt (maddGoF B W d v fuel cur ip m agg).1 p =
        if termB B W ip m p then
          some ((mvalueAt cur p).getD ∅ ∪ insert v (aggPath agg cur p))
        else if descB B W ip m p then
          (if p = [] then mvalueAt cur p
           else some (if (mvalueAt cur p).getD ∅ = ∅ then aggPath agg cur p
                      else (mvalueAt cur p).getD ∅))
        else mvalueAt cur p := by
  intro fuel
  induction fuel with
  | zero => intro m h; omega
  | succ fuel ih =>
    intro m hm cur ip agg p
    by_cases hg : 0 < B ∧ B ≤ m
    · have hrec : m - B < fuel := by omega
      cases p with
      | nil =>
        have ht : termB B W ip m [] = false := by
          simp only [termB, decide_eq_false_iff_not]
          omega
        have hd : descB B W ip m [] = true := by
          simp only [descB, decide_eq_true_eq]
          omega
        rw [ht, hd]
        simp only [if_pos rfl]
        cases hc : cur.child (topBits B W ip) with
        | some c =>
          by_cases hce : c.values = ∅
          · simp only [maddGoF, if_pos hg, hc, if_pos hce]
            simp [mvalueAt, mLookupPath, msetChild_values]
          · simp only [maddGoF, if_pos hg, hc, if_neg hce]
            simp [mvalueAt, mLookupPath, msetChild_values]
        | none =>
          simp only [maddGoF, if_pos hg, hc]
          simp [mvalueAt, mLookupPath, msetChild_values]
      | cons t q =>
        have hterm : termB B W ip m (t :: q) =
            (decide (t = topBits B W ip) && termB B W (stepIp B W ip) (m - B) q) := by
          simp only [termB, if_pos hg]
        have hdesc : descB B W ip m (t :: q) =
            (decide (0 < B ∧ B ≤ m) && decide (t = topBits B W ip) &&
              descB B W (stepIp B W ip) (m - B) q) := rfl
        have hne : (t :: q) ≠ ([] : List Nat) := by simp
        by_cases hit : t = topBits B W ip
        · cases hc : cur.child (topBits B W ip) with
          | some c =>
            have hcv : mvalueAt cur (t :: q) = mvalueAt c q := by
              simp [mvalueAt, mLookupPath_cons, hit, hc]
            have hap : aggPath agg cur (t :: q) =
                aggPath (if c.values = ∅ then agg else agg ∪ c.values) c q := by
              simp only [aggPath, hit, hc]
            by_cases hce : c.values = ∅
            · have hlhs : mvalueAt (maddGoF B W d v (fuel + 1) cur ip m agg).1 (t :: q) =
                  mvalueAt (maddGoF B W d v fuel (MNode.mk c.lpm (c.values ∪ agg) c.child)
                    (stepIp B W ip) (m - B) agg).1 q := by
                simp only [maddGoF, if_pos hg, hc, if_pos hce]
                simp [mvalueAt, mLookupPath_cons, msetChild_child, hit]
              rw [hlhs, ih (m - B) hrec _ (stepIp B W ip) agg q]
              rw [hterm, hdesc, hcv, hap, if_pos hce]
              cases q with
              | nil =>
                by_cases hmB : m - B = 0
                · have h1 : termB B W (stepIp B W ip) (m - B) [] = true := by
                    simp [termB, hmB]
                  simp [h1, hit, hg, hne, mvalueAt, mLookupPath, mnode_values_mk, hce,
                    aggPath]
                  all_goals ext x
                  all_goals simp
                  all_goals tauto
                · have h1 : termB B W (stepIp B W ip) (m - B) [] = false := by
                    simp [termB, hmB]
                  have h2 : descB B W (stepIp B W ip) (m - B) [] = true := by
                    simp [descB, hmB]
                  simp [h1, h2, hit, hg, hne, mvalueAt, mLookupPath, mnode_values_mk,
                    hce, aggPath]
                  all_goals ext x
                  all_goals simp
                  all_goals tauto
              | cons t1 q1 =>
                have hvv : mvalueAt (MNode.mk c.lpm (c.values ∪ agg) c.child)
                    (t1 :: q1) = mvalueAt c (t1 :: q1) := mvalueAt_mk_cons _ _ c t1 q1
                have haa : aggPath agg (MNode.mk c.lpm (c.values ∪ agg) c.child)
                    (t1 :: q1) = aggPath agg c (t1 :: q1) :=
                  aggPath_congr (by rw [mnode_child_mk]) agg (t1 :: q1)
                rw [hvv, haa]
                have hne1 : (t1 :: q1) ≠ ([] : List Nat) := by simp
                by_cases h1 : termB B W (stepIp B W ip) (m - B) (t1 :: q1) = true
                · simp [h1, hit, hg, hne, hne1]
                · by_cases h2 : descB B W (stepIp B W ip) (m - B) (t1 :: q1) = true
                  · simp [h1, h2, hit, hg, hne, hne1]
                  · simp [h1, h2, hit, hg, hne, hne1]
            · have hlhs : mvalueAt (maddGoF B W d v (fuel + 1) cur ip m agg).1 (t :: q) =
                  mvalueAt (maddGoF B W d v fuel c (stepIp B W ip) (m - B)
                    (agg ∪ c.values)).1 q := by
                simp only [maddGoF, if_pos hg, hc, if_neg hce]
                simp [mvalueAt, mLookupPath_cons, msetChild_child, hit]
              rw [hlhs, ih (m - B) hrec c (stepIp B W ip) (agg ∪ c.values) q]
              rw [hterm, hdesc, hcv, hap, if_neg hce]
              cases q with
              | nil =>
                by_cases hmB : m - B = 0
                · have h1 : termB B W (stepIp B W ip) (m - B) [] = true := by
                    simp [termB, hmB]
                  simp [h1, hit, hg, hne, mvalueAt, mLookupPath, aggPath, hce]
                  all_goals ext x
                  all_goals simp
                  all_goals tauto
                · have h1 : termB B W (stepIp B W ip) (m - B) [] = false := by
                    simp [termB, hmB]
                  have h2 : descB B W (stepIp B W ip) (m - B) [] = true := by
                    simp [descB, hmB]
                  simp [h1, h2, hit, hg, hne, mvalueAt, mLookupPath, aggPath, hce]
                  all_goals ext x
                  all_goals simp
                  all_goals tauto
              | cons t1 q1 =>
                have hne1 : (t1 :: q1) ≠ ([] : List Nat) := by simp
                by_cases h1 : termB B W (stepIp B W ip) (m - B) (t1 :: q1) = true
                · simp [h1, hit, hg, hne, hne1]
                · by_cases h2 : descB B W (stepIp B W ip) (m - B) (t1 :: q1) = true
                  · simp [h1, h2, hit, hg, hne, hne1]
                  · simp [h1, h2, hit, hg, hne, hne1]
          | none =>
            have hcv : mvalueAt cur (t :: q) = none := by
              simp [mvalueAt, mLookupPath_cons, hit, hc]
            have hap : aggPath agg cur (t :: q) = agg := by
              simp only [aggPath, hit, hc]
            have hlhs : mvalueAt (maddGoF B W d v (fuel + 1) cur ip m agg).1 (t :: q) =
                mvalueAt (maddGoF B W d v fuel (MNode.mk d agg (fun _ => none))
                  (stepIp B W ip) (m - B) agg).1 q := by
              simp only [maddGoF, if_pos hg, hc]
              simp [mvalueAt, mLookupPath_cons, msetChild_child, hit]
            rw [hlhs, ih (m - B) hrec _ (stepIp B W ip) agg q]
            rw [hterm, hdesc, hcv, hap]
            cases q with
            | nil =>
              by_cases hmB : m - B = 0
              · have h1 : termB B W (stepIp B W ip) (m - B) [] = true := by
                  simp [termB, hmB]
                simp [h1, hit, hg, hne, mvalueAt, mLookupPath, mnode_values_mk, aggPath]
                all_goals ext x
                all_goals simp
                all_goals tauto
              · have h1 : termB B W (stepIp B W ip) (m - B) [] = false := by
                  simp [termB, hmB]
                have h2 : descB B W (stepIp B W ip) (m - B) [] = true := by
                  simp [descB, hmB]
                simp [h1, h2, hit, hg, hne, mvalueAt, mLookupPath, mnode_values_mk,
                  aggPath]
                all_goals ext x
                all_goals simp
                all_goals tauto
            | cons t1 q1 =>
              have hvv : mvalueAt (MNode.mk d agg (fun _ => none)) (t1 :: q1) = none := by
                simp [mvalueAt, mLookupPath_cons, mnode_child_mk]
              have haa : aggPath agg (MNode.mk d agg (fun _ => none)) (t1 :: q1) = agg := by
                simp only [aggPath, mnode_child_mk]
              rw [hvv, haa]
              have hne1 : (t1 :: q1) ≠ ([] : List Nat) := by simp
              by_cases h1 : termB B W (stepIp B W ip) (m - B) (t1 :: q1) = true
              · simp [h1, hit, hg, hne, hne1]
              · by_cases h2 : descB B W (stepIp B W ip) (m - B) (t1 :: q1) = true
                · simp [h1, h2, hit, hg, hne, hne1]
                · simp [h1, h2, hit, hg, hne, hne1]
        · have hlhs : mvalueAt (maddGoF B W d v (fuel + 1) cur ip m agg).1 (t :: q) =
              mvalueAt cur (t :: q) := by
            cases hc : cur.child (topBits B W ip) with
            | some c =>
              by_cases hce : c.values = ∅
              · simp only [maddGoF, if_pos hg, hc, if_pos hce]
                simp [mvalueAt, mLookupPath_cons, msetChild_child, hit]
              · simp only [maddGoF, if_pos hg, hc, if_neg hce]
                simp [mvalueAt, mLookupPath_cons, msetChild_child, hit]
            | none =>
              simp only [maddGoF, if_pos hg, hc]
              simp [mvalueAt, mLookupPath_cons, msetChild_child, hit]
          rw [hlhs, hterm, hdesc]
          simp [hit]
    · by_cases hm0 : m ≠ 0
      · have hnod : (List.range (2 ^ B)).Nodup := List.nodup_range (2 ^ B)
        cases p with
        | nil =>
          have ht : termB B W ip m [] = false := by
            simp only [termB, decide_eq_false_iff_not]
            omega
          have hd : descB B W ip m [] = true := by
            simp only [descB, decide_eq_true_eq]
            omega
          simp only [maddGoF, if_neg hg, if_pos hm0, ht, hd, if_pos rfl]
          simp [mvalueAt, mLookupPath, mMisGo_fst_values]
        | cons t q =>
          cases q with
          | nil =>
            have hlhs : mvalueAt (maddGoF B W d v (fuel + 1) cur ip m agg).1 [t] =
                if t ∈ List.range (2 ^ B) ∧ t &&& lmask B W m = topBits B W ip then
                  some ((match cur.child t with
                    | some c => c.values
                    | none => (∅ : Finset Int)) ∪ insert v agg)
                else mvalueAt cur [t] := by
              simp only [maddGoF, if_neg hg, if_pos hm0, mvalueAt, mLookupPath_cons]
              rw [mMisGo_child v (topBits B W ip) (lmask B W m) _ _ hnod]
              by_cases hmem : t ∈ List.range (2 ^ B) ∧ t &&& lmask B W m = topBits B W ip
              · rw [if_pos hmem, if_pos hmem]
                cases cur.child t with
                | some c =>
                  simp [mnode_values_mk]
                  exact ⟨_, rfl, rfl⟩
                | none =>
                  simp [mnode_values_mk]
                  exact ⟨_, rfl, rfl⟩
              · rw [if_neg hmem, if_neg hmem]
            rw [hlhs]
            have hterm : termB B W ip m [t] =
                (decide (t < 2 ^ B) && decide (t &&& lmask B W m = topBits B W ip)) := by
              simp only [termB, if_neg hg, if_pos hm0]
              simp
            have hdesc : descB B W ip m [t] = false := by
              simp only [descB]
              simp [hg]
            rw [hterm, hdesc]
            by_cases hmem : t ∈ List.range (2 ^ B) ∧ t &&& lmask B W m = topBits B W ip
            · have h1 : t < 2 ^ B := List.mem_range.mp hmem.1
              rw [if_pos hmem]
              rw [if_pos (by simp [h1, hmem.2] :
                (decide (t < 2 ^ B) && decide (t &&& lmask B W m = topBits B W ip)) = true)]
              cases hc : cur.child t with
              | some c =>
                have hcv : mvalueAt cur [t] = some c.values := by
                  simp [mvalueAt, mLookupPath_cons, hc]
                  exact ⟨_, rfl, rfl⟩
                have hap : aggPath agg cur [t] =
                    (if c.values = ∅ then agg else agg ∪ c.values) := by
                  simp only [aggPath, hc]
                rw [hcv, hap]
                simp only [Option.getD_some]
                congr 1
                by_cases hce : c.values = ∅
                · rw [if_pos hce, hce]
                  all_goals simp
                · rw [if_neg hce]
                  ext x
                  simp
                  all_goals tauto
              | none =>
                have hcv : mvalueAt cur [t] = none := by
                  simp [mvalueAt, mLookupPath_cons, hc]
                have hap : aggPath agg cur [t] = agg := by
                  simp only [aggPath, hc]
                rw [hcv, hap]
                simp
            · rw [if_neg hmem]
              have hni : ¬(t < 2 ^ B ∧ t &&& lmask B W m = topBits B W ip) := by
                intro hcon
                exact hmem ⟨List.mem_range.mpr hcon.1, hcon.2⟩
              simp only [Bool.and_eq_true, decide_eq_true_eq]
              rw [if_neg hni]
              simp
          | cons t1 q1 =>
            have hterm : termB B W ip m (t :: t1 :: q1) = false := by
              simp only [termB, if_neg hg, if_pos hm0]
              simp
            have hdesc : descB B W ip m (t :: t1 :: q1) = false := by
              simp only [descB]
              simp [hg]
            rw [hterm, hdesc]
            simp only [maddGoF, if_neg hg, if_pos hm0, mvalueAt, mLookupPath_cons]
            rw [mMisGo_child v (topBits B W ip) (lmask B W m) _ _ hnod]
            by_cases hmem : t ∈ List.range (2 ^ B) ∧ t &&& lmask B W m = topBits B W ip
            · rw [if_pos hmem]
              cases hc : cur.child t with
              | some c => simp [hc, mLookupPath_cons, mnode_child_mk]
              | none => simp [hc, mLookupPath_cons, mnode_child_mk]
            · rw [if_neg hmem]
              simp [mLookupPath_cons]
      · have hm0e : m = 0 := by omega
        subst hm0e
        have hgf : ¬(0 < B ∧ B ≤ (0 : Nat)) := by omega
        cases p with
        | nil =>
          simp only [maddGoF, if_neg hg, if_neg (by simp : ¬((0 : Nat) ≠ 0))]
          simp [termB, mvalueAt, mLookupPath, mnode_values_mk, aggPath]
        | cons t q =>
          have hterm : termB B W ip 0 (t :: q) = false := by
            simp only [termB, if_neg hgf, if_neg (by simp : ¬((0 : Nat) ≠ 0))]
          have hdesc : descB B W ip 0 (t :: q) = false := by
            have hgd : (decide (0 < B ∧ B ≤ (0 : Nat))) = false := decide_eq_false hgf
            simp only [descB, hgd, Bool.false_and]
          rw [hterm, hdesc]
          simp only [maddGoF, if_neg hg, if_neg (by simp : ¬((0 : Nat) ≠ 0))]
          simp [mvalueAt, mLookupPath_cons, mnode_child_mk]

/-- Unfolding the MultiTritrie insertion fold by one insertion. -/
theorem mRawRoot_append (L : List Ins) (e : Ins) :
    mRawRoot B W d (L ++ [e]) =
      (maddGoF B W d e.value (e.mask + 1) (mRawRoot B W d L) e.ip e.mask
        (mRawRoot B W d L).values).1 := by
  simp [mRawRoot, List.foldl_append]

/-- Path lookup decomposes over path concatenation. -/
theorem mLookupPath_append :
    ∀ (p q : List Nat) (n0 : MNode),
      mLookupPath n0 (p ++ q) =
        match mLookupPath n0 p with
        | none => none
        | some n1 => mLookupPath n1 q := by
  intro p
  induction p with
  | nil => intro q n0; rfl
  | cons t p ih =>
    intro q n0
    simp only [List.cons_append, mLookupPath_cons]
    cases n0.child t with
    | none => rfl
    | some c => exact ih q c

/-- Taking from an extended list stays inside the first part. -/
theorem take_append_le {α : Type} (l r : List α) (k : Nat) (h : k ≤ l.length) :
    (l ++ r).take k = l.take k := by
  rw [List.take_append_eq_append_take]
  simp [Nat.sub_eq_zero_of_le h]

/-- Membership in the covering-value set of a path. -/
theorem mem_covL (L : List Ins) (p : List Nat) (x : Int) :
    x ∈ covL B W L p ↔
      ∃ e ∈ L, (levels B e.mask ≤ p.length ∧
        termB B W e.ip e.mask (p.take (levels B e.mask)) = true) ∧ e.value = x := by
  simp [covL, List.mem_filter]
  constructor
  · rintro ⟨a, ⟨h1, h2, h3⟩, h4⟩
    exact ⟨a, h1, ⟨h2, h3⟩, h4⟩
  · rintro ⟨a, h1, ⟨h2, h3⟩, h4⟩
    exact ⟨a, ⟨h1, h2, h3⟩, h4⟩

/-- The covering-value set grows along a path. -/
theorem covL_mono (L : List Ins) (p r : List Nat) :
    covL B W L p ⊆ covL B W L (p ++ r) := by
  intro x hx
  rw [mem_covL] at hx ⊢
  obtain ⟨e, he, ⟨h1, h2⟩, h3⟩ := hx
  refine ⟨e, he, ⟨by simp; omega, ?_⟩, h3⟩
  rw [take_append_le p r _ h1]
  exact h2

/-- The covering-value set of an extended insertion list. -/
theorem covL_append (L : List Ins) (e : Ins) (p : List Nat) :
    covL B W (L ++ [e]) p =
      covL B W L p ∪
        (if levels B e.mask ≤ p.length ∧
            termB B W e.ip e.mask (p.take (levels B e.mask)) = true then
          {e.value} else ∅) := by
  ext x
  rw [mem_covL, Finset.mem_union, mem_covL]
  by_cases hc : levels B e.mask ≤ p.length ∧
      termB B W e.ip e.mask (p.take (levels B e.mask)) = true
  · rw [if_pos hc]
    simp only [Finset.mem_singleton]
    constructor
    · rintro ⟨f, hf, hcond, hval⟩
      rcases List.mem_append.mp hf with hfL | hfe
      · exact Or.inl ⟨f, hfL, hcond, hval⟩
      · right
        rw [List.mem_singleton.mp hfe] at hval
        exact hval.symm
    · rintro (⟨f, hfL, hcond, hval⟩ | rfl)
      · exact ⟨f, by simp [hfL], hcond, hval⟩
      · exact ⟨e, by simp, hc, rfl⟩
  · rw [if_neg hc]
    simp only [Finset.not_mem_empty, or_false]
    constructor
    · rintro ⟨f, hf, hcond, hval⟩
      rcases List.mem_append.mp hf with hfL | hfe
      · exact ⟨f, hfL, hcond, hval⟩
      · rw [List.mem_singleton.mp hfe] at hcond
        exact absurd hcond hc
    · rintro ⟨f, hfL, hcond, hval⟩
      exact ⟨f, by simp [hfL], hcond, hval⟩

/-- A path somewhere inserted is present in the invariant value. -/
theorem invVal_some_of_termB (L : List Ins) (e : Ins) (p : List Nat)
    (he : e ∈ L) (ht : termB B W e.ip e.mask p = true) :
    invVal B W d L p ≠ none := by
  unfold invVal
  cases hl : lastW B W L p with
  | some v => simp
  | none =>
    have htch : touchedB B W L p = true := by
      unfold touchedB
      rw [List.any_eq_true]
      exact ⟨e, he, by simp [ht]⟩
    simp [htch]

/-- Existing paths are no longer than some inserted level count. -/
theorem invVal_length (hB : 0 < B) (L : List Ins) (p : List Nat)
    (h : invVal B W d L p ≠ none) :
    p = [] ∨ ∃ e ∈ L, p.length ≤ levels B e.mask := by
  unfold invVal at h
  cases hl : lastW B W L p with
  | some v =>
    obtain ⟨f, hf, hft, -⟩ := lastW_mem B W L p v hl
    exact Or.inr ⟨f, hf, le_of_eq (termB_length B W hB p f.ip f.mask hft)⟩
  | none =>
    rw [hl] at h
    by_cases hp : p = [] ∨ touchedB B W L p = true
    · rcases hp with h0 | h0
      · exact Or.inl h0
      · unfold touchedB at h0
        rw [List.any_eq_true] at h0
        obtain ⟨f, hf, hor⟩ := h0
        rw [Bool.or_eq_true] at hor
        rcases hor with h1 | h1
        · exact Or.inr ⟨f, hf, le_of_eq (termB_length B W hB p f.ip f.mask h1)⟩
        · exact Or.inr ⟨f, hf, le_of_lt (descB_length_lt B W hB p f.ip f.mask h1)⟩
    · simp [if_neg hp] at h

/-- Under the value invariant for `L`, the aggregate collected along any
descent equals the covering-value set of the reached path. -/
theorem aggPath_covL_of_inv (hB : 0 < B) (L : List Ins)
    (hval : ∀ p, mvalueAt (mRawRoot B W d L) p =
      (invVal B W d L p).map (fun _ => covL B W L p)) :
    ∀ (p q : List Nat) (n : MNode), mLookupPath (mRawRoot B W d L) q = some n →
      aggPath (covL B W L q) n p = covL B W L (q ++ p) := by
  intro p
  induction p with
  | nil => intro q n _; rw [List.append_nil]; rfl
  | cons t p ih =>
    intro q n hq
    cases hc : n.child t with
    | none =>
      simp only [aggPath, hc]
      refine (Finset.Subset.antisymm ?_ (covL_mono B W L q (t :: p))).symm
      intro x hx
      rw [mem_covL] at hx
      obtain ⟨e, he, ⟨h1, h2⟩, h3⟩ := hx
      by_cases hlen : levels B e.mask ≤ q.length
      · rw [mem_covL]
        refine ⟨e, he, ⟨hlen, ?_⟩, h3⟩
        rw [← take_append_le q (t :: p) _ hlen]
        exact h2
      · exfalso
        have hT : (q ++ t :: p).take (levels B e.mask) =
            q ++ [t] ++ p.take (levels B e.mask - q.length - 1) := by
          rw [List.take_append_eq_append_take]
          rw [List.take_of_length_le (by omega)]
          have hsp : levels B e.mask - q.length =
              (levels B e.mask - q.length - 1) + 1 := by omega
          rw [hsp, List.take_succ_cons]
          simp
        have hsome := invVal_some_of_termB B W d L e _ he h2
        have hv := hval ((q ++ t :: p).take (levels B e.mask))
        cases hlk : mLookupPath (mRawRoot B W d L)
            ((q ++ t :: p).take (levels B e.mask)) with
        | none =>
          have hmv : mvalueAt (mRawRoot B W d L)
              ((q ++ t :: p).take (levels B e.mask)) = none := by
            simp [mvalueAt, hlk]
          rw [hmv] at hv
          cases hiv : invVal B W d L ((q ++ t :: p).take (levels B e.mask)) with
          | none => exact hsome hiv
          | some z => rw [hiv] at hv; simp at hv
        | some nT =>
          rw [hT, mLookupPath_append, mLookupPath_append, hq] at hlk
          simp [mLookupPath_cons, hc, mLookupPath] at hlk
    | some c =>
      simp only [aggPath, hc]
      have hqc : mLookupPath (mRawRoot B W d L) (q ++ [t]) = some c := by
        rw [mLookupPath_append, hq]
        simp [mLookupPath_cons, hc, mLookupPath]
      have hvc := hval (q ++ [t])
      rw [show mvalueAt (mRawRoot B W d L) (q ++ [t]) = some c.values from by
        simp [mvalueAt, hqc]] at hvc
      have hcv : c.values = covL B W L (q ++ [t]) := by
        cases hiv : invVal B W d L (q ++ [t]) with
        | none => rw [hiv] at hvc; simp at hvc
        | some z =>
          rw [hiv] at hvc
          simpa using hvc
      have hstep : q ++ t :: p = (q ++ [t]) ++ p := by simp
      by_cases hce : c.values = ∅
      · rw [if_pos hce]
        have hql : covL B W L q = covL B W L (q ++ [t]) := by
          refine Finset.Subset.antisymm (covL_mono B W L q [t]) ?_
          rw [← hcv, hce]
          exact Finset.empty_subset _
        rw [hql, hstep]
        exact ih (q ++ [t]) c hqc
      · rw [if_neg hce]
        have hun : covL B W L q ∪ c.values = covL B W L (q ++ [t]) := by
          rw [hcv]
          exact Finset.union_eq_right.mpr (covL_mono B W L q [t])
        rw [hun, hstep]
        exact ih (q ++ [t]) c hqc

/-- The MultiTritrie invariant: after folding a non-decreasing, positive
insertion sequence, the LPM value at every path is the Tritrie invariant
value, and the value set at every existing path is exactly the set of
values of insertions whose terminal level lies on the path. -/
theorem mRawRoot_inv (hB : 0 < B) :
    ∀ (L : List Ins), L.Pairwise (fun a b => a.mask ≤ b.mask) →
      (∀ e ∈ L, 1 ≤ e.mask) →
      ∀ p, mlpmAt (mRawRoot B W d L) p = invVal B W d L p ∧
        mvalueAt (mRawRoot B W d L) p =
          (invVal B W d L p).map (fun _ => covL B W L p) := by
  intro L
  induction L using List.reverseRecOn with
  | nil =>
    intro _ _ p
    constructor
    · cases p with
      | nil => simp [mRawRoot, invVal, lastW, touchedB, mlpmAt, mLookupPath,
          MNode.leaf, mnode_lpm_mk]
      | cons t q => simp [mRawRoot, invVal, lastW, touchedB, mlpmAt, mLookupPath_cons,
          MNode.leaf, mnode_child_mk]
    · cases p with
      | nil => simp [mRawRoot, invVal, lastW, touchedB, mvalueAt, mLookupPath,
          MNode.leaf, mnode_values_mk, covL]
      | cons t q => simp [mRawRoot, invVal, lastW, touchedB, mvalueAt, mLookupPath_cons,
          MNode.leaf, mnode_child_mk]
  | append_singleton L e ih =>
    intro hpw hm1 p
    have hpwL : L.Pairwise (fun a b => a.mask ≤ b.mask) := (List.pairwise_append.mp hpw).1
    have hmax : ∀ f ∈ L, f.mask ≤ e.mask := by
      intro f hf
      exact (List.pairwise_append.mp hpw).2.2 f hf e (by simp)
    have hm1L : ∀ f ∈ L, 1 ≤ f.mask := fun f hf => hm1 f (by simp [hf])
    have hm1e : 1 ≤ e.mask := hm1 e (by simp)
    have ihL := ih hpwL hm1L
    have hvalL : ∀ q, mvalueAt (mRawRoot B W d L) q =
        (invVal B W d L q).map (fun _ => covL B W L q) := fun q => (ihL q).2
    have hlpmL : ∀ q, mlpmAt (mRawRoot B W d L) q = invVal B W d L q :=
      fun q => (ihL q).1
    have hroot0 : (mRawRoot B W d L).values = covL B W L [] := by
      have h0 := hvalL []
      have hm : mvalueAt (mRawRoot B W d L) [] = some (mRawRoot B W d L).values := rfl
      rw [hm] at h0
      cases hiv : invVal B W d L [] with
      | none =>
        exfalso
        unfold invVal at hiv
        cases hl : lastW B W L [] with
        | some v => rw [hl] at hiv; simp at hiv
        | none => rw [hl] at hiv; simp at hiv
      | some z =>
        rw [hiv] at h0
        simpa using h0
    have hagg : ∀ q, aggPath (covL B W L []) (mRawRoot B W d L) q = covL B W L q := by
      intro q
      have h1 := aggPath_covL_of_inv B W d hB L hvalL q [] (mRawRoot B W d L) rfl
      simpa using h1
    rw [mRawRoot_append]
    constructor
    · rw [maddGoF_lpmAt B W d hB e.value (e.mask + 1) e.mask (by omega)
        (mRawRoot B W d L) e.ip (mRawRoot B W d L).values p]
      by_cases ht : termB B W e.ip e.mask p = true
      · rw [if_pos ht]
        simp [invVal, lastW_append, ht]
      · rw [if_neg ht]
        by_cases hd : descB B W e.ip e.mask p = true
        · rw [if_pos hd, hlpmL]
          simp only [invVal, lastW_append, touchedB_append, if_neg ht]
          cases hl : lastW B W L p with
          | some v => simp
          | none =>
            simp only [Option.getD]
            by_cases hp : p = [] ∨ touchedB B W L p = true
            · have hq2 : p = [] ∨ (touchedB B W L p || (termB B W e.ip e.mask p ||
                  descB B W e.ip e.mask p)) = true := by
                rcases hp with h | h
                · exact Or.inl h
                · exact Or.inr (by simp [h])
              simp only [if_pos hp, if_pos hq2]
            · have hq2 : p = [] ∨ (touchedB B W L p || (termB B W e.ip e.mask p ||
                  descB B W e.ip e.mask p)) = true := by
                right
                simp [hd]
              simp only [if_neg hp, if_pos hq2]
        · rw [if_neg hd, hlpmL]
          simp only [invVal, lastW_append, touchedB_append, if_neg ht]
          cases hl : lastW B W L p with
          | some v => simp
          | none =>
            have hb1 : termB B W e.ip e.mask p = false := by simpa using ht
            have hb2 : descB B W e.ip e.mask p = false := by simpa using hd
            simp [hb1, hb2]
    · rw [maddGoF_valuesAt B W d hB e.value (e.mask + 1) e.mask (by omega)
        (mRawRoot B W d L) e.ip (mRawRoot B W d L).values p]
      rw [hroot0]
      by_cases ht : termB B W e.ip e.mask p = true
      · rw [if_pos ht]
        have hlen : p.length = levels B e.mask := termB_length B W hB p e.ip e.mask ht
        have hcond : levels B e.mask ≤ p.length ∧
            termB B W e.ip e.mask (p.take (levels B e.mask)) = true := by
          refine ⟨by omega, ?_⟩
          rw [← hlen, List.take_length]
          exact ht
        have hcovA : covL B W (L ++ [e]) p = covL B W L p ∪ {e.value} := by
          rw [covL_append, if_pos hcond]
        have hinv2 : invVal B W d (L ++ [e]) p = some e.value := by
          simp [invVal, lastW_append, ht]
        rw [hagg, hinv2, hcovA]
        simp only [Option.map_some']
        congr 1
        cases hiv : invVal B W d L p with
        | some z =>
          have hS : mvalueAt (mRawRoot B W d L) p = some (covL B W L p) := by
            rw [hvalL, hiv]
            rfl
          rw [hS]
          simp only [Option.getD_some]
          ext x
          simp
          tauto
        | none =>
          have hS : mvalueAt (mRawRoot B W d L) p = none := by
            rw [hvalL, hiv]
            rfl
          rw [hS]
          simp only [Option.getD_none]
          ext x
          simp
          tauto
      · rw [if_neg ht]
        by_cases hd : descB B W e.ip e.mask p = true
        · rw [if_pos hd]
          have hlt : p.length < levels B e.mask := descB_length_lt B W hB p e.ip e.mask hd
          have hcond : ¬(levels B e.mask ≤ p.length ∧
              termB B W e.ip e.mask (p.take (levels B e.mask)) = true) := by
            intro hcon
            omega
          have hcovA : covL B W (L ++ [e]) p = covL B W L p := by
            rw [covL_append, if_neg hcond]
            simp
          have hinv2 : ∃ z, invVal B W d (L ++ [e]) p = some z := by
            unfold invVal
            cases hl2 : lastW B W (L ++ [e]) p with
            | some v => exact ⟨v, rfl⟩
            | none =>
              have hq2 : p = [] ∨ touchedB B W (L ++ [e]) p = true := by
                right
                rw [touchedB_append]
                simp [hd]
              rw [if_pos hq2]
              exact ⟨d, rfl⟩
          obtain ⟨z2, hinv2⟩ := hinv2
          rw [hinv2, hcovA]
          by_cases hpnil : p = []
          · rw [if_pos hpnil]
            subst hpnil
            have hm : mvalueAt (mRawRoot B W d L) [] =
                some (mRawRoot B W d L).values := rfl
            rw [hm, hroot0]
            rfl
          · rw [if_neg hpnil]
            simp only [Option.map_some']
            congr 1
            cases hiv : invVal B W d L p with
            | some z =>
              have hS : mvalueAt (mRawRoot B W d L) p = some (covL B W L p) := by
                rw [hvalL, hiv]
                rfl
              rw [hS]
              simp only [Option.getD_some]
              by_cases hce : covL B W L p = ∅
              · rw [if_pos hce, hagg]
              · rw [if_neg hce]
            | none =>
              have hS : mvalueAt (mRawRoot B W d L) p = none := by
                rw [hvalL, hiv]
                rfl
              rw [hS]
              simp only [Option.getD_none, if_true]
              exact hagg p
        · rw [if_neg hd, hvalL]
          have hb1 : termB B W e.ip e.mask p = false := by simpa using ht
          have hb2 : descB B W e.ip e.mask p = false := by simpa using hd
          have hinveq : invVal B W d (L ++ [e]) p = invVal B W d L p := by
            unfold invVal
            rw [lastW_append, touchedB_append, hb1, hb2]
            simp
          rw [hinveq]
          cases hiv : invVal B W d L p with
          | none => simp
          | some z =>
            have hcond : ¬(levels B e.mask ≤ p.length ∧
                termB B W e.ip e.mask (p.take (levels B e.mask)) = true) := by
              intro hcon
              by_cases hlen : p.length = levels B e.mask
              · have h2 := hcon.2
                rw [← hlen, List.take_length] at h2
                rw [h2] at hb1
                simp at hb1
              · have hlt2 : levels B e.mask < p.length := by omega
                rcases invVal_length B W d hB L p (by rw [hiv]; simp) with h0 | ⟨f, hf, hlef⟩
                · rw [h0] at hlt2
                  simp at hlt2
                · have hml := levels_mono B (hmax f hf)
                  omega
            have hcovA : covL B W (L ++ [e]) p = covL B W L p := by
              rw [covL_append, if_neg hcond]
              simp
            rw [hcovA]

/-- With in-range masks in non-decreasing order, every `MultiTritrie::add`
check passes and the `Except` fold equals the pure fold. -/
theorem mfoldAdd_eq :
    ∀ (L : List Ins) (t : MTri), (∀ e ∈ L, 1 ≤ e.mask ∧ e.mask ≤ W) →
      List.Chain (fun a b => a ≤ b) t.last_mask (L.map Ins.mask) →
      L.foldlM (fun s e => MTri.add B W d s e.ip (e.mask : Int) e.value) t =
        Except.ok (L.foldl (mAddPure B W d) t) := by
  intro L
  induction L with
  | nil => intro t _ _; rfl
  | cons e L ih =>
    intro t hr hc
    have hre := hr e (by simp)
    have hc1 : t.last_mask ≤ e.mask ∧
        List.Chain (fun a b => a ≤ b) e.mask (L.map Ins.mask) := by
      rw [List.map_cons, List.chain_cons] at hc
      exact hc
    have hadd : MTri.add B W d t e.ip (e.mask : Int) e.value =
        Except.ok (mAddPure B W d t e) := by
      have hm1 : ¬((e.mask : Int) = -1) := by omega
      have hrr : ¬((e.mask : Int) < 0 ∨ (W : Int) < (e.mask : Int)) := by omega
      have ho : ¬((e.mask : Int).toNat < t.last_mask) := by omega
      rw [MTri.add, if_neg hm1, if_neg hrr, MTri.addIp, if_neg ho]
      simp [mAddPure]
    simp only [List.foldlM_cons, hadd]
    have hrest : (L.foldlM (fun s e => MTri.add B W d s e.ip (e.mask : Int) e.value)
        (mAddPure B W d t e)) =
        Except.ok (L.foldl (mAddPure B W d) (mAddPure B W d t e)) := by
      refine ih (mAddPure B W d t e) (fun f hf => hr f (by simp [hf])) ?_
      simpa [mAddPure] using hc1.2
    simpa using hrest

/-- The root of the pure MultiTritrie fold. -/
theorem mfoldlPure_root :
    ∀ (L : List Ins) (t : MTri),
      (L.foldl (mAddPure B W d) t).root =
        L.foldl (fun n e => (maddGoF B W d e.value (e.mask + 1) n e.ip e.mask
          n.values).1) t.root := by
  intro L
  induction L with
  | nil => intro t; rfl
  | cons e L ih =>
    intro t
    simp only [List.foldl_cons, ih]
    rfl

/-- The root of the built MultiTritrie is the raw insertion fold. -/
theorem mBuildT_root (L : List Ins) (h : okSeq W L) :
    (mBuildT B W d L).root = mRawRoot B W d L := by
  unfold mBuildT mBuildL
  rw [mfoldAdd_eq B W d L (MTri.empty d) (fun e he => ⟨(h.2 e he).1, (h.2 e he).2.1⟩)
    (chain_of_pairwise_mask L 0 (fun f _ => Nat.zero_le _) h.1)]
  rw [mfoldlPure_root]
  rfl

/-- `query_all` returns the value set of the deepest reachable node. -/
theorem mQueryAllGo_eq :
    ∀ (fuel : Nat) (cur : MNode) (ip : Nat),
      mQueryAllGo B W cur ip fuel =
        ((mPathNodes cur (chunks B W ip fuel)).getLastD cur).values := by
  intro fuel
  induction fuel with
  | zero => intro cur ip; rfl
  | succ fuel ih =>
    intro cur ip
    simp only [mQueryAllGo, chunks, mPathNodes]
    cases hc : cur.child (topBits B W ip) with
    | none => rfl
    | some c =>
      simp only [ih]
      rw [List.getLastD_cons]

/-- The `query` walk of MultiTritrie as a fold over the visited chain. -/
theorem mQueryGo_eq_fold :
    ∀ (fuel : Nat) (cur : MNode) (ip : Nat) (m0 : Int),
      mQueryGo B W d cur ip m0 fuel =
        (mPathNodes cur (chunks B W ip fuel)).foldl
          (fun acc n => if n.lpm ≠ d then n.lpm else acc) m0 := by
  intro fuel
  induction fuel with
  | zero => intro cur ip m0; rfl
  | succ fuel ih =>
    intro cur ip m0
    simp only [mQueryGo, chunks, mPathNodes]
    cases hc : cur.child (topBits B W ip) with
    | none => rfl
    | some c => simp [ih]

/-- A fold of the LPM-update step returns the start value or the LPM of
some visited node that differs from the sentinel. -/
theorem foldl_lpm_mem :
    ∀ (l : List MNode) (m0 : Int),
      l.foldl (fun acc n => if n.lpm ≠ d then n.lpm else acc) m0 = m0 ∨
      ∃ nd ∈ l, l.foldl (fun acc n => if n.lpm ≠ d then n.lpm else acc) m0 = nd.lpm ∧
        nd.lpm ≠ d := by
  intro l
  induction l with
  | nil => intro m0; exact Or.inl rfl
  | cons nd l ih =>
    intro m0
    simp only [List.foldl_cons]
    by_cases hnd : nd.lpm ≠ d
    · rw [if_pos hnd]
      rcases ih nd.lpm with h | ⟨nd2, hm, he, hne⟩
      · exact Or.inr ⟨nd, by simp, h, hnd⟩
      · exact Or.inr ⟨nd2, by simp [hm], he, hne⟩
    · rw [if_neg hnd]
      rcases ih m0 with h | ⟨nd2, hm, he, hne⟩
      · exact Or.inl h
      · exact Or.inr ⟨nd2, by simp [hm], he, hne⟩

/-- Element `k` of the visited MultiTritrie chain is the node at the
length-`(k + 1)` path prefix. -/
theorem mPathNodes_get :
    ∀ (cs : List Nat) (cur : MNode) (k : Nat), k < cs.length →
      (mPathNodes cur cs).get? k = mLookupPath cur (cs.take (k + 1)) := by
  intro cs
  induction cs with
  | nil => intro cur k h; simp at h
  | cons c cs ih =>
    intro cur k hk
    simp only [mPathNodes, List.take_succ_cons, mLookupPath_cons]
    cases hc : cur.child c with
    | none =>
      cases k <;> simp
    | some ch =>
      cases k with
      | zero => simp [mLookupPath]
      | succ k => simpa using ih ch k (by simpa using hk)

/-- The visited chain is no longer than the digit list. -/
theorem mPathNodes_length_le :
    ∀ (cs : List Nat) (cur : MNode), (mPathNodes cur cs).length ≤ cs.length := by
  intro cs
  induction cs with
  | nil => intro cur; simp [mPathNodes]
  | cons c cs ih =>
    intro cur
    simp only [mPathNodes]
    cases cur.child c with
    | none => simp
    | some ch => simpa using ih ch

/-- A resolvable path prefix keeps the walk going at least that far. -/
theorem mPathNodes_lookup_len :
    ∀ (cs : List Nat) (cur : MNode) (k : Nat), k ≤ cs.length →
      (mLookupPath cur (cs.take k)).isSome →
      k ≤ (mPathNodes cur cs).length := by
  intro cs
  induction cs with
  | nil =>
    intro cur k hk _
    simp only [List.length_nil] at hk
    omega
  | cons c cs ih =>
    intro cur k hk hs
    cases k with
    | zero => simp
    | succ k =>
      rw [List.take_succ_cons, mLookupPath_cons] at hs
      cases hc : cur.child c with
      | none => rw [hc] at hs; simp at hs
      | some ch =>
        rw [hc] at hs
        simp only [mPathNodes, hc, List.length_cons]
        have := ih ch k (by simpa using hk) hs
        omega

/-- With positive masks nothing ever writes the root path. -/
theorem lastW_nil_none (L : List Ins) (h : ∀ e ∈ L, 1 ≤ e.mask) :
    lastW B W L [] = none := by
  cases hl : lastW B W L [] with
  | none => rfl
  | some v =>
    obtain ⟨f, hf, hft, -⟩ := lastW_mem B W L [] v hl
    simp only [termB, decide_eq_true_eq] at hft
    have := h f hf
    omega

/-- Membership in the specification set of `query_all`. -/
theorem mem_coversSet (L : List Ins) (a : Nat) (x : Int) :
    x ∈ coversSet W L a ↔ ∃ e ∈ L, covers W e.ip e.mask a ∧ e.value = x := by
  simp [coversSet, List.mem_filter]
  constructor
  · rintro ⟨e, ⟨h1, h2⟩, h3⟩
    exact ⟨e, h1, h2, h3⟩
  · rintro ⟨e, h1, h2, h3⟩
    exact ⟨e, ⟨h1, h2⟩, h3⟩

/-- The walk ends at the node of the length-of-chain path prefix. -/
theorem mPathNodes_last :
    ∀ (cs : List Nat) (cur : MNode),
      mLookupPath cur (cs.take (mPathNodes cur cs).length) =
        some ((mPathNodes cur cs).getLastD cur) := by
  intro cs
  induction cs with
  | nil => intro cur; rfl
  | cons c cs ih =>
    intro cur
    cases hc : cur.child c with
    | none => simp [mPathNodes, hc, mLookupPath]
    | some ch =>
      simp only [mPathNodes, hc, List.length_cons, List.take_succ_cons,
        mLookupPath_cons, List.getLastD_cons]
      exact ih ch

/-- Claim C3: MultiTritrie set law.  After building from a valid
insertion sequence, `query_all(a)` returns exactly the set of values of
the inserted prefixes that cover `a`, and `query(a)` is the sentinel or a
member of `query_all(a)`. -/
theorem claim_C3_multitritrie_set_law :
    ∀ (B W : Nat) (L : List Ins) (a : Nat),
      0 < B → B ≤ W → validSeq W (-1) L → a < 2 ^ W →
      MTri.queryAll B W (mBuildT B W (-1) L) a = coversSet W L a ∧
      MTri.query B W (-1) (mBuildT B W (-1) L) a ∈
        insert (-1 : Int) (MTri.queryAll B W (mBuildT B W (-1) L) a) := by
  intro B W L a hB hBW hv ha
  have hok : okSeq W L := hv.1
  have hroot : (mBuildT B W (-1) L).root = mRawRoot B W (-1) L :=
    mBuildT_root B W (-1) L hok
  have hinv := mRawRoot_inv B W (-1) hB L hok.1 (fun e he => (hok.2 e he).1)
  have hvalL : ∀ q, mvalueAt (mRawRoot B W (-1) L) q =
      (invVal B W (-1) L q).map (fun _ => covL B W L q) := fun q => (hinv q).2
  have hlpmL : ∀ q, mlpmAt (mRawRoot B W (-1) L) q = invVal B W (-1) L q :=
    fun q => (hinv q).1
  have hcsl : (chunks B W a W).length = W := chunks_length B W W a
  have hDle : (mPathNodes (mRawRoot B W (-1) L) (chunks B W a W)).length ≤ W := by
    have h1 := mPathNodes_length_le (chunks B W a W) (mRawRoot B W (-1) L)
    omega
  have hnD := mPathNodes_last (chunks B W a W) (mRawRoot B W (-1) L)
  have htakeD : ((chunks B W a W).take
      (mPathNodes (mRawRoot B W (-1) L) (chunks B W a W)).length).length =
      (mPathNodes (mRawRoot B W (-1) L) (chunks B W a W)).length := by
    rw [List.length_take]
    omega
  have hqa : MTri.queryAll B W (mBuildT B W (-1) L) a =
      covL B W L ((chunks B W a W).take
        (mPathNodes (mRawRoot B W (-1) L) (chunks B W a W)).length) := by
    show mQueryAllGo B W (mBuildT B W (-1) L).root a W = _
    rw [hroot, mQueryAllGo_eq]
    have h1 := hvalL ((chunks B W a W).take
      (mPathNodes (mRawRoot B W (-1) L) (chunks B W a W)).length)
    rw [show mvalueAt (mRawRoot B W (-1) L) ((chunks B W a W).take
        (mPathNodes (mRawRoot B W (-1) L) (chunks B W a W)).length) =
        some ((mPathNodes (mRawRoot B W (-1) L) (chunks B W a W)).getLastD
          (mRawRoot B W (-1) L)).values from by simp [mvalueAt, hnD]] at h1
    cases hiv : invVal B W (-1) L ((chunks B W a W).take
        (mPathNodes (mRawRoot B W (-1) L) (chunks B W a W)).length) with
    | none => rw [hiv] at h1; simp at h1
    | some z =>
      rw [hiv] at h1
      simpa using h1
  have hcv : covL B W L ((chunks B W a W).take
      (mPathNodes (mRawRoot B W (-1) L) (chunks B W a W)).length) =
      coversSet W L a := by
    ext x
    rw [mem_covL, mem_coversSet]
    constructor
    · rintro ⟨e, he, ⟨h1, h2⟩, h3⟩
      have hemask := hok.2 e he
      have hcanon := hv.2 e he
      have hlev : levels B e.mask ≤ W :=
        le_trans (levels_mono B hemask.2.1) (levels_le_self B hB W)
      rw [htakeD] at h1
      have htk : (((chunks B W a W).take
          (mPathNodes (mRawRoot B W (-1) L) (chunks B W a W)).length).take
          (levels B e.mask)) = chunks B W a (levels B e.mask) := by
        rw [List.take_take, min_eq_left h1]
        exact chunks_take B W (levels B e.mask) W a hlev
      rw [htk] at h2
      exact ⟨e, he, (covers_iff_termB B W hB hBW e.mask e.ip a hemask.2.1
        hemask.2.2 ha hcanon.1).mp h2, h3⟩
    · rintro ⟨e, he, hcov, h3⟩
      have hemask := hok.2 e he
      have hcanon := hv.2 e he
      have hlev : levels B e.mask ≤ W :=
        le_trans (levels_mono B hemask.2.1) (levels_le_self B hB W)
      have ht2 := (covers_iff_termB B W hB hBW e.mask e.ip a hemask.2.1
        hemask.2.2 ha hcanon.1).mpr hcov
      have hsome := invVal_some_of_termB B W (-1) L e _ he ht2
      have hlk : (mLookupPath (mRawRoot B W (-1) L)
          (chunks B W a (levels B e.mask))).isSome := by
        have h4 := hvalL (chunks B W a (levels B e.mask))
        cases hlk2 : mLookupPath (mRawRoot B W (-1) L)
            (chunks B W a (levels B e.mask)) with
        | none =>
          rw [show mvalueAt (mRawRoot B W (-1) L) (chunks B W a (levels B e.mask)) =
            none from by simp [mvalueAt, hlk2]] at h4
          cases hiv : invVal B W (-1) L (chunks B W a (levels B e.mask)) with
          | none => exact absurd hiv hsome
          | some z => rw [hiv] at h4; simp at h4
        | some nd => simp
      have hlevD : levels B e.mask ≤
          (mPathNodes (mRawRoot B W (-1) L) (chunks B W a W)).length := by
        refine mPathNodes_lookup_len (chunks B W a W) (mRawRoot B W (-1) L)
          (levels B e.mask) (by omega) ?_
        rw [chunks_take B W (levels B e.mask) W a hlev]
        exact hlk
      refine ⟨e, he, ⟨by rw [htakeD]; exact hlevD, ?_⟩, h3⟩
      rw [List.take_take, min_eq_left (by rw [htakeD] at *; exact hlevD),
        chunks_take B W (levels B e.mask) W a hlev]
      exact ht2
  refine ⟨hqa.trans hcv, ?_⟩
  have hrlpm : (mRawRoot B W (-1) L).lpm = -1 := by
    have h0 := hlpmL []
    rw [show mlpmAt (mRawRoot B W (-1) L) [] =
      some (mRawRoot B W (-1) L).lpm from rfl] at h0
    rw [show invVal B W (-1) L [] = some (-1) from by
      unfold invVal
      rw [lastW_nil_none B W L (fun e he => (hok.2 e he).1)]
      simp] at h0
    simpa using h0
  show mQueryGo B W (-1) (mBuildT B W (-1) L).root a
      (mBuildT B W (-1) L).root.lpm W ∈ _
  rw [hroot, hrlpm, mQueryGo_eq_fold]
  rcases foldl_lpm_mem (-1) (mPathNodes (mRawRoot B W (-1) L) (chunks B W a W))
      (-1) with h | ⟨nd, hm, he2, hne⟩
  · rw [h]
    exact Finset.mem_insert_self _ _
  · rw [he2, Finset.mem_insert]
    right
    obtain ⟨k, hk⟩ := List.mem_iff_get?.mp hm
    obtain ⟨hkD, -⟩ := List.get?_eq_some.mp hk
    have hkW : k < W := by omega
    have hlkk : mLookupPath (mRawRoot B W (-1) L) ((chunks B W a W).take (k + 1)) =
        some nd := by
      rw [← mPathNodes_get (chunks B W a W) (mRawRoot B W (-1) L) k (by omega)]
      exact hk
    have h5 := hlpmL ((chunks B W a W).take (k + 1))
    rw [show mlpmAt (mRawRoot B W (-1) L) ((chunks B W a W).take (k + 1)) =
      some nd.lpm from by simp [mlpmAt, hlkk]] at h5
    have hlast : lastW B W L ((chunks B W a W).take (k + 1)) = some nd.lpm := by
      unfold invVal at h5
      cases hl2 : lastW B W L ((chunks B W a W).take (k + 1)) with
      | some v =>
        rw [hl2] at h5
        rw [show v = nd.lpm from by simpa using h5.symm]
      | none =>
        rw [hl2] at h5
        by_cases hp : (chunks B W a W).take (k + 1) = [] ∨
            touchedB B W L ((chunks B W a W).take (k + 1)) = true
        · rw [if_pos hp] at h5
          exact absurd (by simpa using h5) hne
        · rw [if_neg hp] at h5
          simp at h5
    obtain ⟨f, hf, hft, hfv⟩ := lastW_mem B W L _ _ hlast
    have hlen1 : ((chunks B W a W).take (k + 1)).length = k + 1 := by
      rw [List.length_take]
      omega
    have hflen : levels B f.mask = k + 1 := by
      have := termB_length B W hB _ f.ip f.mask hft
      omega
    rw [hqa, mem_covL]
    refine ⟨f, hf, ⟨?_, ?_⟩, hfv⟩
    · rw [htakeD, hflen]
      omega
    · rw [List.take_take, hflen, min_eq_left (by omega)]
      exact hft

/-- Witness for C3 at concrete inputs: the section-8 scenario inserted
into a `MultiTritrie<8>`, queried at 10.255.0.3. -/
theorem claim_C3_witness :
    MTri.queryAll 8 32 (mBuildT 8 32 (-1) scenario) (10 * 2 ^ 24 + 255 * 2 ^ 16 + 3) =
      coversSet 32 scenario (10 * 2 ^ 24 + 255 * 2 ^ 16 + 3) ∧
    MTri.query 8 32 (-1) (mBuildT 8 32 (-1) scenario) (10 * 2 ^ 24 + 255 * 2 ^ 16 + 3) ∈
      insert (-1 : Int)
        (MTri.queryAll 8 32 (mBuildT 8 32 (-1) scenario)
          (10 * 2 ^ 24 + 255 * 2 ^ 16 + 3)) :=
  claim_C3_multitritrie_set_law 8 32 scenario (10 * 2 ^ 24 + 255 * 2 ^ 16 + 3)
    (by decide) (by decide) (by decide) (by decide)

/-- A string without a slash splits into itself. -/
theorem splitSlash_none_fst :
    ∀ cs : List Char, (splitSlash cs).2 = none → (splitSlash cs).1 = cs := by
  intro cs
  induction cs with
  | nil => intro h; rfl
  | cons c rest ih =>
    intro h
    by_cases hc : c = '/'
    · rw [show splitSlash (c :: rest) = ([], some rest) from by
        simp [splitSlash, hc]] at h
      simp at h
    · rw [show splitSlash (c :: rest) =
        (c :: (splitSlash rest).1, (splitSlash rest).2) from by
        simp [splitSlash, hc]] at h ⊢
      rw [ih h]

/-- A parsed dotted quad fits in 32 bits. -/
theorem dottedQuad_lt : ∀ (cs : List Char) (ip : Nat),
    dottedQuad cs = some ip → ip < 2 ^ 32 := by
  intro cs ip h
  unfold dottedQuad at h
  split at h
  · split at h
    · rename_i hle
      injection h with h
      omega
    · exact absurd h (by simp)
  · exact absurd h (by simp)

/-- Claim C8 (amended): `Flat::query_string` hands the whole input string
to `inet_aton` — no mask is split off and the family is IPv4 regardless
of `W` — whereas `Tritrie::query_string` separates an optional `/mask`,
rejecting a partial one.  The two therefore agree exactly on maskless
IPv4 inputs: on every input without a slash they return the same value
or fail the same way, while a `/W` suffix accepted by the Tritrie makes
the Flatritrie's parse fail. -/
theorem claim_C8_maskless_parity :
    ∀ (B PS : Nat) (L : List Ins) (cs : List Char),
      0 < B → B ≤ 32 → validSeq 32 (-1) L → (splitSlash cs).2 = none →
      FlatS.queryStr B (-1) (FlatS.build B 32 (-1) PS (buildT B 32 (-1) L)) cs =
        Tri.queryStr B (-1) (buildT B 32 (-1) L) cs := by
  intro B PS L cs hB hBW hv hm
  have h1 : splitSlash cs = (cs, none) := by
    have h2 := splitSlash_none_fst cs hm
    cases h3 : splitSlash cs
    rw [h3] at h2 hm
    simp at h2 hm
    rw [h2, hm]
  unfold FlatS.queryStr Tri.queryStr ipFromStr
  rw [h1]
  cases hq : dottedQuad cs with
  | none => simp [hq]
  | some ip =>
    have hlt := dottedQuad_lt cs ip hq
    have he := flat_tri_query_eq B 32 PS hB hBW hv.1 hlt
    simp [hq, he]

/-- Witness for C8 at concrete inputs: the section-8 scenario at
`BITS = 8`, page size 10000, maskless query text "10.255.0.3". -/
theorem claim_C8_witness :
    FlatS.queryStr 8 (-1) (FlatS.build 8 32 (-1) 10000 (buildT 8 32 (-1) scenario))
        "10.255.0.3".data =
      Tri.queryStr 8 (-1) (buildT 8 32 (-1) scenario) "10.255.0.3".data :=
  claim_C8_maskless_parity 8 10000 scenario "10.255.0.3".data
    (by decide) (by decide) (by decide) (by decide)

/-- Counterexample to C8 as stated: on the full-mask input
"10.255.0.3/32" the Tritrie's `query_string` parses the address, accepts
the mask `32 = W` and answers `3`, while the Flatritrie's `query_string`
passes the whole string to `inet_aton` and fails to parse. -/
theorem claim_C8_counterexample :
    Tri.queryStr 8 (-1) (buildT 8 32 (-1) scenario) "10.255.0.3/32".data =
      Except.ok 3 ∧
    FlatS.queryStr 8 (-1) (FlatS.build 8 32 (-1) 10000 (buildT 8 32 (-1) scenario))
        "10.255.0.3/32".data = Except.error Err.parseError := by
  constructor
  · rfl
  · rfl

end Flatritrie
